import Mathlib

/-!
Verification of the core of a Boggle-style word-search program
(dynamic bit set, 32-wide fixed bit set, radix-26 prefix trie,
letter-indexed board, and the eager/lazy search engines).

Machine integers are modelled as `Nat` with explicit `% 2^w` or masking
where overflow matters; fallible operations (Rust panics: out-of-bounds
indexing, shift-overflow, arithmetic underflow) are modelled with
`Option`, `none` standing for the panic.
-/

namespace Boggle

/-! ## Dynamic bit set (src/src/bitset/bitset.rs)

`BitSet` is backed by a vector of `u64` words, most-significant-bit
first inside each word (global bit `i` lives in word `i / 64` at mask
`0x8000000000000000 >> (i % 64)`).  Words are modelled as `Nat`; every
operation keeps each word below `2 ^ 64`. -/

/-- The constant `TWO_POW_64 : u64 = 0x8000000000000000` (the MSB). -/
def TWO_POW_64 : Nat := 0x8000000000000000

/-- The constant `MAX : u64 = 0xFFFFFFFFFFFFFFFF`. -/
def MAX64 : Nat := 0xFFFFFFFFFFFFFFFF

structure BitSet where
  data : List Nat
  len : Nat
  deriving Repr, DecidableEq

namespace BitSet

/-- `BitSet::new`. -/
def new : BitSet := ⟨[], 0⟩

/-- `BitSet::idx — fn idx(i) = (i / 64, (i % 64))`. -/
def idx (i : Nat) : Nat × Nat := (i / 64, i % 64)

/-- `BitSet::get`.  Out-of-storage indices read as `false`. -/
def get (b : BitSet) (i : Nat) : Bool :=
  let p := idx i
  if p.1 < b.data.length then
    (b.data.getD p.1 0) &&& (TWO_POW_64 >>> p.2) != 0
  else
    false

/-- `BitSet::add`: grow storage to `idx + 1` words if needed, bump `len`
to `max len (i+1)`, set the bit. -/
def add (b : BitSet) (i : Nat) : BitSet :=
  let p := idx i
  let data :=
    if p.1 < b.data.length then b.data
    else b.data ++ List.replicate (p.1 + 1 - b.data.length) 0
  ⟨data.set p.1 ((data.getD p.1 0) ||| (TWO_POW_64 >>> p.2)),
   max b.len (i + 1)⟩

/-- Fuelled trailing-zero count; `trailingZeros 64 d` models
`u64::trailing_zeros(d)` for `d < 2 ^ 64` (64 when `d = 0`). -/
def trailingZeros : Nat → Nat → Nat
  | 0, _ => 0
  | f + 1, d => if d % 2 = 1 then 0 else trailingZeros f (d / 2) + 1

/-- The backward rescan in `BitSet::remove`: the highest-index
nonzero storage word, together with its index. -/
def findTopWord (data : List Nat) : Option (Nat × Nat) :=
  data.enum.reverse.find? (fun p => p.2 != 0)

/-- `BitSet::remove`: clear bit `i` when `i < len`; when `i` was the
current maximum, rescan backward for the new highest set bit. -/
def remove (b : BitSet) (i : Nat) : BitSet :=
  if i < b.len then
    let p := idx i
    let data := b.data.set p.1 ((b.data.getD p.1 0) &&& (MAX64 ^^^ (TWO_POW_64 >>> p.2)))
    if i = b.len - 1 then
      match findTopWord data with
      | some (j, d) => ⟨data, j * 64 + (64 - trailingZeros 64 d)⟩
      | none => ⟨data, 0⟩
    else
      ⟨data, b.len⟩
  else b

/-- `BitSet::clear`: zero every storage word (words stay allocated),
reset `len`. -/
def clear (b : BitSet) : BitSet :=
  ⟨b.data.map (fun _ => 0), 0⟩

/-- One step of `IndexIter::next` (the set-bit index iterator of
`BitSet`), on the scan state `(idx, off)`.  Returns the yielded global
bit index and the next scan state. -/
def iterNext (data : List Nat) (i off : Nat) : Option (Nat × Nat × Nat) :=
  if _h : i < data.length then
    match (data.getD i 0) &&& (MAX64 >>> off) with
    | 0 => iterNext data (i + 1) 0
    | 1 => some ((i + 1) * 64 - 1, (i + 1, 0))
    | v => let lz := 63 - Nat.log2 v
           some (i * 64 + lz, (i, lz + 1))
  else none
  termination_by data.length - i

/-- Unfold the set-bit iterator into the list of yielded indices.
`fuel` dominates the number of yields (one per set bit). -/
def iterOnesAux (data : List Nat) : Nat → Nat → Nat → List Nat
  | _, _, 0 => []
  | i, off, f + 1 =>
    match iterNext data i off with
    | none => []
    | some (j, s) => j :: iterOnesAux data s.1 s.2 f

/-- `BitSet::iter_ones`, run to exhaustion (`64 * #words` fuel bounds
the number of set bits, hence of yields). -/
def iter_ones (b : BitSet) : List Nat :=
  iterOnesAux b.data 0 0 (64 * b.data.length)

end BitSet

/-- Global bit `k` of a word list, MSB-first inside each 64-bit word:
word `k / 64`, bit value `2 ^ (63 - k % 64)`. -/
def bitAt (data : List Nat) (k : Nat) : Bool :=
  (data.getD (k / 64) 0).testBit (63 - k % 64)

/-! ### Arithmetic helpers for the bit-level reasoning -/

theorem TWO_POW_64_eq : TWO_POW_64 = 2 ^ 63 := by norm_num [TWO_POW_64]

theorem MAX64_eq : MAX64 = 2 ^ 64 - 1 := by norm_num [MAX64]

theorem TWO_POW_64_shr (off : Nat) (h : off ≤ 63) :
    TWO_POW_64 >>> off = 2 ^ (63 - off) := by
  rw [TWO_POW_64_eq, Nat.shiftRight_eq_div_pow, Nat.pow_div h (by norm_num)]

theorem pow_sub_one_shr (w off : Nat) (h : off ≤ w) :
    (2 ^ w - 1) >>> off = 2 ^ (w - off) - 1 := by
  rw [Nat.shiftRight_eq_div_pow]
  have hpos : 0 < 2 ^ off := Nat.pos_pow_of_pos _ (by norm_num)
  have ha : 0 < 2 ^ (w - off) := Nat.pos_pow_of_pos _ (by norm_num)
  have hw : 2 ^ w = 2 ^ (w - off) * 2 ^ off := by rw [← pow_add]; congr 1; omega
  have h1 : 2 ^ off * (2 ^ (w - off) - 1) = 2 ^ (w - off) * 2 ^ off - 2 ^ off := by
    rw [Nat.mul_sub, mul_one, mul_comm]
  have hge : 2 ^ off ≤ 2 ^ w := Nat.pow_le_pow_right (by norm_num) h
  have key : 2 ^ w - 1 = (2 ^ off - 1) + 2 ^ off * (2 ^ (w - off) - 1) := by omega
  rw [key, Nat.add_mul_div_left _ _ hpos, Nat.div_eq_of_lt (by omega), Nat.zero_add]

theorem and_two_pow_ne_zero (x k : Nat) : (x &&& 2 ^ k != 0) = x.testBit k := by
  rcases h : x.testBit k with _ | _
  · have hz : x &&& 2 ^ k = 0 := by
      apply Nat.eq_of_testBit_eq; intro i
      rw [Nat.testBit_and, Nat.testBit_two_pow, Nat.zero_testBit]
      rcases eq_or_ne k i with rfl | hne
      · simp [h]
      · simp [hne]
    simp [hz]
  · have ht : (x &&& 2 ^ k).testBit k = true := by
      rw [Nat.testBit_and, h, Nat.testBit_two_pow]; simp
    have hne : x &&& 2 ^ k ≠ 0 := by
      intro hz; rw [hz] at ht; simp at ht
    simp [hne]

theorem getD_append_replicate_zero (l : List Nat) (m n : Nat) :
    (l ++ List.replicate m 0).getD n 0 = l.getD n 0 := by
  rw [List.getD_eq_getElem?_getD, List.getD_eq_getElem?_getD, List.getElem?_append]
  split
  · rfl
  · next h =>
    have hl : l[n]? = none := List.getElem?_eq_none (by omega)
    rw [hl]
    rcases Nat.lt_or_ge (n - l.length) m with h2 | h2
    · simp [List.getElem?_replicate, h2]
    · rw [List.getElem?_eq_none (by simpa using h2)]

theorem getD_map_zero (l : List Nat) (n : Nat) :
    (l.map (fun _ => (0 : Nat))).getD n 0 = 0 := by
  rw [List.getD_eq_getElem?_getD]
  rcases Nat.lt_or_ge n l.length with h | h
  · simp [List.getElem?_map, List.getElem?_eq_getElem h]
  · simp [List.getElem?_eq_none (by simpa using h)]

/-- 64-bit words stay below `2 ^ 64`. -/
def WFdata (data : List Nat) : Prop := ∀ w ∈ data, w < 2 ^ 64

/-- Invariant of every reachable `BitSet`: words are 64-bit, all bits at
or above `len` are clear, and (unless empty) bit `len - 1` is set. -/
structure BitSet.WF (b : BitSet) : Prop where
  words : WFdata b.data
  bounded : ∀ k, bitAt b.data k = true → k < b.len
  top : b.len = 0 ∨ bitAt b.data (b.len - 1) = true

theorem bitAt_oob {data : List Nat} {k : Nat} (h : data.length ≤ k / 64) :
    bitAt data k = false := by
  unfold bitAt
  rw [List.getD_eq_getElem?_getD, List.getElem?_eq_none (by simpa using h)]
  simp

theorem bitAt_lt {data : List Nat} {k : Nat} (h : bitAt data k = true) :
    k < 64 * data.length := by
  by_contra hk
  rw [bitAt_oob (by omega)] at h
  exact Bool.noConfusion h

theorem WFdata.getD_lt {data : List Nat} (h : WFdata data) (n : Nat) :
    data.getD n 0 < 2 ^ 64 := by
  rcases Nat.lt_or_ge n data.length with hn | hn
  · rw [List.getD_eq_getElem?_getD, List.getElem?_eq_getElem hn]
    exact h _ (List.getElem_mem hn)
  · rw [List.getD_eq_getElem?_getD, List.getElem?_eq_none hn]
    exact Nat.pos_pow_of_pos _ (by norm_num)

theorem getD_set_self {α : Type} (l : List α) (n : Nat) (a d : α) (h : n < l.length) :
    (l.set n a).getD n d = a := by
  rw [List.getD_eq_getElem?_getD, List.getElem?_set_self h]; rfl

theorem getD_set_ne {α : Type} (l : List α) (m n : Nat) (a d : α) (h : m ≠ n) :
    (l.set m a).getD n d = l.getD n d := by
  rw [List.getD_eq_getElem?_getD, List.getElem?_set_ne h, ← List.getD_eq_getElem?_getD]

namespace BitSet

theorem get_eq_bitAt (b : BitSet) (i : Nat) : b.get i = bitAt b.data i := by
  unfold get bitAt idx
  simp only []
  split
  · next h =>
    rw [TWO_POW_64_shr _ (by omega)]
    exact and_two_pow_ne_zero _ _
  · next h =>
    rw [List.getD_eq_getElem?_getD, List.getElem?_eq_none (by omega)]
    simp

theorem get_new (i : Nat) : new.get i = false := rfl

theorem bitAt_add (b : BitSet) (i k : Nat) :
    bitAt (b.add i).data k = (decide (k = i) || bitAt b.data k) := by
  have hoff : i % 64 ≤ 63 := by omega
  have main : ∀ data : List Nat, i / 64 < data.length →
      (∀ n, data.getD n 0 = b.data.getD n 0) →
      bitAt (data.set (i / 64) (data.getD (i / 64) 0 ||| TWO_POW_64 >>> (i % 64))) k
        = (decide (k = i) || bitAt b.data k) := by
    intro data hlen hget
    unfold bitAt
    rcases eq_or_ne (k / 64) (i / 64) with he | hne
    · rw [he, getD_set_self _ _ _ _ hlen, Nat.testBit_or, hget, TWO_POW_64_shr _ hoff,
        Nat.testBit_two_pow]
      rw [decide_eq_decide.mpr (show (63 - i % 64 = 63 - k % 64) ↔ k = i by omega),
        Bool.or_comm]
    · rw [getD_set_ne _ _ _ _ _ (Ne.symm hne), hget,
        decide_eq_false (fun h : k = i => hne (by rw [h])), Bool.false_or]
  rcases Nat.lt_or_ge (i / 64) b.data.length with h | h
  · have : (b.add i).data
        = b.data.set (i / 64) (b.data.getD (i / 64) 0 ||| TWO_POW_64 >>> (i % 64)) := by
      unfold add idx; simp only [if_pos h]
    rw [this]; exact main b.data h (fun _ => rfl)
  · have : (b.add i).data
        = (b.data ++ List.replicate (i / 64 + 1 - b.data.length) 0).set (i / 64)
            ((b.data ++ List.replicate (i / 64 + 1 - b.data.length) 0).getD (i / 64) 0 |||
              TWO_POW_64 >>> (i % 64)) := by
      unfold add idx; simp only [if_neg (Nat.not_lt.mpr h)]
    rw [this]
    exact main _ (by simp only [List.length_append, List.length_replicate]; omega)
      (fun n => getD_append_replicate_zero _ _ _)

theorem len_add (b : BitSet) (i : Nat) : (b.add i).len = max b.len (i + 1) := rfl

theorem length_add_data (b : BitSet) (i : Nat) :
    (b.add i).data.length = max b.data.length (i / 64 + 1) := by
  rcases Nat.lt_or_ge (i / 64) b.data.length with h | h
  · unfold add idx
    simp only [if_pos h, List.length_set]
    omega
  · unfold add idx
    simp only [if_neg (Nat.not_lt.mpr h), List.length_set, List.length_append,
      List.length_replicate]
    omega

theorem words_add {b : BitSet} (hw : WFdata b.data) (i : Nat) :
    WFdata (b.add i).data := by
  have hmask : TWO_POW_64 >>> (i % 64) < 2 ^ 64 := by
    rw [TWO_POW_64_shr _ (by omega)]
    exact Nat.pow_lt_pow_right (by norm_num) (by omega)
  have hpad : WFdata (b.data ++ List.replicate (i / 64 + 1 - b.data.length) 0) := by
    intro w hwmem
    rcases List.mem_append.mp hwmem with h | h
    · exact hw _ h
    · rw [List.eq_of_mem_replicate h]
      exact Nat.pos_pow_of_pos _ (by norm_num)
  intro w hwmem
  rcases Nat.lt_or_ge (i / 64) b.data.length with h | h
  · unfold add idx at hwmem
    simp only [if_pos h] at hwmem
    rcases List.mem_or_eq_of_mem_set hwmem with h2 | h2
    · exact hw _ h2
    · rw [h2]; exact Nat.or_lt_two_pow (hw.getD_lt _) hmask
  · unfold add idx at hwmem
    simp only [if_neg (Nat.not_lt.mpr h)] at hwmem
    rcases List.mem_or_eq_of_mem_set hwmem with h2 | h2
    · exact hpad _ h2
    · rw [h2]; exact Nat.or_lt_two_pow (hpad.getD_lt _) hmask

theorem new_WF : new.WF := by
  refine ⟨?_, ?_, Or.inl rfl⟩
  · intro w hw; cases hw
  · intro k hk
    rw [show bitAt new.data k = false from by unfold bitAt new; simp] at hk
    cases hk

theorem WF_add {b : BitSet} (hb : b.WF) (i : Nat) : (b.add i).WF := by
  refine ⟨words_add hb.words i, ?_, ?_⟩
  · intro k hk
    rw [bitAt_add] at hk
    rcases Bool.or_eq_true_iff.mp hk with h | h
    · have : k = i := of_decide_eq_true h
      rw [len_add]; omega
    · have := hb.bounded k h
      rw [len_add]; omega
  · rw [len_add]
    rcases Nat.lt_or_ge b.len (i + 1) with h | h
    · right
      rw [Nat.max_eq_right (by omega), bitAt_add]
      simp
    · rcases hb.top with h0 | h0
      · right
        rw [Nat.max_eq_left h, bitAt_add]
        have : b.len - 1 = i := by omega
        simp [this]
      · right
        rw [Nat.max_eq_left h, bitAt_add, h0, Bool.or_true]

theorem trailingZeros_spec :
    ∀ f d, d ≠ 0 → d < 2 ^ f →
      d.testBit (trailingZeros f d) = true ∧
        ∀ j < trailingZeros f d, d.testBit j = false := by
  intro f
  induction f with
  | zero => intro d h0 hlt; omega
  | succ f ih =>
    intro d h0 hlt
    unfold trailingZeros
    split
    · next hodd =>
      refine ⟨by rw [Nat.testBit_zero]; simp [hodd], fun j hj => by omega⟩
    · next heven =>
      have hd2 : d / 2 ≠ 0 := by omega
      have hpow : 2 ^ (f + 1) = 2 ^ f * 2 := by ring
      obtain ⟨h1, h2⟩ := ih (d / 2) hd2 (by omega)
      refine ⟨by rw [Nat.testBit_add_one]; exact h1, ?_⟩
      intro j hj
      cases j with
      | zero => rw [Nat.testBit_zero]; simp only [decide_eq_false_iff_not]; omega
      | succ j' => rw [Nat.testBit_add_one]; exact h2 j' (by omega)

theorem trailingZeros_le : ∀ f d, trailingZeros f d ≤ f := by
  intro f
  induction f with
  | zero => intro d; rfl
  | succ f ih =>
    intro d
    unfold trailingZeros
    split
    · omega
    · have := ih (d / 2); omega

theorem findTopWord_nil : findTopWord [] = none := rfl

theorem findTopWord_append (l : List Nat) (a : Nat) :
    findTopWord (l ++ [a]) = if a ≠ 0 then some (l.length, a) else findTopWord l := by
  unfold findTopWord
  rw [List.enum_append, List.reverse_append]
  show List.find? _ ((l.length, a) :: l.enum.reverse) = _
  rcases eq_or_ne a 0 with rfl | ha
  · rw [List.find?_cons_of_neg _ (by simp)]
    simp
  · rw [List.find?_cons_of_pos _ (by simpa using ha)]
    simp [ha]

theorem findTopWord_none :
    ∀ l : List Nat, findTopWord l = none → ∀ n, l.getD n 0 = 0 := by
  intro l
  induction l using List.reverseRecOn with
  | nil =>
    intro _ n
    rw [List.getD_eq_getElem?_getD, List.getElem?_eq_none (by simp)]
    rfl
  | append_singleton l a ih =>
    intro h n
    rw [findTopWord_append] at h
    rcases eq_or_ne a 0 with rfl | ha
    · rw [if_neg (by simp)] at h
      rcases Nat.lt_or_ge n l.length with hn | hn
      · rw [List.getD_eq_getElem?_getD, List.getElem?_append,
          if_pos (by simpa using hn), ← List.getD_eq_getElem?_getD]
        exact ih h n
      · rcases Nat.lt_or_ge n (l.length + 1) with hn2 | hn2
        · have : n = l.length := by omega
          subst this
          rw [List.getD_eq_getElem?_getD, List.getElem?_append_right (le_refl _)]
          simp
        · rw [List.getD_eq_getElem?_getD, List.getElem?_eq_none (by simp; omega)]
          rfl
    · rw [if_pos ha] at h; cases h

theorem findTopWord_some :
    ∀ l : List Nat, ∀ j d, findTopWord l = some (j, d) →
      l.getD j 0 = d ∧ d ≠ 0 ∧ j < l.length ∧ ∀ n, j < n → l.getD n 0 = 0 := by
  intro l
  induction l using List.reverseRecOn with
  | nil => intro j d h; rw [findTopWord_nil] at h; cases h
  | append_singleton l a ih =>
    intro j d h
    rw [findTopWord_append] at h
    rcases eq_or_ne a 0 with rfl | ha
    · rw [if_neg (by simp)] at h
      obtain ⟨h1, h2, h3, h4⟩ := ih j d h
      refine ⟨?_, h2, by simp; omega, ?_⟩
      · rw [List.getD_eq_getElem?_getD, List.getElem?_append, if_pos (by simpa using h3),
          ← List.getD_eq_getElem?_getD]
        exact h1
      · intro n hn
        rcases Nat.lt_or_ge n l.length with hn2 | hn2
        · rw [List.getD_eq_getElem?_getD, List.getElem?_append, if_pos (by simpa using hn2),
            ← List.getD_eq_getElem?_getD]
          exact h4 n hn
        · rcases Nat.lt_or_ge n (l.length + 1) with hn3 | hn3
          · have : n = l.length := by omega
            subst this
            rw [List.getD_eq_getElem?_getD, List.getElem?_append_right (le_refl _)]
            simp
          · rw [List.getD_eq_getElem?_getD, List.getElem?_eq_none (by simp; omega)]
            rfl
    · rw [if_pos ha] at h
      injection h with h
      injection h with hj hd
      subst hj; subst hd
      refine ⟨?_, ha, by simp, ?_⟩
      · rw [List.getD_eq_getElem?_getD, List.getElem?_append_right (le_refl _)]
        simp
      · intro n hn
        rw [List.getD_eq_getElem?_getD, List.getElem?_eq_none (by simp; omega)]
        rfl

/-- Effect of the word-level mask in `remove` (bit `i` cleared, nothing
else changed), for any in-range word index. -/
theorem bitAt_mask {data : List Nat} (hw : WFdata data) (i k : Nat)
    (hlen : i / 64 < data.length) :
    bitAt (data.set (i / 64) (data.getD (i / 64) 0 &&& (MAX64 ^^^ TWO_POW_64 >>> (i % 64)))) k
      = (decide (k ≠ i) && bitAt data k) := by
  have hoff : i % 64 ≤ 63 := by omega
  have hmask : ∀ x : Nat, x < 2 ^ 64 → ∀ t, t ≤ 63 →
      (x &&& (MAX64 ^^^ TWO_POW_64 >>> (i % 64))).testBit t
        = (decide (t ≠ 63 - i % 64) && x.testBit t) := by
    intro x hx t ht
    rw [Nat.testBit_and, Nat.testBit_xor, TWO_POW_64_shr _ hoff, MAX64_eq,
      Nat.testBit_two_pow_sub_one, Nat.testBit_two_pow]
    rcases eq_or_ne (63 - i % 64) t with he | hne
    · subst he
      simp [show 63 - i % 64 < 64 by omega]
    · simp [hne, Ne.symm hne, show t < 64 by omega]
  unfold bitAt
  rcases eq_or_ne (k / 64) (i / 64) with he | hne
  · rw [he, getD_set_self _ _ _ _ hlen, hmask _ (hw.getD_lt _) _ (by omega)]
    congr 1
    exact decide_eq_decide.mpr (by omega)
  · rw [getD_set_ne _ _ _ _ _ (Ne.symm hne)]
    have : decide (k ≠ i) = true := decide_eq_true (fun h : k = i => hne (by rw [h]))
    rw [this, Bool.true_and]

/-- Proof-side name for the storage of `remove b i` in the `i < len`
cases (word `i / 64` masked). -/
def maskData (b : BitSet) (i : Nat) : List Nat :=
  b.data.set (i / 64) (b.data.getD (i / 64) 0 &&& (MAX64 ^^^ TWO_POW_64 >>> (i % 64)))

theorem remove_eq_of_ge {b : BitSet} {i : Nat} (h : b.len ≤ i) : b.remove i = b := by
  unfold remove idx
  rw [if_neg (Nat.not_lt.mpr h)]

theorem remove_eq_of_mid {b : BitSet} {i : Nat} (h1 : i < b.len) (h2 : i ≠ b.len - 1) :
    b.remove i = ⟨maskData b i, b.len⟩ := by
  unfold remove idx maskData
  rw [if_pos h1]
  simp only [if_neg h2]

theorem remove_eq_of_top_some {b : BitSet} {i j d : Nat} (h1 : i < b.len)
    (h2 : i = b.len - 1) (h3 : findTopWord (maskData b i) = some (j, d)) :
    b.remove i = ⟨maskData b i, j * 64 + (64 - trailingZeros 64 d)⟩ := by
  unfold remove idx
  rw [if_pos h1]
  simp only [if_pos h2]
  unfold maskData at h3
  rw [h3]
  rfl

theorem remove_eq_of_top_none {b : BitSet} {i : Nat} (h1 : i < b.len)
    (h2 : i = b.len - 1) (h3 : findTopWord (maskData b i) = none) :
    b.remove i = ⟨maskData b i, 0⟩ := by
  unfold remove idx
  rw [if_pos h1]
  simp only [if_pos h2]
  unfold maskData at h3
  rw [h3]
  rfl

theorem top_word_lt {b : BitSet} (hb : b.WF) {i : Nat} (hi : i < b.len) :
    i / 64 < b.data.length := by
  have htop : bitAt b.data (b.len - 1) = true := by
    rcases hb.top with h0 | h0
    · omega
    · exact h0
  have := bitAt_lt htop
  omega

theorem bitAt_maskData {b : BitSet} (hb : b.WF) {i : Nat} (hi : i < b.len) (k : Nat) :
    bitAt (maskData b i) k = (decide (k ≠ i) && bitAt b.data k) :=
  bitAt_mask hb.words i k (top_word_lt hb hi)

theorem words_maskData {b : BitSet} (hb : b.WF) (i : Nat) : WFdata (maskData b i) := by
  intro w hwmem
  rcases List.mem_or_eq_of_mem_set hwmem with h2 | h2
  · exact hb.words _ h2
  · rw [h2]
    exact Nat.lt_of_le_of_lt Nat.and_le_left (hb.words.getD_lt _)

theorem bitAt_remove {b : BitSet} (hb : b.WF) (i k : Nat) :
    bitAt (b.remove i).data k = (decide (k ≠ i) && bitAt b.data k) := by
  rcases Nat.lt_or_ge i b.len with hi | hi
  · have hdata : (b.remove i).data = maskData b i := by
      rcases eq_or_ne i (b.len - 1) with h2 | h2
      · rcases h3 : findTopWord (maskData b i) with _ | ⟨j, d⟩
        · rw [remove_eq_of_top_none hi h2 h3]
        · rw [remove_eq_of_top_some hi h2 h3]
      · rw [remove_eq_of_mid hi h2]
    rw [hdata]
    exact bitAt_maskData hb hi k
  · rw [remove_eq_of_ge hi]
    rcases eq_or_ne k i with rfl | hne
    · have : bitAt b.data k = false := by
        rcases hk : bitAt b.data k with _ | _
        · rfl
        · have := hb.bounded k hk; omega
      simp [this]
    · simp [hne]

theorem WF_remove {b : BitSet} (hb : b.WF) (i : Nat) : (b.remove i).WF := by
  rcases Nat.lt_or_ge i b.len with hi | hi
  · rcases eq_or_ne i (b.len - 1) with h2 | h2
    · rcases h3 : findTopWord (maskData b i) with _ | ⟨j, d⟩
      · -- set became empty
        rw [remove_eq_of_top_none hi h2 h3]
        refine ⟨words_maskData hb i, ?_, Or.inl rfl⟩
        intro k hk
        unfold bitAt at hk
        rw [findTopWord_none _ h3 (k / 64)] at hk
        simp at hk
      · -- rescan found the new top word
        rw [remove_eq_of_top_some hi h2 h3]
        obtain ⟨hd1, hd2, hd3, hd4⟩ := findTopWord_some _ j d h3
        have hdlt : d < 2 ^ 64 := by
          rw [← hd1]; exact (words_maskData hb i).getD_lt _
        obtain ⟨ht1, ht2⟩ := trailingZeros_spec 64 d hd2 hdlt
        have htle : trailingZeros 64 d ≤ 63 := by
          by_contra hgt
          have h64 : trailingZeros 64 d = 64 := by
            have := trailingZeros_le 64 d; omega
          rw [h64] at ht1
          rw [Nat.testBit_eq_false_of_lt (Nat.lt_of_lt_of_le hdlt (Nat.pow_le_pow_right
            (by norm_num) (le_refl 64)))] at ht1
          cases ht1
        constructor
        · exact words_maskData hb i
        · -- bounded
          intro k hk
          show k < j * 64 + (64 - trailingZeros 64 d)
          unfold bitAt at hk
          rcases Nat.lt_trichotomy (k / 64) j with hkj | hkj | hkj
          · omega
          · rw [hkj, hd1] at hk
            have : 63 - k % 64 ≥ trailingZeros 64 d := by
              by_contra hcon
              rw [ht2 _ (by omega)] at hk
              cases hk
            omega
          · rw [hd4 _ hkj] at hk
            simp at hk
        · -- top bit is set
          right
          show bitAt (maskData b i) (j * 64 + (64 - trailingZeros 64 d) - 1) = true
          have he1 : (j * 64 + (64 - trailingZeros 64 d) - 1) / 64 = j := by omega
          have he2 : 63 - (j * 64 + (64 - trailingZeros 64 d) - 1) % 64
              = trailingZeros 64 d := by omega
          unfold bitAt
          rw [he1, he2, hd1]
          exact ht1
    · -- removing a non-maximal bit: `len` unchanged
      rw [remove_eq_of_mid hi h2]
      refine ⟨words_maskData hb i, ?_, ?_⟩
      · intro k hk
        rw [show (⟨maskData b i, b.len⟩ : BitSet).data = maskData b i from rfl,
          bitAt_maskData hb hi] at hk
        exact hb.bounded k ((Bool.and_eq_true _ _).mp hk).2
      · right
        rw [show (⟨maskData b i, b.len⟩ : BitSet).data = maskData b i from rfl,
          bitAt_maskData hb hi]
        have htop : bitAt b.data (b.len - 1) = true := by
          rcases hb.top with h0 | h0
          · omega
          · exact h0
        rw [htop, decide_eq_true (show b.len - 1 ≠ i from fun h => h2 h.symm)]
        rfl
  · rw [remove_eq_of_ge hi]
    exact hb

theorem bitAt_clear (b : BitSet) (k : Nat) : bitAt b.clear.data k = false := by
  unfold clear bitAt
  rw [getD_map_zero]
  exact Nat.zero_testBit _

theorem WF_clear (b : BitSet) : b.clear.WF := by
  refine ⟨?_, ?_, Or.inl rfl⟩
  · intro w hw
    rcases List.mem_map.mp hw with ⟨x, _, hx⟩
    rw [← hx]
    exact Nat.pos_pow_of_pos _ (by norm_num)
  · intro k hk
    rw [bitAt_clear] at hk
    cases hk

end BitSet

/-- Specification popcount of one `w`-bit word. -/
def popcountAux : Nat → Nat → Nat
  | 0, _ => 0
  | f + 1, d => d % 2 + popcountAux f (d / 2)

/-- Population count of the whole word list (64-bit words). -/
def popcount (data : List Nat) : Nat :=
  (data.map (popcountAux 64)).sum

theorem testBit_log2 {v : Nat} (h : v ≠ 0) : v.testBit v.log2 = true := by
  have h1 : 2 ^ v.log2 ≤ v := Nat.log2_self_le h
  have h2 : v < 2 ^ (v.log2 + 1) := (Nat.log2_lt h).mp (Nat.lt_succ_self _)
  have hpos : 0 < 2 ^ v.log2 := Nat.pos_pow_of_pos _ (by norm_num)
  have hdiv : v / 2 ^ v.log2 = 1 := by
    have hle : 1 ≤ v / 2 ^ v.log2 := (Nat.le_div_iff_mul_le hpos).mpr (by omega)
    have hlt : v / 2 ^ v.log2 < 2 := (Nat.div_lt_iff_lt_mul hpos).mpr (by
      rw [show 2 * 2 ^ v.log2 = 2 ^ (v.log2 + 1) by ring]; exact h2)
    omega
  rw [Nat.testBit_to_div_mod, hdiv]
  rfl

theorem testBit_false_of_log2_lt {v t : Nat} (h : v ≠ 0) (ht : v.log2 < t) :
    v.testBit t = false :=
  Nat.testBit_eq_false_of_lt (Nat.lt_of_lt_of_le ((Nat.log2_lt h).mp (Nat.lt_succ_self _))
    (Nat.pow_le_pow_right (by norm_num) ht))

namespace BitSet

theorem masked_eq {x off : Nat} (hoff : off ≤ 64) :
    x &&& MAX64 >>> off = x % 2 ^ (64 - off) := by
  rw [MAX64_eq, pow_sub_one_shr 64 off hoff, Nat.and_pow_two_sub_one_eq_mod]

theorem iterNext_eq_oob {data : List Nat} {i off : Nat} (h : ¬ i < data.length) :
    iterNext data i off = none := by
  rw [iterNext]
  exact dif_neg h

/-- A bit of word `i` at in-word offset `≥ off` seen through the mask
`MAX >> off`. -/
theorem bitAt_eq_masked {data : List Nat} {i off k : Nat}
    (hk1 : 64 * i + off ≤ k) (hk2 : k < 64 * (i + 1)) :
    bitAt data k = (data.getD i 0 % 2 ^ (64 - off)).testBit (63 - k % 64) := by
  have hki : k / 64 = i := by omega
  unfold bitAt
  rw [hki, Nat.testBit_mod_two_pow,
    decide_eq_true (show 63 - k % 64 < 64 - off by omega), Bool.true_and]

theorem iterNext_spec {data : List Nat} :
    ∀ n i off, data.length - i ≤ n → off ≤ 64 →
      (iterNext data i off = none → ∀ k, 64 * i + off ≤ k → bitAt data k = false) ∧
      (∀ j i' off', iterNext data i off = some (j, (i', off')) →
        64 * i + off ≤ j ∧ bitAt data j = true ∧
        (∀ k, 64 * i + off ≤ k → k < j → bitAt data k = false) ∧
        64 * i' + off' = j + 1 ∧ off' ≤ 64) := by
  intro n
  induction n with
  | zero =>
    intro i off hn hoff
    have hge : data.length ≤ i := by omega
    rw [iterNext_eq_oob (by omega)]
    constructor
    · intro _ k hk
      exact bitAt_oob (by omega)
    · intro j i' off' h; cases h
  | succ n ih =>
    intro i off hn hoff
    rcases Nat.lt_or_ge i data.length with hi | hi
    · rw [iterNext]
      rw [dif_pos hi]
      rcases hm : data.getD i 0 &&& MAX64 >>> off with _ | m1
      · -- masked word is zero: skip to the next word
        rw [masked_eq hoff] at hm
        have hword : ∀ k, 64 * i + off ≤ k → k < 64 * (i + 1) → bitAt data k = false := by
          intro k h1 h2
          rw [bitAt_eq_masked h1 h2, hm]
          exact Nat.zero_testBit _
        obtain ⟨ihnone, ihsome⟩ := ih (i + 1) 0 (by omega) (by omega)
        constructor
        · intro hnone k hk
          rcases Nat.lt_or_ge k (64 * (i + 1)) with h2 | h2
          · exact hword k hk h2
          · exact ihnone hnone k (by omega)
        · intro j i' off' hsome
          obtain ⟨hj1, hj2, hj3, hj4, hj5⟩ := ihsome j i' off' hsome
          refine ⟨by omega, hj2, ?_, hj4, hj5⟩
          intro k hk1 hk2
          rcases Nat.lt_or_ge k (64 * (i + 1)) with h2 | h2
          · exact hword k hk1 h2
          · exact hj3 k (by omega) hk2
      · rcases m1 with _ | m2
        · -- masked word is exactly 1: yield bit 63 of this word
          rw [masked_eq hoff] at hm
          have hoff63 : off ≤ 63 := by
            by_contra hc
            have h64 : off = 64 := by omega
            rw [h64] at hm
            simp at hm
            omega
          constructor
          · intro h; cases h
          · intro j i' off' hsome
            have hsome2 : some ((i + 1) * 64 - 1, (i + 1, 0))
                = some (j, (i', off')) := hsome
            injection hsome2 with h2
            injection h2 with hj hrest
            injection hrest with hi' hoff'
            subst hj; subst hi'; subst hoff'
            refine ⟨by omega, ?_, ?_, by omega, by omega⟩
            · rw [bitAt_eq_masked (show 64 * i + off ≤ (i + 1) * 64 - 1 by omega)
                (show (i + 1) * 64 - 1 < 64 * (i + 1) by omega), hm]
              have he : 63 - ((i + 1) * 64 - 1) % 64 = 0 := by omega
              rw [he]
              rfl
            · intro k hk1 hk2
              rw [bitAt_eq_masked hk1 (by omega), hm]
              have hpos : 0 < 63 - k % 64 := by omega
              exact Nat.testBit_eq_false_of_lt
                (Nat.lt_of_lt_of_le (by norm_num)
                  (Nat.pow_le_pow_right (by norm_num) hpos))
        · -- masked word has its top set bit above the LSB
          rw [masked_eq hoff] at hm
          have hvne : m2 + 1 + 1 ≠ 0 := by omega
          have hlog63 : Nat.log2 (m2 + 1 + 1) ≤ 63 := by
            have hlt : m2 + 1 + 1 < 2 ^ 64 := by
              rw [← hm]
              exact Nat.lt_of_lt_of_le (Nat.mod_lt _ (Nat.pos_pow_of_pos _ (by norm_num)))
                (Nat.pow_le_pow_right (by norm_num) (by omega))
            have := (Nat.log2_lt hvne).mpr hlt
            omega
          have hlogoff : Nat.log2 (m2 + 1 + 1) < 64 - off := by
            have hlt : m2 + 1 + 1 < 2 ^ (64 - off) := by
              rw [← hm]; exact Nat.mod_lt _ (Nat.pos_pow_of_pos _ (by norm_num))
            exact (Nat.log2_lt hvne).mpr hlt
          constructor
          · intro h; cases h
          · intro j i' off' hsome
            have hsome2 : some (i * 64 + (63 - Nat.log2 (m2 + 1 + 1)),
                  (i, 63 - Nat.log2 (m2 + 1 + 1) + 1))
                = some (j, (i', off')) := hsome
            injection hsome2 with h2
            injection h2 with hj hrest
            injection hrest with hi' hoff'
            subst hj; subst hi'; subst hoff'
            refine ⟨by omega, ?_, ?_, by omega, by omega⟩
            · rw [bitAt_eq_masked
                (show 64 * i + off ≤ i * 64 + (63 - Nat.log2 (m2 + 1 + 1)) by omega)
                (show i * 64 + (63 - Nat.log2 (m2 + 1 + 1)) < 64 * (i + 1) by omega), hm]
              have he : 63 - (i * 64 + (63 - Nat.log2 (m2 + 1 + 1))) % 64
                  = Nat.log2 (m2 + 1 + 1) := by omega
              rw [he]
              exact testBit_log2 hvne
            · intro k hk1 hk2
              rw [bitAt_eq_masked hk1 (by omega), hm]
              exact testBit_false_of_log2_lt hvne (by omega)
    · rw [iterNext_eq_oob (by omega)]
      constructor
      · intro _ k hk
        exact bitAt_oob (by omega)
      · intro j i' off' h; cases h

/-- Splitting off the least set-bit index from an ascending filter. -/
theorem filter_range_step {N j : Nat} {bit : Nat → Bool} {p : Nat}
    (hj : p ≤ j) (hjN : j < N) (hbit : bit j = true)
    (hbelow : ∀ k, p ≤ k → k < j → bit k = false) :
    (List.range N).filter (fun k => decide (p ≤ k) && bit k)
      = j :: (List.range N).filter (fun k => decide (j + 1 ≤ k) && bit k) := by
  have hN : N = (j + 1) + (N - (j + 1)) := by omega
  rw [hN, List.range_add, List.filter_append, List.filter_append, List.range_succ,
    List.filter_append, List.filter_append]
  have hlow : ∀ q : Nat → Bool, (∀ k < j, q k = false) →
      (List.range j).filter q = [] := by
    intro q hq
    rw [List.eq_nil_iff_forall_not_mem]
    intro a ha
    obtain ⟨hmem, hpred⟩ := List.mem_filter.mp ha
    rw [hq a (List.mem_range.mp hmem)] at hpred
    cases hpred
  rw [hlow _ (fun k hk => by
    rcases Nat.lt_or_ge k p with h | h
    · simp [Nat.not_le.mpr h]
    · simp only [decide_eq_true h, Bool.true_and]; exact hbelow k h hk)]
  rw [hlow _ (fun k hk => by simp [show ¬ (j + 1 ≤ k) by omega])]
  have hone : List.filter (fun k => decide (p ≤ k) && bit k) [j] = [j] := by
    simp [decide_eq_true hj, hbit]
  have hone2 : List.filter (fun k => decide (j + 1 ≤ k) && bit k) [j] = [] := by
    simp
  rw [hone, hone2]
  have hhigh : List.filter (fun k => decide (p ≤ k) && bit k)
        (List.map (fun x => j + 1 + x) (List.range (N - (j + 1))))
      = List.filter (fun k => decide (j + 1 ≤ k) && bit k)
        (List.map (fun x => j + 1 + x) (List.range (N - (j + 1)))) := by
    apply List.filter_congr
    intro x hx
    obtain ⟨t, _, ht⟩ := List.mem_map.mp hx
    have : j + 1 ≤ x := by omega
    rw [decide_eq_true this, decide_eq_true (by omega)]
  rw [hhigh]
  rfl

theorem iterOnesAux_spec {data : List Nat} :
    ∀ fuel i off, off ≤ 64 →
      ((List.range (64 * data.length)).filter
          (fun k => decide (64 * i + off ≤ k) && bitAt data k)).length ≤ fuel →
      iterOnesAux data i off fuel
        = (List.range (64 * data.length)).filter
            (fun k => decide (64 * i + off ≤ k) && bitAt data k) := by
  intro fuel
  induction fuel with
  | zero =>
    intro i off hoff hle
    have : (List.range (64 * data.length)).filter
        (fun k => decide (64 * i + off ≤ k) && bitAt data k) = [] :=
      List.eq_nil_of_length_eq_zero (by omega)
    rw [this]
    rfl
  | succ f ih =>
    intro i off hoff hle
    rcases hstep : iterNext data i off with _ | ⟨j, i', off'⟩
    · obtain ⟨hnone, _⟩ := iterNext_spec (data.length - i) i off (le_refl _) hoff
      have hzero := hnone hstep
      unfold iterOnesAux
      rw [hstep]
      symm
      rw [List.eq_nil_iff_forall_not_mem]
      intro a ha
      obtain ⟨hmem, hpred⟩ := List.mem_filter.mp ha
      obtain ⟨h1, h2⟩ := Bool.and_eq_true_iff.mp hpred
      rw [hzero a (of_decide_eq_true h1)] at h2
      cases h2
    · obtain ⟨_, hsome⟩ := iterNext_spec (data.length - i) i off (le_refl _) hoff
      obtain ⟨hj1, hj2, hj3, hj4, hj5⟩ := hsome j i' off' hstep
      have hsplit := @filter_range_step (64 * data.length) _ (bitAt data) _
        hj1 (bitAt_lt hj2) hj2 hj3
      unfold iterOnesAux
      rw [hstep, hsplit]
      have hng : 64 * i' + off' = j + 1 := hj4
      rw [show (fun k => decide (j + 1 ≤ k) && bitAt data k)
          = (fun k => decide (64 * i' + off' ≤ k) && bitAt data k) from by rw [hng]]
      show j :: iterOnesAux data i' off' f
          = j :: List.filter (fun k => decide (64 * i' + off' ≤ k) && bitAt data k)
              (List.range (64 * data.length))
      rw [ih i' off' hj5 (by
        rw [show (fun k => decide (64 * i' + off' ≤ k) && bitAt data k)
            = (fun k => decide (j + 1 ≤ k) && bitAt data k) from by rw [hng]]
        have := congrArg List.length hsplit
        simp only [List.length_cons] at this
        omega)]

theorem iter_ones_spec (b : BitSet) :
    b.iter_ones = (List.range (64 * b.data.length)).filter (bitAt b.data) := by
  unfold iter_ones
  rw [iterOnesAux_spec (64 * b.data.length) 0 0 (by omega)
    (Nat.le_trans (List.length_filter_le _ _) (by rw [List.length_range]))]
  apply List.filter_congr
  intro x _
  rw [decide_eq_true (by omega : 64 * 0 + 0 ≤ x), Bool.true_and]

theorem mem_iter_ones (b : BitSet) (k : Nat) :
    k ∈ b.iter_ones ↔ b.get k = true := by
  rw [iter_ones_spec, List.mem_filter, get_eq_bitAt]
  constructor
  · intro ⟨_, h⟩; exact h
  · intro h
    exact ⟨List.mem_range.mpr (bitAt_lt h), h⟩

theorem iter_ones_sorted (b : BitSet) : b.iter_ones.Pairwise (· < ·) := by
  rw [iter_ones_spec]
  exact (List.pairwise_lt_range _).filter _

end BitSet

/-! ### Counting: length of the ascending set-bit list equals the
population count -/

theorem length_filter_testBit :
    ∀ f d, d < 2 ^ f →
      ((List.range f).filter (fun o => d.testBit (f - 1 - o))).length = popcountAux f d := by
  intro f
  induction f with
  | zero =>
    intro d hd
    rfl
  | succ f ih =>
    intro d hd
    rw [List.range_succ, List.filter_append]
    have hcongr : (List.range f).filter (fun o => d.testBit (f + 1 - 1 - o))
        = (List.range f).filter (fun o => (d / 2).testBit (f - 1 - o)) := by
      apply List.filter_congr
      intro o ho
      have hof : o < f := List.mem_range.mp ho
      rw [show f + 1 - 1 - o = (f - 1 - o) + 1 by omega, Nat.testBit_add_one]
    rw [hcongr]
    have hd2 : d / 2 < 2 ^ f := by
      have hp : 2 ^ (f + 1) = 2 ^ f * 2 := by ring
      omega
    have hlast : (List.filter (fun o => d.testBit (f + 1 - 1 - o)) [f]).length = d % 2 := by
      have he : f + 1 - 1 - f = 0 := by omega
      rcases hpar : d % 2 with _ | _
      · have : d.testBit 0 = false := by rw [Nat.testBit_zero]; simp [hpar]
        simp [he, this]
      · have h1 : d % 2 = 1 := by omega
        have : d.testBit 0 = true := by rw [Nat.testBit_zero]; simp [h1]
        simp [he, this]
        omega
    rw [List.length_append, ih (d / 2) hd2, hlast]
    show popcountAux f (d / 2) + d % 2 = d % 2 + popcountAux f (d / 2)
    omega

theorem length_filter_bitAt :
    ∀ data : List Nat, WFdata data →
      ((List.range (64 * data.length)).filter (bitAt data)).length = popcount data := by
  intro data
  induction data with
  | nil => intro _; rfl
  | cons d rest ih =>
    intro hw
    have hd : d < 2 ^ 64 := hw _ (List.mem_cons_self _ _)
    have hrw : WFdata rest := fun w hwm => hw _ (List.mem_cons_of_mem _ hwm)
    have hlen : 64 * (d :: rest).length = 64 + 64 * rest.length := by
      simp [List.length_cons]; ring
    rw [hlen, List.range_add, List.filter_append, List.length_append]
    have hfirst : ((List.range 64).filter (bitAt (d :: rest))).length = popcountAux 64 d := by
      have hcongr : (List.range 64).filter (bitAt (d :: rest))
          = (List.range 64).filter (fun o => d.testBit (64 - 1 - o)) := by
        apply List.filter_congr
        intro o ho
        have ho64 : o < 64 := List.mem_range.mp ho
        unfold bitAt
        rw [Nat.div_eq_of_lt ho64, Nat.mod_eq_of_lt ho64]
        rfl
      rw [hcongr]
      exact length_filter_testBit 64 d hd
    rw [hfirst]
    have hsecond :
        ((List.map (fun x => 64 + x) (List.range (64 * rest.length))).filter
            (bitAt (d :: rest))).length
          = ((List.range (64 * rest.length)).filter (bitAt rest)).length := by
      rw [List.filter_map, List.length_map]
      congr 1
      apply List.filter_congr
      intro t _
      show bitAt (d :: rest) (64 + t) = bitAt rest t
      unfold bitAt
      have h1 : (64 + t) / 64 = t / 64 + 1 := by omega
      have h2 : (64 + t) % 64 = t % 64 := by omega
      rw [h1, h2, List.getD_cons_succ]
    rw [hsecond, ih hrw]
    rfl

/-! ### Operation sequences on the dynamic bit set (claims C4 and C8) -/

/-- An `add`/`remove`/`clear` call on a dynamic bit set. -/
inductive BOp where
  | add (i : Nat)
  | remove (i : Nat)
  | clear
  deriving Repr, DecidableEq

def BOp.apply (b : BitSet) : BOp → BitSet
  | .add i => b.add i
  | .remove i => b.remove i
  | .clear => b.clear

/-- Run a sequence of operations starting from `BitSet::new`. -/
def runOps (ops : List BOp) : BitSet :=
  ops.foldl BOp.apply BitSet.new

theorem WF_apply {b : BitSet} (hb : b.WF) (op : BOp) : (BOp.apply b op).WF := by
  cases op with
  | add i => exact BitSet.WF_add hb i
  | remove i => exact BitSet.WF_remove hb i
  | clear => exact BitSet.WF_clear b

theorem WF_foldl {b : BitSet} (hb : b.WF) (ops : List BOp) :
    (ops.foldl BOp.apply b).WF := by
  induction ops generalizing b with
  | nil => exact hb
  | cons op rest ih => exact ih (WF_apply hb op)

theorem WF_runOps (ops : List BOp) : (runOps ops).WF :=
  WF_foldl BitSet.new_WF ops

/-- Which bit values survive a sequence of operations: the last touch of
bit `i` (an `add i`, `remove i`, or `clear`) decides, `add` meaning set. -/
def survives (i : Nat) : List BOp → Bool → Bool
  | [], acc => acc
  | op :: rest, acc =>
    survives i rest
      (match op with
       | .add j => if j = i then true else acc
       | .remove j => if j = i then false else acc
       | .clear => false)

theorem bitAt_apply {b : BitSet} (hb : b.WF) (op : BOp) (k : Nat) :
    bitAt (BOp.apply b op).data k
      = (match op with
         | .add j => if j = k then true else bitAt b.data k
         | .remove j => if j = k then false else bitAt b.data k
         | .clear => false) := by
  cases op with
  | add j =>
    show bitAt (b.add j).data k = _
    rw [BitSet.bitAt_add]
    rcases eq_or_ne j k with rfl | hne
    · simp
    · simp [Ne.symm hne, hne]
  | remove j =>
    show bitAt (b.remove j).data k = _
    rw [BitSet.bitAt_remove hb]
    rcases eq_or_ne j k with rfl | hne
    · simp
    · simp [Ne.symm hne, hne]
  | clear =>
    exact BitSet.bitAt_clear b k

theorem bitAt_foldl {b : BitSet} (hb : b.WF) (ops : List BOp) (k : Nat) :
    bitAt (ops.foldl BOp.apply b).data k = survives k ops (bitAt b.data k) := by
  induction ops generalizing b with
  | nil => rfl
  | cons op rest ih =>
    show bitAt (rest.foldl BOp.apply (BOp.apply b op)).data k = _
    rw [ih (WF_apply hb op), bitAt_apply hb]
    rfl

theorem bitAt_new (k : Nat) : bitAt BitSet.new.data k = false := by
  unfold bitAt BitSet.new
  simp

theorem bitAt_runOps (ops : List BOp) (k : Nat) :
    bitAt (runOps ops).data k = survives k ops false := by
  have h := bitAt_foldl BitSet.new_WF ops k
  rw [bitAt_new] at h
  exact h

/-- Storage word count accumulated over a sequence of operations:
`add i` grows storage to at least `i / 64 + 1` words; `remove` and
`clear` never shrink it. -/
def storageWords : List BOp → Nat → Nat
  | [], acc => acc
  | .add i :: rest, acc => storageWords rest (max acc (i / 64 + 1))
  | .remove _ :: rest, acc => storageWords rest acc
  | .clear :: rest, acc => storageWords rest acc

theorem remove_data_eq {b : BitSet} {i : Nat} (hb : b.WF) (hi : i < b.len) :
    (b.remove i).data = BitSet.maskData b i := by
  rcases eq_or_ne i (b.len - 1) with h2 | h2
  · rcases h3 : BitSet.findTopWord (BitSet.maskData b i) with _ | ⟨j, d⟩
    · rw [BitSet.remove_eq_of_top_none hi h2 h3]
    · rw [BitSet.remove_eq_of_top_some hi h2 h3]
  · rw [BitSet.remove_eq_of_mid hi h2]

theorem length_apply_data {b : BitSet} (hb : b.WF) (op : BOp) :
    (BOp.apply b op).data.length
      = match op with
        | .add i => max b.data.length (i / 64 + 1)
        | _ => b.data.length := by
  cases op with
  | add i => exact BitSet.length_add_data b i
  | remove i =>
    show (b.remove i).data.length = b.data.length
    rcases Nat.lt_or_ge i b.len with hi | hi
    · rw [remove_data_eq hb hi]
      exact List.length_set _ _ _
    · rw [BitSet.remove_eq_of_ge hi]
  | clear =>
    show (b.clear.data).length = b.data.length
    exact List.length_map _ _

theorem length_foldl_data {b : BitSet} (hb : b.WF) (ops : List BOp) :
    (ops.foldl BOp.apply b).data.length = storageWords ops b.data.length := by
  induction ops generalizing b with
  | nil => rfl
  | cons op rest ih =>
    show (rest.foldl BOp.apply (BOp.apply b op)).data.length = _
    rw [ih (WF_apply hb op), length_apply_data hb]
    cases op with
    | add i => rfl
    | remove i => rfl
    | clear => rfl

theorem length_runOps_data (ops : List BOp) :
    (runOps ops).data.length = storageWords ops 0 :=
  length_foldl_data BitSet.new_WF ops

/-! ## Fixed 32-wide bit set (src/src/bitset/bitset_32.rs)

One `u32` word, MSB-first (`0x80000000 >> i`).  For `i ≥ 32` the Rust
shift `0x80000000 >> i` overflows — a panic, modelled as `none`. -/

/-- `0x80000000u32 >> i`; `none` models the Rust shift-overflow panic
for `i ≥ 32`. -/
def shiftMask (i : Nat) : Option Nat :=
  if i < 32 then some (2 ^ 31 >>> i) else none

/-- The constant `0xFFFFFFFFu32`. -/
def MAX32 : Nat := 0xFFFFFFFF

structure BitSet32 where
  value : Nat
  deriving Repr, DecidableEq

namespace BitSet32

/-- `BitSet32::new`. -/
def new : BitSet32 := ⟨0⟩

/-- `BitSet32::add — self.value |= 0x80000000 >> i`. -/
def add (b : BitSet32) (i : Nat) : Option BitSet32 :=
  (shiftMask i).map (fun m => ⟨b.value ||| m⟩)

/-- `BitSet32::remove — self.value &= !(0x80000000 >> i)`. -/
def remove (b : BitSet32) (i : Nat) : Option BitSet32 :=
  (shiftMask i).map (fun m => ⟨b.value &&& (MAX32 ^^^ m)⟩)

/-- `BitSet32::clear`. -/
def clear (_ : BitSet32) : BitSet32 := ⟨0⟩

/-- `BitSet32::get — self.value & 0x80000000 >> i > 0`. -/
def get (b : BitSet32) (i : Nat) : Option Bool :=
  (shiftMask i).map (fun m => b.value &&& m != 0)

/-- `BitSet32::set`. -/
def set (b : BitSet32) (i : Nat) (v : Bool) : Option BitSet32 :=
  match v with
  | true => b.add i
  | false => b.remove i

/-- `BitSet32::cardinality — self.value.count_ones()`. -/
def cardinality (b : BitSet32) : Nat := popcountAux 32 b.value

end BitSet32

/-- Fuelled binary logarithm; agrees with `Nat.log2` below `2 ^ fuel`
and, unlike it, reduces definitionally. -/
def log2F : Nat → Nat → Nat
  | 0, _ => 0
  | f + 1, n => if 2 ≤ n then log2F f (n / 2) + 1 else 0

theorem log2F_eq : ∀ (f n : Nat), n < 2 ^ f → log2F f n = Nat.log2 n := by
  intro f
  induction f with
  | zero =>
    intro n hn
    have hn0 : n = 0 := by
      rw [pow_zero] at hn
      omega
    subst hn0
    show (0 : Nat) = Nat.log2 0
    rw [Nat.log2]
    norm_num
  | succ f ih =>
    intro n hn
    show (if 2 ≤ n then log2F f (n / 2) + 1 else 0) = Nat.log2 n
    rw [Nat.log2]
    by_cases h2 : 2 ≤ n
    · rw [if_pos h2, if_pos h2, ih (n / 2) (by
        have h3 : n < 2 ^ (f + 1) := hn
        rw [pow_succ] at h3
        omega)]
    · rw [if_neg h2, if_neg h2]

/-- One step of `IndexIter32::next` on cursor `i`: mask away the first
`i` (MSB-first) positions, yield the leading-zero count of what is
left, and advance the cursor past it. -/
def iter32Next (v i : Nat) : Option (Nat × Nat) :=
  if i < 32 then
    let value := v &&& (MAX32 >>> i)
    if value > 0 then
      some (31 - log2F 32 value, 31 - log2F 32 value + 1)
    else none
  else none

/-- Unfold `IndexIter32` to the list of yielded indices (at most 32
yields, so 33 steps of fuel always exhaust it). -/
def iter32Aux (v : Nat) : Nat → Nat → List Nat
  | _, 0 => []
  | i, f + 1 =>
    match iter32Next v i with
    | none => []
    | some (j, i') => j :: iter32Aux v i' f

/-- `BitSet32::iter_ones`, run to exhaustion. -/
def BitSet32.iter_ones (b : BitSet32) : List Nat := iter32Aux b.value 0 33

/-- MSB-first bit `k` of a `u32` word. -/
def bit32 (v k : Nat) : Bool := v.testBit (31 - k)

theorem MAX32_eq : MAX32 = 2 ^ 32 - 1 := by norm_num [MAX32]

theorem get_spec (b : BitSet32) (i : Nat) (hi : i < 32) :
    b.get i = some (bit32 b.value i) := by
  unfold BitSet32.get shiftMask bit32
  rw [if_pos hi]
  show some (b.value &&& 2 ^ 31 >>> i != 0) = _
  rw [Nat.shiftRight_eq_div_pow, Nat.pow_div (by omega) (by norm_num),
    and_two_pow_ne_zero]

theorem masked32_eq {x i : Nat} (hi : i ≤ 32) :
    x &&& MAX32 >>> i = x % 2 ^ (32 - i) := by
  rw [MAX32_eq, pow_sub_one_shr 32 i hi, Nat.and_pow_two_sub_one_eq_mod]

theorem iter32Next_none {v i : Nat} (h : iter32Next v i = none) :
    ∀ k, i ≤ k → k < 32 → bit32 v k = false := by
  intro k hk1 hk2
  unfold iter32Next at h
  rcases Nat.lt_or_ge i 32 with hi | hi
  · rw [if_pos hi] at h
    have hm : v &&& MAX32 >>> i = 0 := by
      by_contra hne
      rw [if_pos (by omega)] at h
      cases h
    rw [masked32_eq (by omega)] at hm
    unfold bit32
    have := Nat.testBit_mod_two_pow v (32 - i) (31 - k)
    rw [hm, Nat.zero_testBit, decide_eq_true (show 31 - k < 32 - i by omega),
      Bool.true_and] at this
    exact this.symm
  · omega

theorem iter32Next_some {v i j i' : Nat} (hv : v < 2 ^ 32)
    (h : iter32Next v i = some (j, i')) :
    i ≤ j ∧ j < 32 ∧ bit32 v j = true ∧
      (∀ k, i ≤ k → k < j → bit32 v k = false) ∧ i' = j + 1 := by
  unfold iter32Next at h
  rcases Nat.lt_or_ge i 32 with hi | hi
  · rw [if_pos hi] at h
    rcases hm : v &&& MAX32 >>> i with _ | m
    · rw [hm] at h
      rw [if_neg (by omega)] at h
      cases h
    · rw [hm] at h
      rw [if_pos (by omega)] at h
      have hmlt : m + 1 < 2 ^ 32 := by
        rw [← hm]
        exact Nat.lt_of_le_of_lt Nat.and_le_left hv
      rw [log2F_eq 32 (m + 1) hmlt] at h
      injection h with h
      injection h with hj hi'
      rw [masked32_eq (by omega)] at hm
      have hmne : m + 1 ≠ 0 := by omega
      have hlogi : Nat.log2 (m + 1) < 32 - i := by
        apply (Nat.log2_lt hmne).mpr
        rw [← hm]
        exact Nat.mod_lt _ (Nat.pos_pow_of_pos _ (by norm_num))
      subst hj; subst hi'
      refine ⟨by omega, by omega, ?_, ?_, rfl⟩
      · unfold bit32
        rw [show 31 - (31 - Nat.log2 (m + 1)) = Nat.log2 (m + 1) by omega]
        have hbits := Nat.testBit_mod_two_pow v (32 - i) (Nat.log2 (m + 1))
        rw [hm, decide_eq_true hlogi, Bool.true_and] at hbits
        rw [← hbits]
        exact testBit_log2 hmne
      · intro k hk1 hk2
        unfold bit32
        have hbits := Nat.testBit_mod_two_pow v (32 - i) (31 - k)
        rw [hm] at hbits
        rw [decide_eq_true (show 31 - k < 32 - i by omega), Bool.true_and] at hbits
        rw [← hbits]
        exact testBit_false_of_log2_lt hmne (by omega)
  · rw [if_neg (by omega)] at h
    cases h

theorem iter32Aux_spec {v : Nat} (hv : v < 2 ^ 32) :
    ∀ fuel i,
      ((List.range 32).filter (fun k => decide (i ≤ k) && bit32 v k)).length ≤ fuel →
      iter32Aux v i fuel
        = (List.range 32).filter (fun k => decide (i ≤ k) && bit32 v k) := by
  intro fuel
  induction fuel with
  | zero =>
    intro i hle
    have h0 : (List.range 32).filter (fun k => decide (i ≤ k) && bit32 v k) = [] :=
      List.eq_nil_of_length_eq_zero (by omega)
    rw [h0]
    rfl
  | succ f ih =>
    intro i hle
    rcases hstep : iter32Next v i with _ | ⟨j, i'⟩
    · have hzero := iter32Next_none hstep
      unfold iter32Aux
      rw [hstep]
      symm
      rw [List.eq_nil_iff_forall_not_mem]
      intro a ha
      obtain ⟨hmem, hpred⟩ := List.mem_filter.mp ha
      obtain ⟨h1, h2⟩ := Bool.and_eq_true_iff.mp hpred
      rw [hzero a (of_decide_eq_true h1) (List.mem_range.mp hmem)] at h2
      cases h2
    · obtain ⟨hj1, hj2, hj3, hj4, hj5⟩ := iter32Next_some hv hstep
      have hsplit := @BitSet.filter_range_step 32 _ (bit32 v) _ hj1 hj2 hj3 hj4
      unfold iter32Aux
      rw [hstep, hsplit, hj5]
      show j :: iter32Aux v (j + 1) f = _
      rw [ih (j + 1) (by
        have := congrArg List.length hsplit
        simp only [List.length_cons] at this
        omega)]

theorem iter_ones32_spec (b : BitSet32) (hv : b.value < 2 ^ 32) :
    b.iter_ones = (List.range 32).filter (bit32 b.value) := by
  unfold BitSet32.iter_ones
  rw [iter32Aux_spec hv 33 0
    (Nat.le_trans (List.length_filter_le _ _) (by rw [List.length_range]; omega))]
  apply List.filter_congr
  intro x _
  rw [decide_eq_true (Nat.zero_le x), Bool.true_and]

theorem mem_iter_ones32 (b : BitSet32) (hv : b.value < 2 ^ 32) (k : Nat) :
    k ∈ b.iter_ones ↔ k < 32 ∧ bit32 b.value k = true := by
  rw [iter_ones32_spec b hv, List.mem_filter, List.mem_range]

theorem iter_ones32_sorted (b : BitSet32) (hv : b.value < 2 ^ 32) :
    b.iter_ones.Pairwise (· < ·) := by
  rw [iter_ones32_spec b hv]
  exact (List.pairwise_lt_range _).filter _

theorem length_iter_ones32 (b : BitSet32) (hv : b.value < 2 ^ 32) :
    b.iter_ones.length = b.cardinality := by
  rw [iter_ones32_spec b hv]
  unfold BitSet32.cardinality
  have hcongr : (List.range 32).filter (bit32 b.value)
      = (List.range 32).filter (fun o => b.value.testBit (32 - 1 - o)) := by
    apply List.filter_congr
    intro o ho
    unfold bit32
    rw [show 31 - o = 32 - 1 - o by omega]
  rw [hcongr]
  exact length_filter_testBit 32 b.value hv

/-! ## Radix-26 trie (src/src/trie.rs)

`boggle_util.rs` is not among the repository's files; `ALPHABET_SIZE`,
`is_alpha` and `ascii_byte_to_idx` below are modelled from the spec. -/

/-- Modelled from the spec: `boggle_util::ALPHABET_SIZE` (missing from
src/) is 26, the size of the trie's child array `[Node; 26]`. -/
def ALPHABET_SIZE : Nat := 26

/-- Modelled from the spec: the composition of `boggle_util::is_alpha`'s
per-character test, `str::to_lowercase` and `boggle_util::ascii_byte_to_idx`
(the latter two missing from src/) on one character — `A..Z`/`a..z` maps
to its letter index `0..25`, anything else is outside the supported
alphabet (`none`). -/
def charIdx (c : Char) : Option (Fin 26) :=
  if h : 65 ≤ c.toNat ∧ c.toNat ≤ 90 then some ⟨c.toNat - 65, by omega⟩
  else if h2 : 97 ≤ c.toNat ∧ c.toNat ≤ 122 then some ⟨c.toNat - 97, by omega⟩
  else none

/-- Modelled from the spec: `boggle_util::is_alpha` — every character of
the string is in the supported alphabet. -/
def is_alpha (s : List Char) : Bool := s.all (fun c => (charIdx c).isSome)

/-- The whole normalization pipeline of `Trie::insert`/`Trie::contains`:
`is_alpha` check, lowercasing, and byte-to-index conversion (`none` iff
some character is outside the supported alphabet). -/
def toIndices : List Char → Option (List (Fin 26))
  | [] => some []
  | c :: rest =>
    match charIdx c, toIndices rest with
    | some i, some is => some (i :: is)
    | _, _ => none

inductive NodeType where
  | Prefix
  | Word (id : Nat)
  deriving Repr, DecidableEq

inductive Trie where
  | mk (node_type : NodeType) (children : List (Option Trie)) (child_set : BitSet32)

def Trie.node_type : Trie → NodeType
  | .mk nt _ _ => nt

def Trie.children : Trie → List (Option Trie)
  | .mk _ c _ => c

def Trie.child_set : Trie → BitSet32
  | .mk _ _ s => s

/-- `Trie::new`. -/
def Trie.new : Trie :=
  .mk NodeType.Prefix (List.replicate ALPHABET_SIZE none) BitSet32.new

/-- `Trie::ins` on the normalized letter indices.  `insert` guarantees
the byte slice is nonempty and alphabetic, so the `first`/`rest` split
mirrors `s[0]` / `s[1..]`.  (`BitSet32.add` never panics here —
`first < 26 < 32` — so the `getD` default is dead code.) -/
def Trie.ins : Trie → Fin 26 → List (Fin 26) → Nat → Trie
  | .mk nt children cset, first, rest, id =>
    let slot := children.getD first.val none
    let cset' := match slot with
      | some _ => cset
      | none => (cset.add first.val).getD cset
    let child := match slot with
      | some c => c
      | none => Trie.new
    let child' := match rest with
      | [] => Trie.mk (NodeType.Word id) child.children child.child_set
      | r :: rs => child.ins r rs id
    Trie.mk nt (children.set first.val (some child')) cset'

/-- `Trie::insert`.  `some (t', flag)` is the (new trie, returned bool);
`none` models the panic on the empty string (after `is_alpha` accepts it
vacuously, `ins` would index `s[0]`). -/
def Trie.insert (t : Trie) (s : List Char) (id : Nat) : Option (Trie × Bool) :=
  match toIndices s with
  | none => some (t, false)
  | some [] => none
  | some (c :: rest) => some (t.ins c rest id, true)

/-- `Trie::cns` on the normalized letter indices. -/
def Trie.cns : Trie → Fin 26 → List (Fin 26) → Option NodeType
  | t, first, rest =>
    match t.children.getD first.val none with
    | some child =>
      match rest with
      | [] => some child.node_type
      | r :: rs => child.cns r rs
    | none => none

/-- `Trie::contains`.  `some result` is the Rust return value; `none`
models the panic on the empty string. -/
def Trie.contains (t : Trie) (s : List Char) : Option (Option NodeType) :=
  match toIndices s with
  | none => some none
  | some [] => none
  | some (c :: rest) => some (t.cns c rest)

/-- One step of `TrieIterator::next` on cursor `i`: the next set bit of
`child_set` paired with the child stored in that slot.  A set bit over
an absent or out-of-range slot ends the iteration (the Rust code returns
`None` for an absent slot and panics for `i ≥ 26`; neither is reachable
for tries built by `insert`). -/
def Trie.iterNext (t : Trie) (i : Nat) : Option ((Trie × Nat) × Nat) :=
  match iter32Next t.child_set.value i with
  | none => none
  | some (j, i') =>
    match t.children.getD j none with
    | some c => some ((c, j), i')
    | none => none

/-- Unfold a `TrieIterator` from cursor `i` (at most 32 yields, so 33
steps of fuel exhaust it). -/
def Trie.cursorList (t : Trie) : Nat → Nat → List (Trie × Nat)
  | _, 0 => []
  | i, f + 1 =>
    match t.iterNext i with
    | none => []
    | some (p, i') => p :: t.cursorList i' f

/-- `Trie::iter` run to exhaustion: the (child, letter) pairs in
ascending letter order. -/
def Trie.childList (t : Trie) : List (Trie × Nat) := t.cursorList 0 33

/-- Well-formedness of every trie the program builds: 26 child slots,
`child_set` a 32-bit word mirroring exactly the occupied slots, and all
children well-formed. -/
inductive Trie.WF : Trie → Prop where
  | mk : ∀ (nt : NodeType) (children : List (Option Trie)) (cset : BitSet32),
      children.length = 26 →
      cset.value < 2 ^ 32 →
      (∀ j, j < 32 → (bit32 cset.value j = true ↔ (children.getD j none).isSome = true)) →
      (∀ c, some c ∈ children → c.WF) →
      Trie.WF (Trie.mk nt children cset)

theorem Trie.WF.children_length {t : Trie} (h : t.WF) : t.children.length = 26 := by
  cases h; assumption

theorem Trie.WF.cset_lt {t : Trie} (h : t.WF) : t.child_set.value < 2 ^ 32 := by
  cases h; assumption

theorem Trie.WF.mirror {t : Trie} (h : t.WF) :
    ∀ j, j < 32 → (bit32 t.child_set.value j = true ↔ (t.children.getD j none).isSome = true) := by
  cases h; assumption

theorem Trie.WF.child {t : Trie} (h : t.WF) : ∀ c, some c ∈ t.children → c.WF := by
  cases h; assumption

theorem getD_replicate_none {α : Type} (n j : Nat) :
    (List.replicate n (none : Option α)).getD j none = none := by
  rw [List.getD_eq_getElem?_getD, List.getElem?_replicate]
  split <;> rfl

theorem Trie.WF_new : Trie.new.WF := by
  refine Trie.WF.mk _ _ _ (by simp [ALPHABET_SIZE]) (by norm_num [BitSet32.new]) ?_ ?_
  · intro j hj
    constructor
    · intro hb
      unfold bit32 BitSet32.new at hb
      rw [Nat.zero_testBit] at hb
      cases hb
    · intro hs
      rw [getD_replicate_none] at hs
      cases hs
  · intro c hc
    have h := List.eq_of_mem_replicate hc
    cases h

theorem cns_new (c : Fin 26) (l : List (Fin 26)) : Trie.new.cns c l = none := by
  unfold Trie.cns Trie.new Trie.children
  rw [getD_replicate_none]

theorem ins_node_type (t : Trie) (first : Fin 26) (rest : List (Fin 26)) (id : Nat) :
    (t.ins first rest id).node_type = t.node_type := by
  cases t <;> cases rest <;> rfl

theorem shiftMask_lt {i : Nat} (h : i < 32) : shiftMask i = some (2 ^ (31 - i)) := by
  have he : (2 ^ 31) >>> i = 2 ^ (31 - i) := by
    rw [Nat.shiftRight_eq_div_pow]
    exact Nat.pow_div (by omega) (by norm_num)
  unfold shiftMask
  rw [if_pos h, he]

theorem bit32_or_pow {v j i : Nat} (hv : i < 32) (hj : j < 32) :
    bit32 (v ||| 2 ^ (31 - i)) j = (decide (j = i) || bit32 v j) := by
  unfold bit32
  rw [Nat.testBit_or, Nat.testBit_two_pow]
  rw [decide_eq_decide.mpr (show 31 - i = 31 - j ↔ j = i by omega), Bool.or_comm]

/-- `ins` preserves well-formedness. -/
theorem Trie.WF_ins :
    ∀ (rest : List (Fin 26)) (t : Trie) (first : Fin 26) (id : Nat),
      t.WF → (t.ins first rest id).WF := by
  intro rest
  induction rest with
  | nil =>
    intro t first id hwf
    cases t with
    | mk nt children cset =>
      have hlen := hwf.children_length
      have hlt := hwf.cset_lt
      have hmir := hwf.mirror
      have hch := hwf.child
      simp only [Trie.children] at hlen hch hmir
      simp only [Trie.child_set] at hlt hmir
      unfold Trie.ins
      rcases hslot : children.getD first.val none with _ | c
      · -- fresh slot: the child set gains bit `first`
        simp only [hslot]
        have hchildWF : Trie.WF (Trie.mk (NodeType.Word id) Trie.new.children
            Trie.new.child_set) := by
          refine Trie.WF.mk _ _ _ Trie.WF_new.children_length Trie.WF_new.cset_lt
            Trie.WF_new.mirror Trie.WF_new.child
        refine Trie.WF.mk _ _ _ ?_ ?_ ?_ ?_
        · rw [List.length_set]; exact hlen
        · show ((BitSet32.add cset first.val).getD cset).value < 2 ^ 32
          rw [BitSet32.add, shiftMask_lt (by omega)]
          exact Nat.or_lt_two_pow hlt (Nat.pow_lt_pow_right (by norm_num) (by omega))
        · intro j hj
          show bit32 ((BitSet32.add cset first.val).getD cset).value j = true ↔ _
          rw [BitSet32.add, shiftMask_lt (by omega)]
          show bit32 (cset.value ||| 2 ^ (31 - first.val)) j = true ↔ _
          rw [bit32_or_pow (by omega) hj]
          rcases eq_or_ne j first.val with rfl | hne
          · rw [getD_set_self _ _ _ _ (by omega)]
            simp
          · rw [getD_set_ne _ _ _ _ _ (Ne.symm hne)]
            simp only [decide_eq_false hne, Bool.false_or]
            exact hmir j hj
        · intro c hc
          rcases List.mem_or_eq_of_mem_set hc with h2 | h2
          · exact hch c h2
          · injection h2 with h2
            rw [h2]
            exact hchildWF
      · -- existing slot: only the terminal classification changes
        simp only [hslot]
        have hcWF : c.WF := hch c (by
          have : children.getD first.val none ∈ children := by
            rw [List.getD_eq_getElem?_getD]
            rcases h : children[first.val]? with _ | x
            · rw [List.getElem?_eq_none_iff] at h
              omega
            · simpa [h] using List.getElem?_mem h
          rw [hslot] at this
          exact this)
        refine Trie.WF.mk _ _ _ ?_ hlt ?_ ?_
        · rw [List.length_set]; exact hlen
        · intro j hj
          rcases eq_or_ne j first.val with rfl | hne
          · rw [getD_set_self _ _ _ _ (by omega)]
            simp only [Option.isSome_some, iff_true]
            exact (hmir _ hj).mpr (by rw [hslot]; rfl)
          · rw [getD_set_ne _ _ _ _ _ (Ne.symm hne)]
            exact hmir j hj
        · intro c' hc'
          rcases List.mem_or_eq_of_mem_set hc' with h2 | h2
          · exact hch c' h2
          · injection h2 with h2
            rw [h2]
            exact Trie.WF.mk _ _ _ hcWF.children_length hcWF.cset_lt hcWF.mirror hcWF.child
  | cons r rs ih =>
    intro t first id hwf
    cases t with
    | mk nt children cset =>
      have hlen := hwf.children_length
      have hlt := hwf.cset_lt
      have hmir := hwf.mirror
      have hch := hwf.child
      simp only [Trie.children] at hlen hch hmir
      simp only [Trie.child_set] at hlt hmir
      unfold Trie.ins
      rcases hslot : children.getD first.val none with _ | c
      · simp only [hslot]
        have hchildWF : (Trie.new.ins r rs id).WF := ih Trie.new r id Trie.WF_new
        refine Trie.WF.mk _ _ _ ?_ ?_ ?_ ?_
        · rw [List.length_set]; exact hlen
        · show ((BitSet32.add cset first.val).getD cset).value < 2 ^ 32
          rw [BitSet32.add, shiftMask_lt (by omega)]
          exact Nat.or_lt_two_pow hlt (Nat.pow_lt_pow_right (by norm_num) (by omega))
        · intro j hj
          show bit32 ((BitSet32.add cset first.val).getD cset).value j = true ↔ _
          rw [BitSet32.add, shiftMask_lt (by omega)]
          show bit32 (cset.value ||| 2 ^ (31 - first.val)) j = true ↔ _
          rw [bit32_or_pow (by omega) hj]
          rcases eq_or_ne j first.val with rfl | hne
          · rw [getD_set_self _ _ _ _ (by omega)]
            simp
          · rw [getD_set_ne _ _ _ _ _ (Ne.symm hne)]
            simp only [decide_eq_false hne, Bool.false_or]
            exact hmir j hj
        · intro c hc
          rcases List.mem_or_eq_of_mem_set hc with h2 | h2
          · exact hch c h2
          · injection h2 with h2
            rw [h2]
            exact hchildWF
      · simp only [hslot]
        have hcWF : c.WF := hch c (by
          have : children.getD first.val none ∈ children := by
            rw [List.getD_eq_getElem?_getD]
            rcases h : children[first.val]? with _ | x
            · rw [List.getElem?_eq_none_iff] at h
              omega
            · simpa [h] using List.getElem?_mem h
          rw [hslot] at this
          exact this)
        have hchildWF : (c.ins r rs id).WF := ih c r id hcWF
        refine Trie.WF.mk _ _ _ ?_ hlt ?_ ?_
        · rw [List.length_set]; exact hlen
        · intro j hj
          rcases eq_or_ne j first.val with rfl | hne
          · rw [getD_set_self _ _ _ _ (by omega)]
            simp only [Option.isSome_some, iff_true]
            exact (hmir _ hj).mpr (by rw [hslot]; rfl)
          · rw [getD_set_ne _ _ _ _ _ (Ne.symm hne)]
            exact hmir j hj
        · intro c' hc'
          rcases List.mem_or_eq_of_mem_set hc' with h2 | h2
          · exact hch c' h2
          · injection h2 with h2
            rw [h2]
            exact hchildWF


theorem cns_unfold (t : Trie) (c0 : Fin 26) (ql : List (Fin 26)) :
    t.cns c0 ql
      = match t.children.getD c0.val none with
        | some child =>
          match ql with
          | [] => some child.node_type
          | r :: rs => child.cns r rs
        | none => none := by
  rw [Trie.cns]

theorem cns_mk_unfold (nt : NodeType) (children : List (Option Trie)) (cset : BitSet32)
    (c0 : Fin 26) (ql : List (Fin 26)) :
    (Trie.mk nt children cset).cns c0 ql
      = match children.getD c0.val none with
        | some child =>
          match ql with
          | [] => some child.node_type
          | r :: rs => child.cns r rs
        | none => none := by
  rw [cns_unfold]
  rfl

/-- `cns` reads only the `children` field of the root node. -/
theorem cns_mk_irrel (nt nt' : NodeType) (ch : List (Option Trie)) (cs cs' : BitSet32)
    (c0 : Fin 26) (ql : List (Fin 26)) :
    (Trie.mk nt ch cs).cns c0 ql = (Trie.mk nt' ch cs').cns c0 ql := by
  rw [cns_mk_unfold, cns_mk_unfold]

/-! Unfolding `Trie.ins` one constructor at a time (slot state × rest). -/

theorem ins_eq_none_nil {nt : NodeType} {children : List (Option Trie)} {cset : BitSet32}
    {first : Fin 26} {id : Nat} (hslot : children.getD first.val none = none) :
    Trie.ins (Trie.mk nt children cset) first [] id
      = Trie.mk nt
          (children.set first.val
            (some (Trie.mk (NodeType.Word id) (Trie.children Trie.new)
              (Trie.child_set Trie.new))))
          ((cset.add first.val).getD cset) := by
  simp only [Trie.ins, hslot]

theorem ins_eq_none_cons {nt : NodeType} {children : List (Option Trie)} {cset : BitSet32}
    {first : Fin 26} {id : Nat} (r : Fin 26) (rs : List (Fin 26))
    (hslot : children.getD first.val none = none) :
    Trie.ins (Trie.mk nt children cset) first (r :: rs) id
      = Trie.mk nt
          (children.set first.val (some (Trie.new.ins r rs id)))
          ((cset.add first.val).getD cset) := by
  simp only [Trie.ins, hslot]

theorem ins_eq_some_nil {nt : NodeType} {children : List (Option Trie)} {cset : BitSet32}
    {first : Fin 26} {id : Nat} {c : Trie} (hslot : children.getD first.val none = some c) :
    Trie.ins (Trie.mk nt children cset) first [] id
      = Trie.mk nt
          (children.set first.val
            (some (Trie.mk (NodeType.Word id) (Trie.children c) (Trie.child_set c))))
          cset := by
  simp only [Trie.ins, hslot]

theorem ins_eq_some_cons {nt : NodeType} {children : List (Option Trie)} {cset : BitSet32}
    {first : Fin 26} {id : Nat} {c : Trie} (r : Fin 26) (rs : List (Fin 26))
    (hslot : children.getD first.val none = some c) :
    Trie.ins (Trie.mk nt children cset) first (r :: rs) id
      = Trie.mk nt (children.set first.val (some (c.ins r rs id))) cset := by
  simp only [Trie.ins, hslot]

/-- A `getD _ none = some c` slot is a member of the child list. -/
theorem slot_mem {children : List (Option Trie)} {j : Nat} {c : Trie}
    (hslot : children.getD j none = some c) : some c ∈ children := by
  have hmem : children.getD j none ∈ children ∨ children.getD j none = none := by
    rw [List.getD_eq_getElem?_getD]
    rcases h : children[j]? with _ | x
    · right; rfl
    · left; simpa [h] using List.getElem?_mem h
  rcases hmem with h | h
  · rw [hslot] at h; exact h
  · rw [hslot] at h; cases h

/-- How one `ins` call changes every lookup: the inserted word itself
maps to `Word id`, a proper nonempty path-prefix of it keeps its old
classification (fresh interior nodes read `Prefix`), and every other
lookup is untouched. -/
theorem cns_ins :
    ∀ (rest : List (Fin 26)) (t : Trie) (first : Fin 26) (id : Nat)
      (c0 : Fin 26) (ql : List (Fin 26)), t.WF →
      (t.ins first rest id).cns c0 ql
        = if c0 = first ∧ ql = rest then some (NodeType.Word id)
          else if c0 = first ∧ ql <+: rest then
            some ((t.cns c0 ql).getD NodeType.Prefix)
          else t.cns c0 ql := by
  intro rest
  induction rest with
  | nil =>
    intro t first id c0 ql hwf
    cases t with
    | mk nt children cset =>
      have hlen := hwf.children_length
      have hch := hwf.child
      simp only [Trie.children] at hlen hch
      rcases eq_or_ne c0 first with rfl | hne
      · rcases hslot : children.getD c0.val none with _ | c
        · rw [ins_eq_none_nil hslot, cns_mk_unfold, getD_set_self _ _ _ _ (by omega)]
          cases ql with
          | nil =>
            rw [if_pos ⟨rfl, rfl⟩]
            rfl
          | cons q1 qrest =>
            rw [if_neg (by simp), if_neg (by simp)]
            show (Trie.mk (NodeType.Word id) (Trie.children Trie.new)
                (Trie.child_set Trie.new)).cns q1 qrest = _
            rw [cns_mk_irrel _ NodeType.Prefix _ _ (Trie.child_set Trie.new)]
            show Trie.new.cns q1 qrest = _
            rw [cns_new, cns_mk_unfold, hslot]
        · rw [ins_eq_some_nil hslot, cns_mk_unfold, getD_set_self _ _ _ _ (by omega)]
          cases ql with
          | nil =>
            rw [if_pos ⟨rfl, rfl⟩]
            rfl
          | cons q1 qrest =>
            rw [if_neg (by simp), if_neg (by simp)]
            show (Trie.mk (NodeType.Word id) (Trie.children c)
                (Trie.child_set c)).cns q1 qrest = _
            rw [cns_mk_irrel _ c.node_type _ _ (Trie.child_set c)]
            rw [cns_mk_unfold nt children cset, hslot]
            cases c
            rfl
      · have hmain : ((Trie.mk nt children cset).ins first [] id).cns c0 ql
            = (Trie.mk nt children cset).cns c0 ql := by
          rcases hslot : children.getD first.val none with _ | c
          · rw [ins_eq_none_nil hslot, cns_mk_unfold, cns_mk_unfold nt children cset,
              getD_set_ne _ _ _ _ _ (fun h => hne (Fin.ext h.symm))]
          · rw [ins_eq_some_nil hslot, cns_mk_unfold, cns_mk_unfold nt children cset,
              getD_set_ne _ _ _ _ _ (fun h => hne (Fin.ext h.symm))]
        rw [hmain, if_neg (by intro ⟨h, _⟩; exact hne h),
          if_neg (by intro ⟨h, _⟩; exact hne h)]
  | cons r rs ih =>
    intro t first id c0 ql hwf
    cases t with
    | mk nt children cset =>
      have hlen := hwf.children_length
      have hch := hwf.child
      simp only [Trie.children] at hlen hch
      rcases eq_or_ne c0 first with rfl | hne
      · rcases hslot : children.getD c0.val none with _ | c
        · rw [ins_eq_none_cons r rs hslot, cns_mk_unfold, getD_set_self _ _ _ _ (by omega)]
          cases ql with
          | nil =>
            rw [if_neg (by simp), if_pos ⟨rfl, List.nil_prefix⟩]
            rw [cns_mk_unfold nt children cset, hslot]
            show some (Trie.new.ins r rs id).node_type = _
            rw [ins_node_type]
            rfl
          | cons q1 qrest =>
            show (Trie.new.ins r rs id).cns q1 qrest = _
            rw [ih Trie.new r id q1 qrest Trie.WF_new, cns_new,
              cns_mk_unfold nt children cset, hslot]
            simp only [List.cons.injEq, List.cons_prefix_cons, true_and, eq_self_iff_true]
        · have hcWF : c.WF := hch c (slot_mem hslot)
          rw [ins_eq_some_cons r rs hslot, cns_mk_unfold, getD_set_self _ _ _ _ (by omega)]
          cases ql with
          | nil =>
            rw [if_neg (by simp), if_pos ⟨rfl, List.nil_prefix⟩]
            rw [cns_mk_unfold nt children cset, hslot]
            show some (c.ins r rs id).node_type = _
            rw [ins_node_type]
            rfl
          | cons q1 qrest =>
            show (c.ins r rs id).cns q1 qrest = _
            rw [ih c r id q1 qrest hcWF, cns_mk_unfold nt children cset, hslot]
            simp only [List.cons.injEq, List.cons_prefix_cons, true_and, eq_self_iff_true]
      · have hmain : ((Trie.mk nt children cset).ins first (r :: rs) id).cns c0 ql
            = (Trie.mk nt children cset).cns c0 ql := by
          rcases hslot : children.getD first.val none with _ | c
          · rw [ins_eq_none_cons r rs hslot, cns_mk_unfold, cns_mk_unfold nt children cset,
              getD_set_ne _ _ _ _ _ (fun h => hne (Fin.ext h.symm))]
          · rw [ins_eq_some_cons r rs hslot, cns_mk_unfold, cns_mk_unfold nt children cset,
              getD_set_ne _ _ _ _ _ (fun h => hne (Fin.ext h.symm))]
        rw [hmain, if_neg (by intro ⟨h, _⟩; exact hne h),
          if_neg (by intro ⟨h, _⟩; exact hne h)]

/-- Run a sequence of `Trie::insert` calls; `none` propagates the
empty-string panic. -/
def insertAll : Trie → List (List Char × Nat) → Option Trie
  | t, [] => some t
  | t, (w, id) :: rest =>
    match t.insert w id with
    | none => none
    | some (t', _) => insertAll t' rest

/-- The dictionary builder: `Trie::new` followed by the insert calls. -/
def buildTrie (ws : List (List Char × Nat)) : Option Trie :=
  insertAll Trie.new ws

/-- The normalized letter indices one insert call actually stores:
`none` when the call rejects the word (out-of-alphabet input). -/
def insertedIdx (p : List Char × Nat) : Option (List (Fin 26)) :=
  match toIndices p.1 with
  | some (c :: r) => some (c :: r)
  | _ => none

/-- Spec-side effect of one insert call on the lookup of the fixed
nonempty query `q`. -/
def lookStep (q : List (Fin 26)) (prev : Option NodeType) (p : List Char × Nat) :
    Option NodeType :=
  match toIndices p.1 with
  | some (c :: rest) =>
    if q = c :: rest then some (NodeType.Word p.2)
    else if q <+: c :: rest then some (prev.getD NodeType.Prefix)
    else prev
  | _ => prev

theorem WF_insertAll :
    ∀ (ws : List (List Char × Nat)) (t T : Trie), t.WF → insertAll t ws = some T →
      T.WF := by
  intro ws
  induction ws with
  | nil =>
    intro t T hwf h
    injection h with h
    rw [← h]
    exact hwf
  | cons p rest ih =>
    intro t T hwf h
    obtain ⟨w, id⟩ := p
    unfold insertAll at h
    unfold Trie.insert at h
    rcases hidx : toIndices w with _ | l
    · rw [hidx] at h
      exact ih t T hwf h
    · rcases l with _ | ⟨c, r⟩
      · rw [hidx] at h
        cases h
      · rw [hidx] at h
        exact ih _ T (Trie.WF_ins r t c id hwf) h

/-- Lookups after a build sequence: fold of the per-call spec effect. -/
theorem insertAll_cns :
    ∀ (ws : List (List Char × Nat)) (t T : Trie), t.WF → insertAll t ws = some T →
      ∀ (c0 : Fin 26) (ql : List (Fin 26)),
        T.cns c0 ql = ws.foldl (lookStep (c0 :: ql)) (t.cns c0 ql) := by
  intro ws
  induction ws with
  | nil =>
    intro t T hwf h c0 ql
    injection h with h
    rw [← h]
    rfl
  | cons p rest ih =>
    intro t T hwf h c0 ql
    obtain ⟨w, id⟩ := p
    unfold insertAll at h
    unfold Trie.insert at h
    rcases hidx : toIndices w with _ | l
    · rw [hidx] at h
      rw [ih t T hwf h c0 ql]
      show _ = List.foldl (lookStep (c0 :: ql)) (lookStep (c0 :: ql) (t.cns c0 ql) (w, id)) rest
      congr 1
      unfold lookStep
      rw [hidx]
    · rcases l with _ | ⟨c, r⟩
      · rw [hidx] at h
        cases h
      · rw [hidx] at h
        rw [ih _ T (Trie.WF_ins r t c id hwf) h c0 ql]
        show _ = List.foldl (lookStep (c0 :: ql)) (lookStep (c0 :: ql) (t.cns c0 ql) (w, id)) rest
        congr 1
        unfold lookStep
        rw [hidx]
        rw [cns_ins r t c id c0 ql hwf]
        simp only [List.cons.injEq, List.cons_prefix_cons]

/-- The id of the last insert call that stored exactly the normalized
word `q` (last write wins). -/
def lastExact (ws : List (List Char × Nat)) (q : List (Fin 26)) : Option Nat :=
  ((ws.filter (fun p => decide (insertedIdx p = some q))).getLast?).map (fun p => p.2)

theorem lookStep_none {q : List (Fin 26)} {prev : Option NodeType} {p : List Char × Nat}
    (h : toIndices p.1 = none) : lookStep q prev p = prev := by
  unfold lookStep
  rw [h]

theorem lookStep_nil {q : List (Fin 26)} {prev : Option NodeType} {p : List Char × Nat}
    (h : toIndices p.1 = some []) : lookStep q prev p = prev := by
  unfold lookStep
  rw [h]

theorem lookStep_cons {q : List (Fin 26)} {prev : Option NodeType} {p : List Char × Nat}
    {c : Fin 26} {rest : List (Fin 26)} (h : toIndices p.1 = some (c :: rest)) :
    lookStep q prev p
      = if q = c :: rest then some (NodeType.Word p.2)
        else if q <+: c :: rest then some (prev.getD NodeType.Prefix) else prev := by
  unfold lookStep
  rw [h]

theorem lookStep_isSome (q : List (Fin 26)) (prev : Option NodeType)
    (p : List Char × Nat) (h : prev.isSome = true) :
    (lookStep q prev p).isSome = true := by
  rcases hidx : toIndices p.1 with _ | l
  · rw [lookStep_none hidx]; exact h
  · rcases l with _ | ⟨c, rest⟩
    · rw [lookStep_nil hidx]; exact h
    · rw [lookStep_cons hidx]
      by_cases h1 : q = c :: rest
      · rw [if_pos h1]; rfl
      · rw [if_neg h1]
        by_cases h2 : q <+: c :: rest
        · rw [if_pos h2]; rfl
        · rw [if_neg h2]; exact h

/-- The classification fold reports `Word k` exactly when the last
insert of the literal (normalized) word `q` carried id `k`. -/
theorem foldl_lookStep_word :
    ∀ (ws : List (List Char × Nat)) (q : List (Fin 26)) (k : Nat),
      (List.foldl (lookStep q) none ws = some (NodeType.Word k)) ↔ lastExact ws q = some k := by
  intro ws
  induction ws using List.reverseRecOn with
  | nil =>
    intro q k
    constructor
    · intro h; cases h
    · intro h; cases h
  | append_singleton ws p ih =>
    intro q k
    rw [List.foldl_append]
    unfold lastExact
    rw [List.filter_append]
    show lookStep q (List.foldl (lookStep q) none ws) p = some (NodeType.Word k) ↔ _
    rcases hidx : toIndices p.1 with _ | l
    · have hdrop : List.filter (fun p => decide (insertedIdx p = some q)) [p] = [] := by
        simp [insertedIdx, hidx]
      rw [lookStep_none hidx, hdrop, List.append_nil]
      exact ih q k
    · rcases l with _ | ⟨c, rest⟩
      · have hdrop : List.filter (fun p => decide (insertedIdx p = some q)) [p] = [] := by
          simp [insertedIdx, hidx]
        rw [lookStep_nil hidx, hdrop, List.append_nil]
        exact ih q k
      · rw [lookStep_cons hidx]
        by_cases h1 : q = c :: rest
        · rw [if_pos h1]
          have hkeep : List.filter (fun p => decide (insertedIdx p = some q)) [p] = [p] := by
            simp [insertedIdx, hidx, h1]
          rw [hkeep, List.getLast?_append]
          constructor
          · intro h
            injection h with h
            injection h with h
            simp [h]
          · intro h
            simp at h
            simp [h]
        · rw [if_neg h1]
          have hins : insertedIdx p = some (c :: rest) := by
            unfold insertedIdx
            rw [hidx]
          have hdrop : List.filter (fun p => decide (insertedIdx p = some q)) [p] = [] := by
            simp [hins]
            intro hq
            exact h1 hq.symm
          rw [hdrop, List.append_nil]
          by_cases h2 : q <+: c :: rest
          · rw [if_pos h2]
            have ihq := ih q k
            rcases hacc : List.foldl (lookStep q) none ws with _ | nt
            · rw [hacc] at ihq
              show some NodeType.Prefix = some (NodeType.Word k) ↔ _
              constructor
              · intro h
                injection h with h
                cases h
              · intro h
                have h3 := ihq.mpr h
                cases h3
            · rw [hacc] at ihq
              show some nt = some (NodeType.Word k) ↔ _
              exact ihq
          · rw [if_neg h2]
            exact ih q k

/-- Once any inserted word has `q` as a (possibly improper) nonempty
path-prefix, the classification fold reports something. -/
theorem foldl_lookStep_isSome :
    ∀ (ws : List (List Char × Nat)) (q : List (Fin 26)) (base : Option NodeType),
      (∃ p ∈ ws, ∃ m, insertedIdx p = some m ∧ q <+: m) →
      (List.foldl (lookStep q) base ws).isSome = true := by
  intro ws
  induction ws using List.reverseRecOn with
  | nil =>
    intro q base h
    obtain ⟨p, hp, _⟩ := h
    cases hp
  | append_singleton ws p ih =>
    intro q base h
    rw [List.foldl_append]
    obtain ⟨p2, hp2, m, hm, hq⟩ := h
    rcases List.mem_append.mp hp2 with hin | hself
    · exact lookStep_isSome _ _ _ (ih q base ⟨p2, hin, m, hm, hq⟩)
    · have hpp : p2 = p := List.mem_singleton.mp hself
      subst hpp
      show (lookStep q (List.foldl (lookStep q) base ws) p2).isSome = true
      unfold insertedIdx at hm
      rcases hidx : toIndices p2.1 with _ | l
      · rw [hidx] at hm; cases hm
      · rcases l with _ | ⟨c, rest⟩
        · rw [hidx] at hm; cases hm
        · rw [hidx] at hm
          injection hm with hm
          rw [lookStep_cons hidx]
          by_cases h1 : q = c :: rest
          · rw [if_pos h1]; rfl
          · rw [if_neg h1, if_pos (by rw [hm]; exact hq)]
            rfl

theorem toIndices_eq_none {s : List Char} (h : ∃ c ∈ s, charIdx c = none) :
    toIndices s = none := by
  induction s with
  | nil =>
    obtain ⟨c, hc, _⟩ := h
    cases hc
  | cons c rest ih =>
    obtain ⟨c', hc', hnone⟩ := h
    unfold toIndices
    rcases List.mem_cons.mp hc' with rfl | hin
    · rw [hnone]
    · rw [ih ⟨c', hin, hnone⟩]
      rcases charIdx c with _ | x <;> rfl

/-! ## Letter-indexed board (src/src/boggle/radix_board.rs)

Cell indices inside `set` are computed in `ℤ`: a negative result models
the Rust usize underflow, which (like any out-of-range index) panics —
modelled as `none`. -/

def FLAG_NORTHWEST : Nat := 0b10000000
def FLAG_NORTH     : Nat := 0b01000000
def FLAG_NORTHEAST : Nat := 0b00100000
def FLAG_WEST      : Nat := 0b00010000
def FLAG_EAST      : Nat := 0b00001000
def FLAG_SOUTHWEST : Nat := 0b00000100
def FLAG_SOUTH     : Nat := 0b00000010
def FLAG_SOUTHEAST : Nat := 0b00000001

/-- `SimpleBoggleBoard` (src/src/boggle/simple_board.rs): the plain
grid — `width × height` cells, one letter value each. -/
structure SimpleBoggleBoard where
  width : Nat
  height : Nat
  cells : List Nat
  deriving Repr, DecidableEq

structure RadixBoggleBoard where
  width : Nat
  height : Nat
  /-- one `BitSet` per letter value: which cells hold that letter -/
  alpha : List BitSet
  /-- per cell, 26 packed direction masks (`[u8; 26]`) -/
  cells : List (List Nat)
  deriving Repr, DecidableEq

namespace RadixBoggleBoard

/-- `RadixBoggleBoard::new`. -/
def new (width height : Nat) : RadixBoggleBoard :=
  ⟨width, height, List.replicate ALPHABET_SIZE BitSet.new,
    List.replicate (width * height) (List.replicate ALPHABET_SIZE 0)⟩

/-- `RadixBoggleBoard::mask_cell — self.cells[i][v] |= mask`; `none`
models the out-of-bounds (or underflowed-index) panic. -/
def mask_cell (b : RadixBoggleBoard) (v : Nat) (i : Int) (mask : Nat) :
    Option RadixBoggleBoard :=
  if 0 ≤ i ∧ i.toNat < b.cells.length ∧ v < (b.cells.getD i.toNat []).length then
    let cell := b.cells.getD i.toNat []
    some { b with cells := b.cells.set i.toNat (cell.set v ((cell.getD v 0) ||| mask)) }
  else none

/-- A sequence of `mask_cell` calls, each `(index, flag)` pair one call;
the first panic (`none`) aborts, as in Rust. -/
def maskRun (b : RadixBoggleBoard) (v : Nat) : List (Int × Nat) → Option RadixBoggleBoard
  | [] => some b
  | t :: ts =>
    match b.mask_cell v t.1 t.2 with
    | none => none
    | some b' => b'.maskRun v ts

/-- `self.alpha[v as usize].add(i)` — the first statement of `set`
(checked indexing of `alpha`, its panic handled by `set`). -/
def alphaAdd (b : RadixBoggleBoard) (i v : Nat) : RadixBoggleBoard :=
  { b with alpha := b.alpha.set v ((b.alpha.getD v BitSet.new).add i) }

/-- The `mask_cell` call sequence of `RadixBoggleBoard::set`'s nine-way
position match — one `(index, flag)` pair per call, guards and order
exactly as in the source. -/
def targetsFor (width height i : Nat) : List (Int × Nat) :=
  -- northwest corner
  if i = 0 then
    [((i : Int) + 1, FLAG_WEST), ((i : Int) + (width : Int), FLAG_NORTH),
      ((i : Int) + (width : Int) + 1, FLAG_NORTHWEST)]
  -- northeast corner
  else if i = width - 1 then
    [((i : Int) - 1, FLAG_EAST), ((i : Int) + (width : Int) - 1, FLAG_NORTHEAST),
      ((i : Int) + (width : Int), FLAG_NORTH)]
  -- southwest corner
  else if i = width * (height - 1) then
    [((i : Int) - (width : Int), FLAG_SOUTH), ((i : Int) - (width : Int) + 1, FLAG_SOUTHWEST),
      ((i : Int) + 1, FLAG_WEST)]
  -- southeast corner
  else if i = width * height - 1 then
    [((i : Int) - (width : Int) - 1, FLAG_SOUTHEAST), ((i : Int) - (width : Int), FLAG_SOUTH),
      ((i : Int) - 1, FLAG_EAST)]
  -- north edge
  else if i < width then
    [((i : Int) - 1, FLAG_EAST), ((i : Int) + 1, FLAG_WEST),
      ((i : Int) + (width : Int) - 1, FLAG_NORTHEAST), ((i : Int) + (width : Int), FLAG_NORTH),
      ((i : Int) + (width : Int) + 1, FLAG_NORTHWEST)]
  -- south edge
  else if i > width * (height - 1) then
    [((i : Int) - (width : Int) - 1, FLAG_SOUTHEAST), ((i : Int) - (width : Int), FLAG_SOUTH),
      ((i : Int) - (width : Int) + 1, FLAG_SOUTHWEST), ((i : Int) - 1, FLAG_EAST),
      ((i : Int) + 1, FLAG_WEST)]
  -- west edge
  else if i % width = 0 then
    [((i : Int) - (width : Int), FLAG_SOUTH), ((i : Int) - (width : Int) + 1, FLAG_SOUTHWEST),
      ((i : Int) + 1, FLAG_WEST), ((i : Int) + (width : Int), FLAG_NORTH),
      ((i : Int) + (width : Int) + 1, FLAG_NORTHWEST)]
  -- east edge
  else if i % width = width - 1 then
    [((i : Int) - (width : Int) - 1, FLAG_SOUTHEAST), ((i : Int) - (width : Int), FLAG_SOUTH),
      ((i : Int) - 1, FLAG_EAST), ((i : Int) + (width : Int) - 1, FLAG_NORTHEAST),
      ((i : Int) + (width : Int), FLAG_NORTH)]
  -- interior
  else
    [((i : Int) - (width : Int) - 1, FLAG_SOUTHEAST), ((i : Int) - (width : Int), FLAG_SOUTH),
      ((i : Int) - (width : Int) + 1, FLAG_SOUTHWEST), ((i : Int) - 1, FLAG_EAST),
      ((i : Int) + 1, FLAG_WEST), ((i : Int) + (width : Int) - 1, FLAG_NORTHEAST),
      ((i : Int) + (width : Int), FLAG_NORTH), ((i : Int) + (width : Int) + 1, FLAG_NORTHWEST)]

/-- `RadixBoggleBoard::set`: record cell `i` in the letter index and
mark the matching direction flag in each geometric neighbor, running the
nine-way position match's `mask_cell` sequence. -/
def set (b : RadixBoggleBoard) (i : Nat) (v : Nat) : Option RadixBoggleBoard :=
  if v < b.alpha.length then
    (alphaAdd b i v).maskRun v (targetsFor b.width b.height i)
  else none

end RadixBoggleBoard

/-- `RadixBoggleBoard::from`: index every cell of a filled simple board. -/
def RadixBoggleBoard.fromSimple (src : SimpleBoggleBoard) : Option RadixBoggleBoard :=
  src.cells.enum.foldlM (fun b (p : Nat × Nat) => b.set p.1 p.2)
    (RadixBoggleBoard.new src.width src.height)

/-- `RadixBoggleBoard::any — self.alpha[v].iter_ones()`, run to
exhaustion.  (For `v ≥ 26` the Rust indexing panics; unreachable for the
letters an `insert`-built trie produces.) -/
def RadixBoggleBoard.any (b : RadixBoggleBoard) (v : Nat) : List Nat :=
  (b.alpha.getD v BitSet.new).iter_ones

/-- One step of `RadixNeighborIter::next`: decode the highest set flag
of an 8-bit direction mask.  `u8::leading_zeros(value) = 7 - log2 value`
for nonzero values.  On boards built by `set`, a set flag guarantees the
corresponding neighbor exists, so the truncated subtractions below are
exact (in Rust they would otherwise underflow and panic). -/
def neighborStep (value idx width : Nat) : Option (Nat × Nat) :=
  match (if value = 0 then 8 else 7 - log2F 8 value) with
  | 0 => some (idx - width - 1, value &&& 0b01111111)
  | 1 => some (idx - width,     value &&& 0b00111111)
  | 2 => some (idx - width + 1, value &&& 0b00011111)
  | 3 => some (idx - 1,         value &&& 0b00001111)
  | 4 => some (idx + 1,         value &&& 0b00000111)
  | 5 => some (idx + width - 1, value &&& 0b00000011)
  | 6 => some (idx + width,     value &&& 0b00000001)
  | 7 => some (idx + width + 1, 0)
  | _ => none

/-- `RadixNeighborIter` run to exhaustion (8 flags, so 8 yields at most). -/
def neighborsAux (idx width : Nat) : Nat → Nat → List Nat
  | _, 0 => []
  | value, f + 1 =>
    match neighborStep value idx width with
    | none => []
    | some (pos, value') => pos :: neighborsAux idx width value' f

/-- `RadixBoggleBoard::neighbors`: decode the direction mask stored at
`cells[i][v]`.  (Out-of-range `i`/`v` panics in Rust; modelled as an
empty mask, unreachable on built boards with in-range queries.) -/
def RadixBoggleBoard.neighbors (b : RadixBoggleBoard) (i v : Nat) : List Nat :=
  neighborsAux i b.width ((b.cells.getD i []).getD v 0) 8

/-! Spec-side geometry: row `r`, column `c`, the eight compass
directions in flag order NW,N,NE,W,E,SW,S,SE. -/

/-- The coordinates of the neighbor of `(r, c)` in direction `d` on a
`w × h` grid, `none` when it falls off the grid (no wraparound). -/
def nbrCoord (w h r c : Nat) (d : Fin 8) : Option (Nat × Nat) :=
  match d.val with
  | 0 => if 0 < r ∧ 0 < c then some (r - 1, c - 1) else none
  | 1 => if 0 < r then some (r - 1, c) else none
  | 2 => if 0 < r ∧ c + 1 < w then some (r - 1, c + 1) else none
  | 3 => if 0 < c then some (r, c - 1) else none
  | 4 => if c + 1 < w then some (r, c + 1) else none
  | 5 => if r + 1 < h ∧ 0 < c then some (r + 1, c - 1) else none
  | 6 => if r + 1 < h then some (r + 1, c) else none
  | 7 => if r + 1 < h ∧ c + 1 < w then some (r + 1, c + 1) else none
  | _ => none

/-- The neighbor of cell index `j` in direction `d` (as a cell index). -/
def nbrIdx (w h j : Nat) (d : Fin 8) : Option Nat :=
  (nbrCoord w h (j / w) (j % w) d).map (fun p => p.1 * w + p.2)

/-- Letter held by cell `i` of the grid. -/
def SimpleBoggleBoard.letter (g : SimpleBoggleBoard) (i : Nat) : Nat :=
  g.cells.getD i 0

/-- 8-adjacency of two cell indices on the grid. -/
def SimpleBoggleBoard.adj (g : SimpleBoggleBoard) (a b : Nat) : Prop :=
  ∃ d : Fin 8, nbrIdx g.width g.height a d = some b

/-- The direction mask stored for cell `j`, letter `v`. -/
def RadixBoggleBoard.maskAt (b : RadixBoggleBoard) (j v : Nat) : Nat :=
  (b.cells.getD j []).getD v 0

/-- Direction `d`'s flag bit inside a mask (NW is the MSB, bit 7). -/
def maskBit (mask : Nat) (d : Fin 8) : Bool := mask.testBit (7 - d.val)

/-! ### Effect of `mask_cell` runs on the stored masks -/

/-- The flags a `mask_cell` sequence ORs into cell `j` (at the letter
being set). -/
def orFlags (j : Nat) : List (Int × Nat) → Nat
  | [] => 0
  | t :: ts => if t.1.toNat = j then t.2 ||| orFlags j ts else orFlags j ts

theorem orFlags_cons (j : Nat) (t : Int × Nat) (ts : List (Int × Nat)) :
    orFlags j (t :: ts) = if t.1.toNat = j then t.2 ||| orFlags j ts else orFlags j ts := rfl

theorem testBit_orFlags :
    ∀ (ts : List (Int × Nat)) (j k : Nat),
      (orFlags j ts).testBit k
        = ts.any (fun t => decide (t.1.toNat = j) && t.2.testBit k) := by
  intro ts
  induction ts with
  | nil =>
    intro j k
    simp [orFlags, Nat.zero_testBit]
  | cons t ts ih =>
    intro j k
    unfold orFlags
    by_cases ht : t.1.toNat = j
    · rw [if_pos ht, Nat.testBit_or, ih, List.any_cons, decide_eq_true ht, Bool.true_and]
    · rw [if_neg ht, ih, List.any_cons, decide_eq_false ht, Bool.false_and, Bool.false_or]

theorem orFlags_lt {n : Nat} :
    ∀ (ts : List (Int × Nat)) (j : Nat), (∀ t ∈ ts, t.2 < 2 ^ n) →
      orFlags j ts < 2 ^ n := by
  intro ts
  induction ts with
  | nil =>
    intro j _
    exact Nat.pos_pow_of_pos n (by norm_num)
  | cons t ts ih =>
    intro j hts
    unfold orFlags
    have hrest := ih j (fun u hu => hts u (List.mem_cons_of_mem _ hu))
    split
    · exact Nat.or_lt_two_pow (hts t (List.mem_cons_self _ _)) hrest
    · exact hrest

theorem mask_cell_isSome {b : RadixBoggleBoard} {v : Nat} {i : Int} {m : Nat}
    (h1 : 0 ≤ i) (h2 : i.toNat < b.cells.length)
    (h3 : v < (b.cells.getD i.toNat []).length) :
    (b.mask_cell v i m).isSome = true := by
  unfold RadixBoggleBoard.mask_cell
  rw [if_pos ⟨h1, h2, h3⟩]
  rfl

theorem mask_cell_spec {b b' : RadixBoggleBoard} {v : Nat} {i : Int} {m : Nat}
    (h : b.mask_cell v i m = some b') :
    b'.width = b.width ∧ b'.height = b.height ∧ b'.alpha = b.alpha ∧
    b'.cells.length = b.cells.length ∧
    (∀ j, (b'.cells.getD j []).length = (b.cells.getD j []).length) ∧
    (∀ j v', b'.maskAt j v'
      = if j = i.toNat ∧ v' = v then b.maskAt j v' ||| m else b.maskAt j v') := by
  unfold RadixBoggleBoard.mask_cell at h
  by_cases hc : 0 ≤ i ∧ i.toNat < b.cells.length ∧ v < (b.cells.getD i.toNat []).length
  · rw [if_pos hc] at h
    injection h with h
    subst h
    obtain ⟨hc1, hc2, hc3⟩ := hc
    refine ⟨rfl, rfl, rfl, List.length_set _ _ _, ?_, ?_⟩
    · intro j
      show ((b.cells.set i.toNat _).getD j []).length = _
      rcases eq_or_ne j i.toNat with rfl | hne
      · rw [getD_set_self _ _ _ _ hc2, List.length_set]
      · rw [getD_set_ne _ _ _ _ _ (Ne.symm hne)]
    · intro j v'
      show ((b.cells.set i.toNat _).getD j []).getD v' 0 = _
      rcases eq_or_ne j i.toNat with rfl | hne
      · rw [getD_set_self _ _ _ _ hc2]
        rcases eq_or_ne v' v with rfl | hne2
        · rw [if_pos ⟨rfl, rfl⟩, getD_set_self _ _ _ _ hc3]
          rfl
        · rw [if_neg (by intro hcon; exact hne2 hcon.2), getD_set_ne _ _ _ _ _ (Ne.symm hne2)]
          rfl
      · rw [if_neg (by intro hcon; exact hne hcon.1), getD_set_ne _ _ _ _ _ (Ne.symm hne)]
        rfl
  · rw [if_neg hc] at h
    cases h

theorem maskRun_spec {v : Nat} :
    ∀ (ts : List (Int × Nat)) (b : RadixBoggleBoard),
      (∀ j, j < b.cells.length → v < (b.cells.getD j []).length) →
      (∀ t ∈ ts, 0 ≤ t.1 ∧ t.1.toNat < b.cells.length) →
      ∃ b', b.maskRun v ts = some b' ∧
        b'.width = b.width ∧ b'.height = b.height ∧ b'.alpha = b.alpha ∧
        b'.cells.length = b.cells.length ∧
        (∀ j, (b'.cells.getD j []).length = (b.cells.getD j []).length) ∧
        (∀ j v', b'.maskAt j v'
          = if v' = v then b.maskAt j v' ||| orFlags j ts else b.maskAt j v') := by
  intro ts
  induction ts with
  | nil =>
    intro b _ _
    refine ⟨b, rfl, rfl, rfl, rfl, rfl, fun j => rfl, ?_⟩
    intro j v'
    split
    · show b.maskAt j v' = b.maskAt j v' ||| 0
      rw [Nat.or_zero]
    · rfl
  | cons t ts ih =>
    intro b hrows hts
    obtain ⟨ht1, ht2⟩ := hts t (List.mem_cons_self _ _)
    have hsome := @mask_cell_isSome b _ _ t.2 ht1 ht2 (hrows _ ht2)
    obtain ⟨b2, hb2⟩ := Option.isSome_iff_exists.mp hsome
    obtain ⟨hbw, hbh, hba, hbl, hbrow, hbm⟩ := mask_cell_spec hb2
    have hrows2 : ∀ j, j < b2.cells.length → v < (b2.cells.getD j []).length := by
      intro j hj
      rw [hbrow]
      exact hrows j (by omega)
    have hts2 : ∀ u ∈ ts, 0 ≤ u.1 ∧ u.1.toNat < b2.cells.length := by
      intro u hu
      have := hts u (List.mem_cons_of_mem _ hu)
      omega
    obtain ⟨b', hrun, hw', hh', ha', hl', hrow', hm'⟩ := ih b2 hrows2 hts2
    refine ⟨b', ?_, by rw [hw', hbw], by rw [hh', hbh], by rw [ha', hba],
      by rw [hl', hbl], fun j => by rw [hrow', hbrow], ?_⟩
    · show RadixBoggleBoard.maskRun b v (t :: ts) = some b'
      unfold RadixBoggleBoard.maskRun
      rw [hb2]
      exact hrun
    · intro j v'
      rw [hm' j v', hbm j v']
      rcases eq_or_ne v' v with rfl | hne
      · rw [if_pos rfl, if_pos rfl, orFlags_cons]
        rcases eq_or_ne j t.1.toNat with rfl | hne2
        · rw [if_pos ⟨rfl, rfl⟩, if_pos rfl, Nat.or_assoc]
        · rw [if_neg (by intro hcon; exact hne2 hcon.1), if_neg (Ne.symm hne2)]
      · rw [if_neg hne, if_neg hne, if_neg (by intro hcon; exact hne hcon.2)]

/-! ### Coordinate arithmetic for the grid geometry -/

theorem enc_div {q r w : Nat} (hr : r < w) : (q * w + r) / w = q := by
  have h0 : 0 < w := by omega
  rw [Nat.add_comm, Nat.add_mul_div_right _ _ h0, Nat.div_eq_of_lt hr, Nat.zero_add]

theorem enc_mod {q r w : Nat} (hr : r < w) : (q * w + r) % w = r := by
  rw [Nat.add_comm, Nat.add_mul_mod_self_right, Nat.mod_eq_of_lt hr]

/-- Direction 0 (NW): cell `j`'s northwest neighbor is `i` exactly when
`j = i + w + 1` and `i` is not in the last column. -/
theorem nbr_char_nw {w h j i : Nat} (hw : 0 < w) (hi : i < w * h) :
    (∃ p, nbrCoord w h (j / w) (j % w) ⟨0, by omega⟩ = some p ∧ p.1 * w + p.2 = i) ↔
      (j = i + w + 1 ∧ i % w + 1 < w) := by
  have hjm : j % w < w := Nat.mod_lt j hw
  have hdm : j / w * w + j % w = j := by rw [mul_comm]; exact Nat.div_add_mod j w
  have him2 : i % w < w := Nat.mod_lt i hw
  have hidm : i / w * w + i % w = i := by rw [mul_comm]; exact Nat.div_add_mod i w
  have hred : nbrCoord w h (j / w) (j % w) ⟨0, by omega⟩
      = if 0 < j / w ∧ 0 < j % w then some (j / w - 1, j % w - 1) else none := rfl
  constructor
  · rintro ⟨p, hp, henc⟩
    rw [hred] at hp
    by_cases hc : 0 < j / w ∧ 0 < j % w
    · rw [if_pos hc] at hp
      injection hp with hp
      subst hp
      have henc' : (j / w - 1) * w + (j % w - 1) = i := henc
      have him : i % w = j % w - 1 := by
        rw [← henc']
        exact enc_mod (by omega)
      have hsub : (j / w - 1) * w = j / w * w - w := by rw [Nat.sub_mul, one_mul]
      have hge : w ≤ j / w * w := by
        calc w = 1 * w := (one_mul w).symm
        _ ≤ j / w * w := Nat.mul_le_mul_right w hc.1
      omega
    · rw [if_neg hc] at hp
      cases hp
  · rintro ⟨hje, him⟩
    have hexp : (i / w + 1) * w = i / w * w + w := by ring
    have hj2 : j = (i / w + 1) * w + (i % w + 1) := by omega
    have hdiv : j / w = i / w + 1 := by rw [hj2]; exact enc_div (by omega)
    have hmod : j % w = i % w + 1 := by rw [hj2]; exact enc_mod (by omega)
    refine ⟨(j / w - 1, j % w - 1), by
      rw [hred, if_pos ⟨by rw [hdiv]; exact Nat.succ_pos _,
        by rw [hmod]; exact Nat.succ_pos _⟩], ?_⟩
    show (j / w - 1) * w + (j % w - 1) = i
    rw [hdiv, hmod, Nat.add_sub_cancel, Nat.add_sub_cancel]
    exact hidm

/-- Direction 1 (N): cell `j`'s north neighbor is `i` exactly when
`j = i + w`. -/
theorem nbr_char_n {w h j i : Nat} (hw : 0 < w) (hi : i < w * h) :
    (∃ p, nbrCoord w h (j / w) (j % w) ⟨1, by omega⟩ = some p ∧ p.1 * w + p.2 = i) ↔
      j = i + w := by
  have hjm : j % w < w := Nat.mod_lt j hw
  have hdm : j / w * w + j % w = j := by rw [mul_comm]; exact Nat.div_add_mod j w
  have him2 : i % w < w := Nat.mod_lt i hw
  have hidm : i / w * w + i % w = i := by rw [mul_comm]; exact Nat.div_add_mod i w
  have hred : nbrCoord w h (j / w) (j % w) ⟨1, by omega⟩
      = if 0 < j / w then some (j / w - 1, j % w) else none := rfl
  constructor
  · rintro ⟨p, hp, henc⟩
    rw [hred] at hp
    by_cases hc : 0 < j / w
    · rw [if_pos hc] at hp
      injection hp with hp
      subst hp
      have henc' : (j / w - 1) * w + j % w = i := henc
      have hsub : (j / w - 1) * w = j / w * w - w := by rw [Nat.sub_mul, one_mul]
      have hge : w ≤ j / w * w := by
        calc w = 1 * w := (one_mul w).symm
        _ ≤ j / w * w := Nat.mul_le_mul_right w hc
      omega
    · rw [if_neg hc] at hp
      cases hp
  · intro hje
    have hexp : (i / w + 1) * w = i / w * w + w := by ring
    have hj2 : j = (i / w + 1) * w + i % w := by omega
    have hdiv : j / w = i / w + 1 := by rw [hj2]; exact enc_div (by omega)
    have hmod : j % w = i % w := by rw [hj2]; exact enc_mod (by omega)
    refine ⟨(j / w - 1, j % w), by
      rw [hred, if_pos (by rw [hdiv]; exact Nat.succ_pos _)], ?_⟩
    show (j / w - 1) * w + j % w = i
    rw [hdiv, hmod, Nat.add_sub_cancel]
    exact hidm

/-- Direction 2 (NE): cell `j`'s northeast neighbor is `i` exactly when
`j + 1 = i + w` and `i` is not in the first column. -/
theorem nbr_char_ne {w h j i : Nat} (hw : 0 < w) (hi : i < w * h) :
    (∃ p, nbrCoord w h (j / w) (j % w) ⟨2, by omega⟩ = some p ∧ p.1 * w + p.2 = i) ↔
      (j + 1 = i + w ∧ 0 < i % w) := by
  have hjm : j % w < w := Nat.mod_lt j hw
  have hdm : j / w * w + j % w = j := by rw [mul_comm]; exact Nat.div_add_mod j w
  have him2 : i % w < w := Nat.mod_lt i hw
  have hidm : i / w * w + i % w = i := by rw [mul_comm]; exact Nat.div_add_mod i w
  have hred : nbrCoord w h (j / w) (j % w) ⟨2, by omega⟩
      = if 0 < j / w ∧ j % w + 1 < w then some (j / w - 1, j % w + 1) else none := rfl
  constructor
  · rintro ⟨p, hp, henc⟩
    rw [hred] at hp
    by_cases hc : 0 < j / w ∧ j % w + 1 < w
    · rw [if_pos hc] at hp
      injection hp with hp
      subst hp
      have henc' : (j / w - 1) * w + (j % w + 1) = i := henc
      have him : i % w = j % w + 1 := by
        rw [← henc']
        exact enc_mod (by omega)
      have hsub : (j / w - 1) * w = j / w * w - w := by rw [Nat.sub_mul, one_mul]
      have hge : w ≤ j / w * w := by
        calc w = 1 * w := (one_mul w).symm
        _ ≤ j / w * w := Nat.mul_le_mul_right w hc.1
      omega
    · rw [if_neg hc] at hp
      cases hp
  · rintro ⟨hje, him⟩
    have hexp : (i / w + 1) * w = i / w * w + w := by ring
    have hj2 : j = (i / w + 1) * w + (i % w - 1) := by omega
    have hdiv : j / w = i / w + 1 := by rw [hj2]; exact enc_div (by omega)
    have hmod : j % w = i % w - 1 := by rw [hj2]; exact enc_mod (by omega)
    refine ⟨(j / w - 1, j % w + 1), by
      rw [hred, if_pos ⟨by rw [hdiv]; exact Nat.succ_pos _,
        by rw [hmod, Nat.sub_add_cancel him]; exact him2⟩], ?_⟩
    show (j / w - 1) * w + (j % w + 1) = i
    rw [hdiv, hmod, Nat.add_sub_cancel, Nat.sub_add_cancel him]
    exact hidm

/-- Direction 3 (W): cell `j`'s west neighbor is `i` exactly when
`j = i + 1` and `i` is not in the last column. -/
theorem nbr_char_w {w h j i : Nat} (hw : 0 < w) (hi : i < w * h) :
    (∃ p, nbrCoord w h (j / w) (j % w) ⟨3, by omega⟩ = some p ∧ p.1 * w + p.2 = i) ↔
      (j = i + 1 ∧ i % w + 1 < w) := by
  have hjm : j % w < w := Nat.mod_lt j hw
  have hdm : j / w * w + j % w = j := by rw [mul_comm]; exact Nat.div_add_mod j w
  have him2 : i % w < w := Nat.mod_lt i hw
  have hidm : i / w * w + i % w = i := by rw [mul_comm]; exact Nat.div_add_mod i w
  have hred : nbrCoord w h (j / w) (j % w) ⟨3, by omega⟩
      = if 0 < j % w then some (j / w, j % w - 1) else none := rfl
  constructor
  · rintro ⟨p, hp, henc⟩
    rw [hred] at hp
    by_cases hc : 0 < j % w
    · rw [if_pos hc] at hp
      injection hp with hp
      subst hp
      have henc' : j / w * w + (j % w - 1) = i := henc
      have him : i % w = j % w - 1 := by
        rw [← henc']
        exact enc_mod (by omega)
      omega
    · rw [if_neg hc] at hp
      cases hp
  · rintro ⟨hje, him⟩
    have hj2 : j = i / w * w + (i % w + 1) := by omega
    have hdiv : j / w = i / w := by rw [hj2]; exact enc_div (by omega)
    have hmod : j % w = i % w + 1 := by rw [hj2]; exact enc_mod (by omega)
    refine ⟨(j / w, j % w - 1), by rw [hred, if_pos (by omega)], ?_⟩
    show j / w * w + (j % w - 1) = i
    rw [hdiv, hmod, show i % w + 1 - 1 = i % w from by omega]
    exact hidm

/-- Direction 4 (E): cell `j`'s east neighbor is `i` exactly when
`i = j + 1` and `i` is not in the first column. -/
theorem nbr_char_e {w h j i : Nat} (hw : 0 < w) (hi : i < w * h) :
    (∃ p, nbrCoord w h (j / w) (j % w) ⟨4, by omega⟩ = some p ∧ p.1 * w + p.2 = i) ↔
      (i = j + 1 ∧ 0 < i % w) := by
  have hjm : j % w < w := Nat.mod_lt j hw
  have hdm : j / w * w + j % w = j := by rw [mul_comm]; exact Nat.div_add_mod j w
  have him2 : i % w < w := Nat.mod_lt i hw
  have hidm : i / w * w + i % w = i := by rw [mul_comm]; exact Nat.div_add_mod i w
  have hred : nbrCoord w h (j / w) (j % w) ⟨4, by omega⟩
      = if j % w + 1 < w then some (j / w, j % w + 1) else none := rfl
  constructor
  · rintro ⟨p, hp, henc⟩
    rw [hred] at hp
    by_cases hc : j % w + 1 < w
    · rw [if_pos hc] at hp
      injection hp with hp
      subst hp
      have henc' : j / w * w + (j % w + 1) = i := henc
      have him : i % w = j % w + 1 := by
        rw [← henc']
        exact enc_mod (by omega)
      omega
    · rw [if_neg hc] at hp
      cases hp
  · rintro ⟨hje, him⟩
    have hj2 : j = i / w * w + (i % w - 1) := by omega
    have hdiv : j / w = i / w := by rw [hj2]; exact enc_div (by omega)
    have hmod : j % w = i % w - 1 := by rw [hj2]; exact enc_mod (by omega)
    refine ⟨(j / w, j % w + 1), by rw [hred, if_pos (by omega)], ?_⟩
    show j / w * w + (j % w + 1) = i
    rw [hdiv, hmod, show i % w - 1 + 1 = i % w from by omega]
    exact hidm

/-- Direction 5 (SW): cell `j`'s southwest neighbor is `i` exactly when
`i + 1 = j + w` and `i` is not in the last column. -/
theorem nbr_char_sw {w h j i : Nat} (hw : 0 < w) (hi : i < w * h) :
    (∃ p, nbrCoord w h (j / w) (j % w) ⟨5, by omega⟩ = some p ∧ p.1 * w + p.2 = i) ↔
      (i + 1 = j + w ∧ i % w + 1 < w) := by
  have hjm : j % w < w := Nat.mod_lt j hw
  have hdm : j / w * w + j % w = j := by rw [mul_comm]; exact Nat.div_add_mod j w
  have him2 : i % w < w := Nat.mod_lt i hw
  have hidm : i / w * w + i % w = i := by rw [mul_comm]; exact Nat.div_add_mod i w
  have hrih : i / w < h := Nat.div_lt_of_lt_mul hi
  have hred : nbrCoord w h (j / w) (j % w) ⟨5, by omega⟩
      = if j / w + 1 < h ∧ 0 < j % w then some (j / w + 1, j % w - 1) else none := rfl
  constructor
  · rintro ⟨p, hp, henc⟩
    rw [hred] at hp
    by_cases hc : j / w + 1 < h ∧ 0 < j % w
    · rw [if_pos hc] at hp
      injection hp with hp
      subst hp
      have henc' : (j / w + 1) * w + (j % w - 1) = i := henc
      have him : i % w = j % w - 1 := by
        rw [← henc']
        exact enc_mod (by omega)
      have hexp : (j / w + 1) * w = j / w * w + w := by ring
      omega
    · rw [if_neg hc] at hp
      cases hp
  · rintro ⟨hje, him⟩
    have hri : 1 ≤ i / w := by
      by_contra hcon
      have h0 : i / w = 0 := Nat.lt_one_iff.mp (Nat.lt_of_not_le hcon)
      rw [h0] at hidm
      omega
    have hsub : (i / w - 1) * w = i / w * w - w := by rw [Nat.sub_mul, one_mul]
    have hge : w ≤ i / w * w := by
      calc w = 1 * w := (one_mul w).symm
      _ ≤ i / w * w := Nat.mul_le_mul_right w hri
    have hj2 : j = (i / w - 1) * w + (i % w + 1) := by omega
    have hdiv : j / w = i / w - 1 := by rw [hj2]; exact enc_div (by omega)
    have hmod : j % w = i % w + 1 := by rw [hj2]; exact enc_mod (by omega)
    refine ⟨(j / w + 1, j % w - 1), by rw [hred, if_pos (by omega)], ?_⟩
    show (j / w + 1) * w + (j % w - 1) = i
    rw [hdiv, hmod, show i / w - 1 + 1 = i / w from by omega,
      show i % w + 1 - 1 = i % w from by omega]
    exact hidm

/-- Direction 6 (S): cell `j`'s south neighbor is `i` exactly when
`i = j + w`. -/
theorem nbr_char_s {w h j i : Nat} (hw : 0 < w) (hi : i < w * h) :
    (∃ p, nbrCoord w h (j / w) (j % w) ⟨6, by omega⟩ = some p ∧ p.1 * w + p.2 = i) ↔
      i = j + w := by
  have hjm : j % w < w := Nat.mod_lt j hw
  have hdm : j / w * w + j % w = j := by rw [mul_comm]; exact Nat.div_add_mod j w
  have him2 : i % w < w := Nat.mod_lt i hw
  have hidm : i / w * w + i % w = i := by rw [mul_comm]; exact Nat.div_add_mod i w
  have hrih : i / w < h := Nat.div_lt_of_lt_mul hi
  have hred : nbrCoord w h (j / w) (j % w) ⟨6, by omega⟩
      = if j / w + 1 < h then some (j / w + 1, j % w) else none := rfl
  constructor
  · rintro ⟨p, hp, henc⟩
    rw [hred] at hp
    by_cases hc : j / w + 1 < h
    · rw [if_pos hc] at hp
      injection hp with hp
      subst hp
      have henc' : (j / w + 1) * w + j % w = i := henc
      have hexp : (j / w + 1) * w = j / w * w + w := by ring
      omega
    · rw [if_neg hc] at hp
      cases hp
  · intro hje
    have hri : 1 ≤ i / w := by
      by_contra hcon
      have h0 : i / w = 0 := Nat.lt_one_iff.mp (Nat.lt_of_not_le hcon)
      rw [h0] at hidm
      omega
    have hsub : (i / w - 1) * w = i / w * w - w := by rw [Nat.sub_mul, one_mul]
    have hge : w ≤ i / w * w := by
      calc w = 1 * w := (one_mul w).symm
      _ ≤ i / w * w := Nat.mul_le_mul_right w hri
    have hj2 : j = (i / w - 1) * w + i % w := by omega
    have hdiv : j / w = i / w - 1 := by rw [hj2]; exact enc_div (by omega)
    have hmod : j % w = i % w := by rw [hj2]; exact enc_mod (by omega)
    refine ⟨(j / w + 1, j % w), by rw [hred, if_pos (by omega)], ?_⟩
    show (j / w + 1) * w + j % w = i
    rw [hdiv, hmod, show i / w - 1 + 1 = i / w from by omega]
    exact hidm

/-- Direction 7 (SE): cell `j`'s southeast neighbor is `i` exactly when
`i = j + w + 1` and `i` is not in the first column. -/
theorem nbr_char_se {w h j i : Nat} (hw : 0 < w) (hi : i < w * h) :
    (∃ p, nbrCoord w h (j / w) (j % w) ⟨7, by omega⟩ = some p ∧ p.1 * w + p.2 = i) ↔
      (i = j + w + 1 ∧ 0 < i % w) := by
  have hjm : j % w < w := Nat.mod_lt j hw
  have hdm : j / w * w + j % w = j := by rw [mul_comm]; exact Nat.div_add_mod j w
  have him2 : i % w < w := Nat.mod_lt i hw
  have hidm : i / w * w + i % w = i := by rw [mul_comm]; exact Nat.div_add_mod i w
  have hrih : i / w < h := Nat.div_lt_of_lt_mul hi
  have hred : nbrCoord w h (j / w) (j % w) ⟨7, by omega⟩
      = if j / w + 1 < h ∧ j % w + 1 < w then some (j / w + 1, j % w + 1) else none := rfl
  constructor
  · rintro ⟨p, hp, henc⟩
    rw [hred] at hp
    by_cases hc : j / w + 1 < h ∧ j % w + 1 < w
    · rw [if_pos hc] at hp
      injection hp with hp
      subst hp
      have henc' : (j / w + 1) * w + (j % w + 1) = i := henc
      have him : i % w = j % w + 1 := by
        rw [← henc']
        exact enc_mod (by omega)
      have hexp : (j / w + 1) * w = j / w * w + w := by ring
      omega
    · rw [if_neg hc] at hp
      cases hp
  · rintro ⟨hje, him⟩
    have hri : 1 ≤ i / w := by
      by_contra hcon
      have h0 : i / w = 0 := Nat.lt_one_iff.mp (Nat.lt_of_not_le hcon)
      rw [h0] at hidm
      omega
    have hsub : (i / w - 1) * w = i / w * w - w := by rw [Nat.sub_mul, one_mul]
    have hge : w ≤ i / w * w := by
      calc w = 1 * w := (one_mul w).symm
      _ ≤ i / w * w := Nat.mul_le_mul_right w hri
    have hj2 : j = (i / w - 1) * w + (i % w - 1) := by omega
    have hdiv : j / w = i / w - 1 := by rw [hj2]; exact enc_div (by omega)
    have hmod : j % w = i % w - 1 := by rw [hj2]; exact enc_mod (by omega)
    refine ⟨(j / w + 1, j % w + 1), by rw [hred, if_pos (by omega)], ?_⟩
    show (j / w + 1) * w + (j % w + 1) = i
    rw [hdiv, hmod, show i / w - 1 + 1 = i / w from by omega,
      show i % w - 1 + 1 = i % w from by omega]
    exact hidm

/-! ### The build invariant of `RadixBoggleBoard::from` -/

theorem getD_replicate {α : Type} (n j : Nat) (a d : α) :
    (List.replicate n a).getD j d = if j < n then a else d := by
  rw [List.getD_eq_getElem?_getD, List.getElem?_replicate]
  split <;> rfl

/-- State of the letter-indexed board after the first `done` cells of
grid `g` have been `set`:  the per-letter index holds exactly the
processed cells of that letter, and each stored direction flag points at
a processed geometric neighbor of the right letter. -/
structure BuildInv (g : SimpleBoggleBoard) (done : Nat) (b : RadixBoggleBoard) : Prop where
  width_eq : b.width = g.width
  height_eq : b.height = g.height
  alpha_len : b.alpha.length = ALPHABET_SIZE
  alpha_wf : ∀ v, (b.alpha.getD v BitSet.new).WF
  alpha_bit : ∀ v k, v < 26 → bitAt (b.alpha.getD v BitSet.new).data k
      = (decide (k < done) && decide (g.letter k = v))
  cells_len : b.cells.length = g.width * g.height
  rows_len : ∀ j, j < g.width * g.height → (b.cells.getD j []).length = ALPHABET_SIZE
  mask_lt : ∀ j v, b.maskAt j v < 2 ^ 8
  mask_bit : ∀ j v (d : Fin 8), j < g.width * g.height → v < 26 →
      (maskBit (b.maskAt j v) d = true ↔
        ∃ p, nbrCoord g.width g.height (j / g.width) (j % g.width) d = some p ∧
          p.1 * g.width + p.2 < done ∧ g.letter (p.1 * g.width + p.2) = v)

theorem buildInv_new (g : SimpleBoggleBoard) :
    BuildInv g 0 (RadixBoggleBoard.new g.width g.height) := by
  have hcg : ∀ j v, (RadixBoggleBoard.new g.width g.height).maskAt j v = 0 := by
    intro j v
    unfold RadixBoggleBoard.maskAt RadixBoggleBoard.new
    rw [getD_replicate]
    split
    · rw [getD_replicate]
      split <;> rfl
    · rfl
  refine ⟨rfl, rfl, List.length_replicate _ _, ?_, ?_, List.length_replicate _ _, ?_, ?_, ?_⟩
  · intro v
    show ((List.replicate ALPHABET_SIZE BitSet.new).getD v BitSet.new).WF
    rw [getD_replicate]
    split <;> exact BitSet.new_WF
  · intro v k _
    show bitAt ((List.replicate ALPHABET_SIZE BitSet.new).getD v BitSet.new).data k = _
    rw [getD_replicate]
    have hz : ∀ x : Nat, decide (x < 0) = false := fun x => by simp
    rw [hz k, Bool.false_and]
    split <;> exact bitAt_new k
  · intro j hj
    show ((List.replicate (g.width * g.height) (List.replicate ALPHABET_SIZE 0)).getD j []).length
      = ALPHABET_SIZE
    rw [getD_replicate, if_pos hj, List.length_replicate]
  · intro j v
    rw [hcg j v]
    norm_num
  · intro j v d hj hv
    rw [hcg j v]
    unfold maskBit
    rw [Nat.zero_testBit]
    constructor
    · intro hcon
      cases hcon
    · rintro ⟨p, _, hlt, _⟩
      omega

/-- One `set` call preserves the invariant, given the branch's target
list with its range and direction-matching facts. -/
theorem buildInv_core {g : SimpleBoggleBoard} {b : RadixBoggleBoard} {done : Nat}
    {ts : List (Int × Nat)}
    (hinv : BuildInv g done b)
    (hvlt : g.letter done < 26)
    (htf : RadixBoggleBoard.targetsFor g.width g.height done = ts)
    (hrange : ∀ t ∈ ts, 0 ≤ t.1 ∧ t.1.toNat < g.width * g.height)
    (hflag : ∀ t ∈ ts, t.2 < 2 ^ 8)
    (hmatch : ∀ j (d : Fin 8), j < g.width * g.height →
      (ts.any (fun t => decide (t.1.toNat = j) && t.2.testBit (7 - d.val)) = true ↔
        ∃ p, nbrCoord g.width g.height (j / g.width) (j % g.width) d = some p ∧
          p.1 * g.width + p.2 = done)) :
    ∃ b', b.set done (g.letter done) = some b' ∧ BuildInv g (done + 1) b' := by
  have hwid := hinv.width_eq
  have hhei := hinv.height_eq
  have hva : g.letter done < b.alpha.length := by
    rw [hinv.alpha_len]
    exact hvlt
  have hrows1 : ∀ j, j < (RadixBoggleBoard.alphaAdd b done (g.letter done)).cells.length →
      g.letter done < ((RadixBoggleBoard.alphaAdd b done (g.letter done)).cells.getD j []).length := by
    intro j hj
    show g.letter done < (b.cells.getD j []).length
    have hj' : j < g.width * g.height := by
      rw [← hinv.cells_len]
      exact hj
    rw [hinv.rows_len j hj']
    exact hvlt
  have hts1 : ∀ t ∈ ts, 0 ≤ t.1 ∧
      t.1.toNat < (RadixBoggleBoard.alphaAdd b done (g.letter done)).cells.length := by
    intro t ht
    show 0 ≤ t.1 ∧ t.1.toNat < b.cells.length
    rw [hinv.cells_len]
    exact hrange t ht
  obtain ⟨b', hrun, hw', hh', ha', hl', hrow', hm'⟩ :=
    maskRun_spec ts (RadixBoggleBoard.alphaAdd b done (g.letter done)) hrows1 hts1
  refine ⟨b', ?_, ?_⟩
  · unfold RadixBoggleBoard.set
    rw [if_pos hva]
    show (RadixBoggleBoard.alphaAdd b done (g.letter done)).maskRun (g.letter done)
      (RadixBoggleBoard.targetsFor b.width b.height done) = some b'
    rw [hwid, hhei, htf]
    exact hrun
  · have hb1m : ∀ j v, (RadixBoggleBoard.alphaAdd b done (g.letter done)).maskAt j v = b.maskAt j v :=
      fun j v => rfl
    refine ⟨?_, ?_, ?_, ?_, ?_, ?_, ?_, ?_, ?_⟩
    · rw [hw']
      exact hwid
    · rw [hh']
      exact hhei
    · rw [ha']
      show (b.alpha.set (g.letter done) ((b.alpha.getD (g.letter done) BitSet.new).add done)).length
        = ALPHABET_SIZE
      rw [List.length_set, hinv.alpha_len]
    · intro v
      rw [ha']
      show ((b.alpha.set (g.letter done)
        ((b.alpha.getD (g.letter done) BitSet.new).add done)).getD v BitSet.new).WF
      rcases eq_or_ne v (g.letter done) with rfl | hne
      · rw [getD_set_self _ _ _ _ hva]
        exact BitSet.WF_add (hinv.alpha_wf _) done
      · rw [getD_set_ne _ _ _ _ _ (Ne.symm hne)]
        exact hinv.alpha_wf v
    · intro v k hv26
      rw [ha']
      show bitAt ((b.alpha.set (g.letter done)
        ((b.alpha.getD (g.letter done) BitSet.new).add done)).getD v BitSet.new).data k = _
      rcases eq_or_ne v (g.letter done) with rfl | hne
      · rw [getD_set_self _ _ _ _ hva, BitSet.bitAt_add, hinv.alpha_bit _ k hv26]
        rcases eq_or_ne k done with rfl | hkne
        · simp
        · rw [decide_eq_false hkne, Bool.false_or,
            decide_eq_decide.mpr (show k < done + 1 ↔ k < done from by omega)]
      · rw [getD_set_ne _ _ _ _ _ (Ne.symm hne), hinv.alpha_bit v k hv26]
        rcases eq_or_ne k done with rfl | hkne
        · simp [Ne.symm hne]
        · rw [decide_eq_decide.mpr (show k < done + 1 ↔ k < done from by omega)]
    · rw [hl']
      show b.cells.length = _
      exact hinv.cells_len
    · intro j hj
      rw [hrow' j]
      show (b.cells.getD j []).length = _
      exact hinv.rows_len j hj
    · intro j v
      rw [hm' j v]
      split
      · rw [hb1m j v]
        exact Nat.or_lt_two_pow (hinv.mask_lt j v) (orFlags_lt ts j hflag)
      · rw [hb1m j v]
        exact hinv.mask_lt j v
    · intro j v d hj hv26
      unfold maskBit
      rw [hm' j v]
      rcases eq_or_ne v (g.letter done) with rfl | hne
      · rw [if_pos rfl, hb1m j _, Nat.testBit_or, testBit_orFlags]
        constructor
        · intro hor
          rw [Bool.or_eq_true] at hor
          rcases hor with hold | hnew
          · obtain ⟨p, hp, hlt, hlet⟩ := (hinv.mask_bit j _ d hj hvlt).mp hold
            exact ⟨p, hp, by omega, hlet⟩
          · obtain ⟨p, hp, henc⟩ := (hmatch j d hj).mp hnew
            exact ⟨p, hp, by omega, by rw [henc]⟩
        · rintro ⟨p, hp, hlt, hlet⟩
          rw [Bool.or_eq_true]
          rcases Nat.lt_or_ge (p.1 * g.width + p.2) done with hlt' | hge
          · exact Or.inl ((hinv.mask_bit j _ d hj hvlt).mpr ⟨p, hp, hlt', hlet⟩)
          · exact Or.inr ((hmatch j d hj).mpr ⟨p, hp, by omega⟩)
      · rw [if_neg hne, hb1m j v]
        rw [show Nat.testBit (b.maskAt j v) (7 - d.val) = maskBit (b.maskAt j v) d from rfl,
          hinv.mask_bit j v d hj hv26]
        constructor
        · rintro ⟨p, hp, hlt, hlet⟩
          exact ⟨p, hp, by omega, hlet⟩
        · rintro ⟨p, hp, hlt, hlet⟩
          refine ⟨p, hp, ?_, hlet⟩
          rcases Nat.lt_or_ge (p.1 * g.width + p.2) done with hlt' | hge
          · exact hlt'
          · exfalso
            have heq : p.1 * g.width + p.2 = done := by omega
            rw [heq] at hlet
            exact hne hlet.symm

theorem testBit_128 (k : Nat) : Nat.testBit 128 k = decide (7 = k) := by
  rw [show (128 : Nat) = 2 ^ 7 from by norm_num, Nat.testBit_two_pow]

theorem testBit_64 (k : Nat) : Nat.testBit 64 k = decide (6 = k) := by
  rw [show (64 : Nat) = 2 ^ 6 from by norm_num, Nat.testBit_two_pow]

theorem testBit_32 (k : Nat) : Nat.testBit 32 k = decide (5 = k) := by
  rw [show (32 : Nat) = 2 ^ 5 from by norm_num, Nat.testBit_two_pow]

theorem testBit_16 (k : Nat) : Nat.testBit 16 k = decide (4 = k) := by
  rw [show (16 : Nat) = 2 ^ 4 from by norm_num, Nat.testBit_two_pow]

theorem testBit_8 (k : Nat) : Nat.testBit 8 k = decide (3 = k) := by
  rw [show (8 : Nat) = 2 ^ 3 from by norm_num, Nat.testBit_two_pow]

theorem testBit_4 (k : Nat) : Nat.testBit 4 k = decide (2 = k) := by
  rw [show (4 : Nat) = 2 ^ 2 from by norm_num, Nat.testBit_two_pow]

theorem testBit_2 (k : Nat) : Nat.testBit 2 k = decide (1 = k) := by
  rw [show (2 : Nat) = 2 ^ 1 from by norm_num, Nat.testBit_two_pow]

theorem testBit_1 (k : Nat) : Nat.testBit 1 k = decide (0 = k) := by
  rw [show (1 : Nat) = 2 ^ 0 from by norm_num, Nat.testBit_two_pow]

set_option maxHeartbeats 2000000 in
/-- One `set` call during the build preserves the invariant (the
nine-way case split of the position match). -/
theorem buildInv_step {g : SimpleBoggleBoard} {b : RadixBoggleBoard} {done : Nat}
    (hw2 : 2 ≤ g.width) (hh2 : 2 ≤ g.height)
    (hinv : BuildInv g done b) (hdone : done < g.width * g.height)
    (hvlt : g.letter done < 26) :
    ∃ b', b.set done (g.letter done) = some b' ∧ BuildInv g (done + 1) b' := by
  have hw1 : 0 < g.width := by omega
  have hwh4 : 4 ≤ g.width * g.height := by
    calc (4 : Nat) = 2 * 2 := by norm_num
    _ ≤ g.width * g.height := Nat.mul_le_mul hw2 hh2
  have hW1 : g.width * (g.height - 1) + g.width = g.width * g.height := by
    have h1 : g.height - 1 + 1 = g.height := by omega
    calc g.width * (g.height - 1) + g.width = g.width * (g.height - 1 + 1) := by ring
    _ = g.width * g.height := by rw [h1]
  have hw2w : g.width * 2 ≤ g.width * g.height := Nat.mul_le_mul_left _ hh2
  have hws : g.width * 2 = g.width + g.width := by ring
  have hw2h : g.width + 2 ≤ g.width * g.height := by omega
  have hmlt : done % g.width < g.width := Nat.mod_lt done hw1
  have hdm : g.width * (done / g.width) + done % g.width = done := Nat.div_add_mod done g.width
  by_cases h0 : done = 0
  · -- northwest corner
    have hmodv : done % g.width = 0 := by rw [h0]; exact Nat.zero_mod _
    refine @buildInv_core g b done
      [((done : Int) + 1, FLAG_WEST), ((done : Int) + (g.width : Int), FLAG_NORTH),
        ((done : Int) + (g.width : Int) + 1, FLAG_NORTHWEST)] hinv hvlt ?_ ?_ ?_ ?_
    · unfold RadixBoggleBoard.targetsFor
      rw [if_pos h0]
    · intro t ht
      simp only [List.mem_cons, List.not_mem_nil, or_false] at ht
      rcases ht with rfl | rfl | rfl <;> exact ⟨by omega, by omega⟩
    · intro t ht
      simp only [List.mem_cons, List.not_mem_nil, or_false] at ht
      rcases ht with rfl | rfl | rfl <;>
        norm_num [FLAG_NORTHWEST, FLAG_NORTH, FLAG_NORTHEAST, FLAG_WEST,
          FLAG_EAST, FLAG_SOUTHWEST, FLAG_SOUTH, FLAG_SOUTHEAST]
    · intro j d hj
      obtain ⟨dv, hdv⟩ := d
      have hcases : dv = 0 ∨ dv = 1 ∨ dv = 2 ∨ dv = 3 ∨ dv = 4 ∨ dv = 5 ∨
          dv = 6 ∨ dv = 7 := by omega
      rcases hcases with rfl | rfl | rfl | rfl | rfl | rfl | rfl | rfl
      · rw [nbr_char_nw hw1 hdone]
        simp [FLAG_NORTHWEST, FLAG_NORTH, FLAG_NORTHEAST, FLAG_WEST, FLAG_EAST, FLAG_SOUTHWEST, FLAG_SOUTH, FLAG_SOUTHEAST, testBit_128, testBit_64, testBit_32, testBit_16, testBit_8, testBit_4, testBit_2, testBit_1]
        omega
      · rw [nbr_char_n hw1 hdone]
        simp [FLAG_NORTHWEST, FLAG_NORTH, FLAG_NORTHEAST, FLAG_WEST, FLAG_EAST, FLAG_SOUTHWEST, FLAG_SOUTH, FLAG_SOUTHEAST, testBit_128, testBit_64, testBit_32, testBit_16, testBit_8, testBit_4, testBit_2, testBit_1]
        omega
      · rw [nbr_char_ne hw1 hdone]
        simp [FLAG_NORTHWEST, FLAG_NORTH, FLAG_NORTHEAST, FLAG_WEST, FLAG_EAST, FLAG_SOUTHWEST, FLAG_SOUTH, FLAG_SOUTHEAST, testBit_128, testBit_64, testBit_32, testBit_16, testBit_8, testBit_4, testBit_2, testBit_1]
        omega
      · rw [nbr_char_w hw1 hdone]
        simp [FLAG_NORTHWEST, FLAG_NORTH, FLAG_NORTHEAST, FLAG_WEST, FLAG_EAST, FLAG_SOUTHWEST, FLAG_SOUTH, FLAG_SOUTHEAST, testBit_128, testBit_64, testBit_32, testBit_16, testBit_8, testBit_4, testBit_2, testBit_1]
        omega
      · rw [nbr_char_e hw1 hdone]
        simp [FLAG_NORTHWEST, FLAG_NORTH, FLAG_NORTHEAST, FLAG_WEST, FLAG_EAST, FLAG_SOUTHWEST, FLAG_SOUTH, FLAG_SOUTHEAST, testBit_128, testBit_64, testBit_32, testBit_16, testBit_8, testBit_4, testBit_2, testBit_1]
        omega
      · rw [nbr_char_sw hw1 hdone]
        simp [FLAG_NORTHWEST, FLAG_NORTH, FLAG_NORTHEAST, FLAG_WEST, FLAG_EAST, FLAG_SOUTHWEST, FLAG_SOUTH, FLAG_SOUTHEAST, testBit_128, testBit_64, testBit_32, testBit_16, testBit_8, testBit_4, testBit_2, testBit_1]
        omega
      · rw [nbr_char_s hw1 hdone]
        simp [FLAG_NORTHWEST, FLAG_NORTH, FLAG_NORTHEAST, FLAG_WEST, FLAG_EAST, FLAG_SOUTHWEST, FLAG_SOUTH, FLAG_SOUTHEAST, testBit_128, testBit_64, testBit_32, testBit_16, testBit_8, testBit_4, testBit_2, testBit_1]
        omega
      · rw [nbr_char_se hw1 hdone]
        simp [FLAG_NORTHWEST, FLAG_NORTH, FLAG_NORTHEAST, FLAG_WEST, FLAG_EAST, FLAG_SOUTHWEST, FLAG_SOUTH, FLAG_SOUTHEAST, testBit_128, testBit_64, testBit_32, testBit_16, testBit_8, testBit_4, testBit_2, testBit_1]
        omega
  ·
    by_cases h1 : done = g.width - 1
    · -- northeast corner
      have hmodv : done % g.width = g.width - 1 := by
        rw [h1]; exact Nat.mod_eq_of_lt (by omega)
      refine @buildInv_core g b done
        [((done : Int) - 1, FLAG_EAST), ((done : Int) + (g.width : Int) - 1, FLAG_NORTHEAST),
          ((done : Int) + (g.width : Int), FLAG_NORTH)] hinv hvlt ?_ ?_ ?_ ?_
      · unfold RadixBoggleBoard.targetsFor
        rw [if_neg h0, if_pos h1]
      · intro t ht
        simp only [List.mem_cons, List.not_mem_nil, or_false] at ht
        rcases ht with rfl | rfl | rfl <;> exact ⟨by omega, by omega⟩
      · intro t ht
        simp only [List.mem_cons, List.not_mem_nil, or_false] at ht
        rcases ht with rfl | rfl | rfl <;>
          norm_num [FLAG_NORTHWEST, FLAG_NORTH, FLAG_NORTHEAST, FLAG_WEST,
            FLAG_EAST, FLAG_SOUTHWEST, FLAG_SOUTH, FLAG_SOUTHEAST]
      · intro j d hj
        obtain ⟨dv, hdv⟩ := d
        have hcases : dv = 0 ∨ dv = 1 ∨ dv = 2 ∨ dv = 3 ∨ dv = 4 ∨ dv = 5 ∨
            dv = 6 ∨ dv = 7 := by omega
        rcases hcases with rfl | rfl | rfl | rfl | rfl | rfl | rfl | rfl
        · rw [nbr_char_nw hw1 hdone]
          simp [FLAG_NORTHWEST, FLAG_NORTH, FLAG_NORTHEAST, FLAG_WEST, FLAG_EAST, FLAG_SOUTHWEST, FLAG_SOUTH, FLAG_SOUTHEAST, testBit_128, testBit_64, testBit_32, testBit_16, testBit_8, testBit_4, testBit_2, testBit_1]
          omega
        · rw [nbr_char_n hw1 hdone]
          simp [FLAG_NORTHWEST, FLAG_NORTH, FLAG_NORTHEAST, FLAG_WEST, FLAG_EAST, FLAG_SOUTHWEST, FLAG_SOUTH, FLAG_SOUTHEAST, testBit_128, testBit_64, testBit_32, testBit_16, testBit_8, testBit_4, testBit_2, testBit_1]
          omega
        · rw [nbr_char_ne hw1 hdone]
          simp [FLAG_NORTHWEST, FLAG_NORTH, FLAG_NORTHEAST, FLAG_WEST, FLAG_EAST, FLAG_SOUTHWEST, FLAG_SOUTH, FLAG_SOUTHEAST, testBit_128, testBit_64, testBit_32, testBit_16, testBit_8, testBit_4, testBit_2, testBit_1]
          omega
        · rw [nbr_char_w hw1 hdone]
          simp [FLAG_NORTHWEST, FLAG_NORTH, FLAG_NORTHEAST, FLAG_WEST, FLAG_EAST, FLAG_SOUTHWEST, FLAG_SOUTH, FLAG_SOUTHEAST, testBit_128, testBit_64, testBit_32, testBit_16, testBit_8, testBit_4, testBit_2, testBit_1]
          omega
        · rw [nbr_char_e hw1 hdone]
          simp [FLAG_NORTHWEST, FLAG_NORTH, FLAG_NORTHEAST, FLAG_WEST, FLAG_EAST, FLAG_SOUTHWEST, FLAG_SOUTH, FLAG_SOUTHEAST, testBit_128, testBit_64, testBit_32, testBit_16, testBit_8, testBit_4, testBit_2, testBit_1]
          omega
        · rw [nbr_char_sw hw1 hdone]
          simp [FLAG_NORTHWEST, FLAG_NORTH, FLAG_NORTHEAST, FLAG_WEST, FLAG_EAST, FLAG_SOUTHWEST, FLAG_SOUTH, FLAG_SOUTHEAST, testBit_128, testBit_64, testBit_32, testBit_16, testBit_8, testBit_4, testBit_2, testBit_1]
          omega
        · rw [nbr_char_s hw1 hdone]
          simp [FLAG_NORTHWEST, FLAG_NORTH, FLAG_NORTHEAST, FLAG_WEST, FLAG_EAST, FLAG_SOUTHWEST, FLAG_SOUTH, FLAG_SOUTHEAST, testBit_128, testBit_64, testBit_32, testBit_16, testBit_8, testBit_4, testBit_2, testBit_1]
          omega
        · rw [nbr_char_se hw1 hdone]
          simp [FLAG_NORTHWEST, FLAG_NORTH, FLAG_NORTHEAST, FLAG_WEST, FLAG_EAST, FLAG_SOUTHWEST, FLAG_SOUTH, FLAG_SOUTHEAST, testBit_128, testBit_64, testBit_32, testBit_16, testBit_8, testBit_4, testBit_2, testBit_1]
          omega
    ·
      by_cases h2 : done = g.width * (g.height - 1)
      · -- southwest corner
        have hmodv : done % g.width = 0 := by rw [h2]; exact Nat.mul_mod_right _ _
        have hW1w : g.width ≤ g.width * (g.height - 1) := Nat.le_mul_of_pos_right _ (by omega)
        refine @buildInv_core g b done
          [((done : Int) - (g.width : Int), FLAG_SOUTH),
            ((done : Int) - (g.width : Int) + 1, FLAG_SOUTHWEST), ((done : Int) + 1, FLAG_WEST)] hinv hvlt ?_ ?_ ?_ ?_
        · unfold RadixBoggleBoard.targetsFor
          rw [if_neg h0, if_neg h1, if_pos h2]
        · intro t ht
          simp only [List.mem_cons, List.not_mem_nil, or_false] at ht
          rcases ht with rfl | rfl | rfl <;> exact ⟨by omega, by omega⟩
        · intro t ht
          simp only [List.mem_cons, List.not_mem_nil, or_false] at ht
          rcases ht with rfl | rfl | rfl <;>
            norm_num [FLAG_NORTHWEST, FLAG_NORTH, FLAG_NORTHEAST, FLAG_WEST,
              FLAG_EAST, FLAG_SOUTHWEST, FLAG_SOUTH, FLAG_SOUTHEAST]
        · intro j d hj
          obtain ⟨dv, hdv⟩ := d
          have hcases : dv = 0 ∨ dv = 1 ∨ dv = 2 ∨ dv = 3 ∨ dv = 4 ∨ dv = 5 ∨
              dv = 6 ∨ dv = 7 := by omega
          rcases hcases with rfl | rfl | rfl | rfl | rfl | rfl | rfl | rfl
          · rw [nbr_char_nw hw1 hdone]
            simp [FLAG_NORTHWEST, FLAG_NORTH, FLAG_NORTHEAST, FLAG_WEST, FLAG_EAST, FLAG_SOUTHWEST, FLAG_SOUTH, FLAG_SOUTHEAST, testBit_128, testBit_64, testBit_32, testBit_16, testBit_8, testBit_4, testBit_2, testBit_1]
            omega
          · rw [nbr_char_n hw1 hdone]
            simp [FLAG_NORTHWEST, FLAG_NORTH, FLAG_NORTHEAST, FLAG_WEST, FLAG_EAST, FLAG_SOUTHWEST, FLAG_SOUTH, FLAG_SOUTHEAST, testBit_128, testBit_64, testBit_32, testBit_16, testBit_8, testBit_4, testBit_2, testBit_1]
            omega
          · rw [nbr_char_ne hw1 hdone]
            simp [FLAG_NORTHWEST, FLAG_NORTH, FLAG_NORTHEAST, FLAG_WEST, FLAG_EAST, FLAG_SOUTHWEST, FLAG_SOUTH, FLAG_SOUTHEAST, testBit_128, testBit_64, testBit_32, testBit_16, testBit_8, testBit_4, testBit_2, testBit_1]
            omega
          · rw [nbr_char_w hw1 hdone]
            simp [FLAG_NORTHWEST, FLAG_NORTH, FLAG_NORTHEAST, FLAG_WEST, FLAG_EAST, FLAG_SOUTHWEST, FLAG_SOUTH, FLAG_SOUTHEAST, testBit_128, testBit_64, testBit_32, testBit_16, testBit_8, testBit_4, testBit_2, testBit_1]
            omega
          · rw [nbr_char_e hw1 hdone]
            simp [FLAG_NORTHWEST, FLAG_NORTH, FLAG_NORTHEAST, FLAG_WEST, FLAG_EAST, FLAG_SOUTHWEST, FLAG_SOUTH, FLAG_SOUTHEAST, testBit_128, testBit_64, testBit_32, testBit_16, testBit_8, testBit_4, testBit_2, testBit_1]
            omega
          · rw [nbr_char_sw hw1 hdone]
            simp [FLAG_NORTHWEST, FLAG_NORTH, FLAG_NORTHEAST, FLAG_WEST, FLAG_EAST, FLAG_SOUTHWEST, FLAG_SOUTH, FLAG_SOUTHEAST, testBit_128, testBit_64, testBit_32, testBit_16, testBit_8, testBit_4, testBit_2, testBit_1]
            omega
          · rw [nbr_char_s hw1 hdone]
            simp [FLAG_NORTHWEST, FLAG_NORTH, FLAG_NORTHEAST, FLAG_WEST, FLAG_EAST, FLAG_SOUTHWEST, FLAG_SOUTH, FLAG_SOUTHEAST, testBit_128, testBit_64, testBit_32, testBit_16, testBit_8, testBit_4, testBit_2, testBit_1]
            omega
          · rw [nbr_char_se hw1 hdone]
            simp [FLAG_NORTHWEST, FLAG_NORTH, FLAG_NORTHEAST, FLAG_WEST, FLAG_EAST, FLAG_SOUTHWEST, FLAG_SOUTH, FLAG_SOUTHEAST, testBit_128, testBit_64, testBit_32, testBit_16, testBit_8, testBit_4, testBit_2, testBit_1]
            omega
      ·
        by_cases h3 : done = g.width * g.height - 1
        · -- southeast corner
          have hcomm : (g.height - 1) * g.width = g.width * (g.height - 1) := Nat.mul_comm _ _
          have hd : done = (g.height - 1) * g.width + (g.width - 1) := by omega
          have hmodv : done % g.width = g.width - 1 := by rw [hd]; exact enc_mod (by omega)
          refine @buildInv_core g b done
            [((done : Int) - (g.width : Int) - 1, FLAG_SOUTHEAST),
              ((done : Int) - (g.width : Int), FLAG_SOUTH), ((done : Int) - 1, FLAG_EAST)] hinv hvlt ?_ ?_ ?_ ?_
          · unfold RadixBoggleBoard.targetsFor
            rw [if_neg h0, if_neg h1, if_neg h2, if_pos h3]
          · intro t ht
            simp only [List.mem_cons, List.not_mem_nil, or_false] at ht
            rcases ht with rfl | rfl | rfl <;> exact ⟨by omega, by omega⟩
          · intro t ht
            simp only [List.mem_cons, List.not_mem_nil, or_false] at ht
            rcases ht with rfl | rfl | rfl <;>
              norm_num [FLAG_NORTHWEST, FLAG_NORTH, FLAG_NORTHEAST, FLAG_WEST,
                FLAG_EAST, FLAG_SOUTHWEST, FLAG_SOUTH, FLAG_SOUTHEAST]
          · intro j d hj
            obtain ⟨dv, hdv⟩ := d
            have hcases : dv = 0 ∨ dv = 1 ∨ dv = 2 ∨ dv = 3 ∨ dv = 4 ∨ dv = 5 ∨
                dv = 6 ∨ dv = 7 := by omega
            rcases hcases with rfl | rfl | rfl | rfl | rfl | rfl | rfl | rfl
            · rw [nbr_char_nw hw1 hdone]
              simp [FLAG_NORTHWEST, FLAG_NORTH, FLAG_NORTHEAST, FLAG_WEST, FLAG_EAST, FLAG_SOUTHWEST, FLAG_SOUTH, FLAG_SOUTHEAST, testBit_128, testBit_64, testBit_32, testBit_16, testBit_8, testBit_4, testBit_2, testBit_1]
              omega
            · rw [nbr_char_n hw1 hdone]
              simp [FLAG_NORTHWEST, FLAG_NORTH, FLAG_NORTHEAST, FLAG_WEST, FLAG_EAST, FLAG_SOUTHWEST, FLAG_SOUTH, FLAG_SOUTHEAST, testBit_128, testBit_64, testBit_32, testBit_16, testBit_8, testBit_4, testBit_2, testBit_1]
              omega
            · rw [nbr_char_ne hw1 hdone]
              simp [FLAG_NORTHWEST, FLAG_NORTH, FLAG_NORTHEAST, FLAG_WEST, FLAG_EAST, FLAG_SOUTHWEST, FLAG_SOUTH, FLAG_SOUTHEAST, testBit_128, testBit_64, testBit_32, testBit_16, testBit_8, testBit_4, testBit_2, testBit_1]
              omega
            · rw [nbr_char_w hw1 hdone]
              simp [FLAG_NORTHWEST, FLAG_NORTH, FLAG_NORTHEAST, FLAG_WEST, FLAG_EAST, FLAG_SOUTHWEST, FLAG_SOUTH, FLAG_SOUTHEAST, testBit_128, testBit_64, testBit_32, testBit_16, testBit_8, testBit_4, testBit_2, testBit_1]
              omega
            · rw [nbr_char_e hw1 hdone]
              simp [FLAG_NORTHWEST, FLAG_NORTH, FLAG_NORTHEAST, FLAG_WEST, FLAG_EAST, FLAG_SOUTHWEST, FLAG_SOUTH, FLAG_SOUTHEAST, testBit_128, testBit_64, testBit_32, testBit_16, testBit_8, testBit_4, testBit_2, testBit_1]
              omega
            · rw [nbr_char_sw hw1 hdone]
              simp [FLAG_NORTHWEST, FLAG_NORTH, FLAG_NORTHEAST, FLAG_WEST, FLAG_EAST, FLAG_SOUTHWEST, FLAG_SOUTH, FLAG_SOUTHEAST, testBit_128, testBit_64, testBit_32, testBit_16, testBit_8, testBit_4, testBit_2, testBit_1]
              omega
            · rw [nbr_char_s hw1 hdone]
              simp [FLAG_NORTHWEST, FLAG_NORTH, FLAG_NORTHEAST, FLAG_WEST, FLAG_EAST, FLAG_SOUTHWEST, FLAG_SOUTH, FLAG_SOUTHEAST, testBit_128, testBit_64, testBit_32, testBit_16, testBit_8, testBit_4, testBit_2, testBit_1]
              omega
            · rw [nbr_char_se hw1 hdone]
              simp [FLAG_NORTHWEST, FLAG_NORTH, FLAG_NORTHEAST, FLAG_WEST, FLAG_EAST, FLAG_SOUTHWEST, FLAG_SOUTH, FLAG_SOUTHEAST, testBit_128, testBit_64, testBit_32, testBit_16, testBit_8, testBit_4, testBit_2, testBit_1]
              omega
        ·
          by_cases h4 : done < g.width
          · -- north edge
            have hmodv : done % g.width = done := Nat.mod_eq_of_lt h4
            refine @buildInv_core g b done
              [((done : Int) - 1, FLAG_EAST), ((done : Int) + 1, FLAG_WEST),
                ((done : Int) + (g.width : Int) - 1, FLAG_NORTHEAST),
                ((done : Int) + (g.width : Int), FLAG_NORTH),
                ((done : Int) + (g.width : Int) + 1, FLAG_NORTHWEST)] hinv hvlt ?_ ?_ ?_ ?_
            · unfold RadixBoggleBoard.targetsFor
              rw [if_neg h0, if_neg h1, if_neg h2, if_neg h3, if_pos h4]
            · intro t ht
              simp only [List.mem_cons, List.not_mem_nil, or_false] at ht
              rcases ht with rfl | rfl | rfl | rfl | rfl <;> exact ⟨by omega, by omega⟩
            · intro t ht
              simp only [List.mem_cons, List.not_mem_nil, or_false] at ht
              rcases ht with rfl | rfl | rfl | rfl | rfl <;>
                norm_num [FLAG_NORTHWEST, FLAG_NORTH, FLAG_NORTHEAST, FLAG_WEST,
                  FLAG_EAST, FLAG_SOUTHWEST, FLAG_SOUTH, FLAG_SOUTHEAST]
            · intro j d hj
              obtain ⟨dv, hdv⟩ := d
              have hcases : dv = 0 ∨ dv = 1 ∨ dv = 2 ∨ dv = 3 ∨ dv = 4 ∨ dv = 5 ∨
                  dv = 6 ∨ dv = 7 := by omega
              rcases hcases with rfl | rfl | rfl | rfl | rfl | rfl | rfl | rfl
              · rw [nbr_char_nw hw1 hdone]
                simp [FLAG_NORTHWEST, FLAG_NORTH, FLAG_NORTHEAST, FLAG_WEST, FLAG_EAST, FLAG_SOUTHWEST, FLAG_SOUTH, FLAG_SOUTHEAST, testBit_128, testBit_64, testBit_32, testBit_16, testBit_8, testBit_4, testBit_2, testBit_1]
                omega
              · rw [nbr_char_n hw1 hdone]
                simp [FLAG_NORTHWEST, FLAG_NORTH, FLAG_NORTHEAST, FLAG_WEST, FLAG_EAST, FLAG_SOUTHWEST, FLAG_SOUTH, FLAG_SOUTHEAST, testBit_128, testBit_64, testBit_32, testBit_16, testBit_8, testBit_4, testBit_2, testBit_1]
                omega
              · rw [nbr_char_ne hw1 hdone]
                simp [FLAG_NORTHWEST, FLAG_NORTH, FLAG_NORTHEAST, FLAG_WEST, FLAG_EAST, FLAG_SOUTHWEST, FLAG_SOUTH, FLAG_SOUTHEAST, testBit_128, testBit_64, testBit_32, testBit_16, testBit_8, testBit_4, testBit_2, testBit_1]
                omega
              · rw [nbr_char_w hw1 hdone]
                simp [FLAG_NORTHWEST, FLAG_NORTH, FLAG_NORTHEAST, FLAG_WEST, FLAG_EAST, FLAG_SOUTHWEST, FLAG_SOUTH, FLAG_SOUTHEAST, testBit_128, testBit_64, testBit_32, testBit_16, testBit_8, testBit_4, testBit_2, testBit_1]
                omega
              · rw [nbr_char_e hw1 hdone]
                simp [FLAG_NORTHWEST, FLAG_NORTH, FLAG_NORTHEAST, FLAG_WEST, FLAG_EAST, FLAG_SOUTHWEST, FLAG_SOUTH, FLAG_SOUTHEAST, testBit_128, testBit_64, testBit_32, testBit_16, testBit_8, testBit_4, testBit_2, testBit_1]
                omega
              · rw [nbr_char_sw hw1 hdone]
                simp [FLAG_NORTHWEST, FLAG_NORTH, FLAG_NORTHEAST, FLAG_WEST, FLAG_EAST, FLAG_SOUTHWEST, FLAG_SOUTH, FLAG_SOUTHEAST, testBit_128, testBit_64, testBit_32, testBit_16, testBit_8, testBit_4, testBit_2, testBit_1]
                omega
              · rw [nbr_char_s hw1 hdone]
                simp [FLAG_NORTHWEST, FLAG_NORTH, FLAG_NORTHEAST, FLAG_WEST, FLAG_EAST, FLAG_SOUTHWEST, FLAG_SOUTH, FLAG_SOUTHEAST, testBit_128, testBit_64, testBit_32, testBit_16, testBit_8, testBit_4, testBit_2, testBit_1]
                omega
              · rw [nbr_char_se hw1 hdone]
                simp [FLAG_NORTHWEST, FLAG_NORTH, FLAG_NORTHEAST, FLAG_WEST, FLAG_EAST, FLAG_SOUTHWEST, FLAG_SOUTH, FLAG_SOUTHEAST, testBit_128, testBit_64, testBit_32, testBit_16, testBit_8, testBit_4, testBit_2, testBit_1]
                omega
          ·
            by_cases h5 : done > g.width * (g.height - 1)
            · -- south edge
              have hcomm : (g.height - 1) * g.width = g.width * (g.height - 1) := Nat.mul_comm _ _
              have hW1w : g.width ≤ g.width * (g.height - 1) := Nat.le_mul_of_pos_right _ (by omega)
              obtain ⟨s, hs⟩ : ∃ s, done - g.width * (g.height - 1) = s := ⟨_, rfl⟩
              have hd : done = (g.height - 1) * g.width + s := by omega
              have hmodv : done % g.width = s := by rw [hd]; exact enc_mod (by omega)
              refine @buildInv_core g b done
                [((done : Int) - (g.width : Int) - 1, FLAG_SOUTHEAST),
                  ((done : Int) - (g.width : Int), FLAG_SOUTH),
                  ((done : Int) - (g.width : Int) + 1, FLAG_SOUTHWEST),
                  ((done : Int) - 1, FLAG_EAST), ((done : Int) + 1, FLAG_WEST)] hinv hvlt ?_ ?_ ?_ ?_
              · unfold RadixBoggleBoard.targetsFor
                rw [if_neg h0, if_neg h1, if_neg h2, if_neg h3, if_neg h4, if_pos h5]
              · intro t ht
                simp only [List.mem_cons, List.not_mem_nil, or_false] at ht
                rcases ht with rfl | rfl | rfl | rfl | rfl <;> exact ⟨by omega, by omega⟩
              · intro t ht
                simp only [List.mem_cons, List.not_mem_nil, or_false] at ht
                rcases ht with rfl | rfl | rfl | rfl | rfl <;>
                  norm_num [FLAG_NORTHWEST, FLAG_NORTH, FLAG_NORTHEAST, FLAG_WEST,
                    FLAG_EAST, FLAG_SOUTHWEST, FLAG_SOUTH, FLAG_SOUTHEAST]
              · intro j d hj
                obtain ⟨dv, hdv⟩ := d
                have hcases : dv = 0 ∨ dv = 1 ∨ dv = 2 ∨ dv = 3 ∨ dv = 4 ∨ dv = 5 ∨
                    dv = 6 ∨ dv = 7 := by omega
                rcases hcases with rfl | rfl | rfl | rfl | rfl | rfl | rfl | rfl
                · rw [nbr_char_nw hw1 hdone]
                  simp [FLAG_NORTHWEST, FLAG_NORTH, FLAG_NORTHEAST, FLAG_WEST, FLAG_EAST, FLAG_SOUTHWEST, FLAG_SOUTH, FLAG_SOUTHEAST, testBit_128, testBit_64, testBit_32, testBit_16, testBit_8, testBit_4, testBit_2, testBit_1]
                  omega
                · rw [nbr_char_n hw1 hdone]
                  simp [FLAG_NORTHWEST, FLAG_NORTH, FLAG_NORTHEAST, FLAG_WEST, FLAG_EAST, FLAG_SOUTHWEST, FLAG_SOUTH, FLAG_SOUTHEAST, testBit_128, testBit_64, testBit_32, testBit_16, testBit_8, testBit_4, testBit_2, testBit_1]
                  omega
                · rw [nbr_char_ne hw1 hdone]
                  simp [FLAG_NORTHWEST, FLAG_NORTH, FLAG_NORTHEAST, FLAG_WEST, FLAG_EAST, FLAG_SOUTHWEST, FLAG_SOUTH, FLAG_SOUTHEAST, testBit_128, testBit_64, testBit_32, testBit_16, testBit_8, testBit_4, testBit_2, testBit_1]
                  omega
                · rw [nbr_char_w hw1 hdone]
                  simp [FLAG_NORTHWEST, FLAG_NORTH, FLAG_NORTHEAST, FLAG_WEST, FLAG_EAST, FLAG_SOUTHWEST, FLAG_SOUTH, FLAG_SOUTHEAST, testBit_128, testBit_64, testBit_32, testBit_16, testBit_8, testBit_4, testBit_2, testBit_1]
                  omega
                · rw [nbr_char_e hw1 hdone]
                  simp [FLAG_NORTHWEST, FLAG_NORTH, FLAG_NORTHEAST, FLAG_WEST, FLAG_EAST, FLAG_SOUTHWEST, FLAG_SOUTH, FLAG_SOUTHEAST, testBit_128, testBit_64, testBit_32, testBit_16, testBit_8, testBit_4, testBit_2, testBit_1]
                  omega
                · rw [nbr_char_sw hw1 hdone]
                  simp [FLAG_NORTHWEST, FLAG_NORTH, FLAG_NORTHEAST, FLAG_WEST, FLAG_EAST, FLAG_SOUTHWEST, FLAG_SOUTH, FLAG_SOUTHEAST, testBit_128, testBit_64, testBit_32, testBit_16, testBit_8, testBit_4, testBit_2, testBit_1]
                  omega
                · rw [nbr_char_s hw1 hdone]
                  simp [FLAG_NORTHWEST, FLAG_NORTH, FLAG_NORTHEAST, FLAG_WEST, FLAG_EAST, FLAG_SOUTHWEST, FLAG_SOUTH, FLAG_SOUTHEAST, testBit_128, testBit_64, testBit_32, testBit_16, testBit_8, testBit_4, testBit_2, testBit_1]
                  omega
                · rw [nbr_char_se hw1 hdone]
                  simp [FLAG_NORTHWEST, FLAG_NORTH, FLAG_NORTHEAST, FLAG_WEST, FLAG_EAST, FLAG_SOUTHWEST, FLAG_SOUTH, FLAG_SOUTHEAST, testBit_128, testBit_64, testBit_32, testBit_16, testBit_8, testBit_4, testBit_2, testBit_1]
                  omega
            ·
              by_cases h6 : done % g.width = 0
              · -- west edge
                have hmodv : done % g.width = 0 := h6
                have hq : g.width * (done / g.width) = done := by omega
                have hlt : g.width * (done / g.width) < g.width * (g.height - 1) := by omega
                have hqlt : done / g.width < g.height - 1 := Nat.lt_of_mul_lt_mul_left hlt
                have hle : g.width * (done / g.width + 1) ≤ g.width * (g.height - 1) :=
                  Nat.mul_le_mul_left _ hqlt
                have hms : g.width * (done / g.width + 1) = g.width * (done / g.width) + g.width := by
                  ring
                refine @buildInv_core g b done
                  [((done : Int) - (g.width : Int), FLAG_SOUTH),
                    ((done : Int) - (g.width : Int) + 1, FLAG_SOUTHWEST),
                    ((done : Int) + 1, FLAG_WEST), ((done : Int) + (g.width : Int), FLAG_NORTH),
                    ((done : Int) + (g.width : Int) + 1, FLAG_NORTHWEST)] hinv hvlt ?_ ?_ ?_ ?_
                · unfold RadixBoggleBoard.targetsFor
                  rw [if_neg h0, if_neg h1, if_neg h2, if_neg h3, if_neg h4, if_neg h5, if_pos h6]
                · intro t ht
                  simp only [List.mem_cons, List.not_mem_nil, or_false] at ht
                  rcases ht with rfl | rfl | rfl | rfl | rfl <;> exact ⟨by omega, by omega⟩
                · intro t ht
                  simp only [List.mem_cons, List.not_mem_nil, or_false] at ht
                  rcases ht with rfl | rfl | rfl | rfl | rfl <;>
                    norm_num [FLAG_NORTHWEST, FLAG_NORTH, FLAG_NORTHEAST, FLAG_WEST,
                      FLAG_EAST, FLAG_SOUTHWEST, FLAG_SOUTH, FLAG_SOUTHEAST]
                · intro j d hj
                  obtain ⟨dv, hdv⟩ := d
                  have hcases : dv = 0 ∨ dv = 1 ∨ dv = 2 ∨ dv = 3 ∨ dv = 4 ∨ dv = 5 ∨
                      dv = 6 ∨ dv = 7 := by omega
                  rcases hcases with rfl | rfl | rfl | rfl | rfl | rfl | rfl | rfl
                  · rw [nbr_char_nw hw1 hdone]
                    simp [FLAG_NORTHWEST, FLAG_NORTH, FLAG_NORTHEAST, FLAG_WEST, FLAG_EAST, FLAG_SOUTHWEST, FLAG_SOUTH, FLAG_SOUTHEAST, testBit_128, testBit_64, testBit_32, testBit_16, testBit_8, testBit_4, testBit_2, testBit_1]
                    omega
                  · rw [nbr_char_n hw1 hdone]
                    simp [FLAG_NORTHWEST, FLAG_NORTH, FLAG_NORTHEAST, FLAG_WEST, FLAG_EAST, FLAG_SOUTHWEST, FLAG_SOUTH, FLAG_SOUTHEAST, testBit_128, testBit_64, testBit_32, testBit_16, testBit_8, testBit_4, testBit_2, testBit_1]
                    omega
                  · rw [nbr_char_ne hw1 hdone]
                    simp [FLAG_NORTHWEST, FLAG_NORTH, FLAG_NORTHEAST, FLAG_WEST, FLAG_EAST, FLAG_SOUTHWEST, FLAG_SOUTH, FLAG_SOUTHEAST, testBit_128, testBit_64, testBit_32, testBit_16, testBit_8, testBit_4, testBit_2, testBit_1]
                    omega
                  · rw [nbr_char_w hw1 hdone]
                    simp [FLAG_NORTHWEST, FLAG_NORTH, FLAG_NORTHEAST, FLAG_WEST, FLAG_EAST, FLAG_SOUTHWEST, FLAG_SOUTH, FLAG_SOUTHEAST, testBit_128, testBit_64, testBit_32, testBit_16, testBit_8, testBit_4, testBit_2, testBit_1]
                    omega
                  · rw [nbr_char_e hw1 hdone]
                    simp [FLAG_NORTHWEST, FLAG_NORTH, FLAG_NORTHEAST, FLAG_WEST, FLAG_EAST, FLAG_SOUTHWEST, FLAG_SOUTH, FLAG_SOUTHEAST, testBit_128, testBit_64, testBit_32, testBit_16, testBit_8, testBit_4, testBit_2, testBit_1]
                    omega
                  · rw [nbr_char_sw hw1 hdone]
                    simp [FLAG_NORTHWEST, FLAG_NORTH, FLAG_NORTHEAST, FLAG_WEST, FLAG_EAST, FLAG_SOUTHWEST, FLAG_SOUTH, FLAG_SOUTHEAST, testBit_128, testBit_64, testBit_32, testBit_16, testBit_8, testBit_4, testBit_2, testBit_1]
                    omega
                  · rw [nbr_char_s hw1 hdone]
                    simp [FLAG_NORTHWEST, FLAG_NORTH, FLAG_NORTHEAST, FLAG_WEST, FLAG_EAST, FLAG_SOUTHWEST, FLAG_SOUTH, FLAG_SOUTHEAST, testBit_128, testBit_64, testBit_32, testBit_16, testBit_8, testBit_4, testBit_2, testBit_1]
                    omega
                  · rw [nbr_char_se hw1 hdone]
                    simp [FLAG_NORTHWEST, FLAG_NORTH, FLAG_NORTHEAST, FLAG_WEST, FLAG_EAST, FLAG_SOUTHWEST, FLAG_SOUTH, FLAG_SOUTHEAST, testBit_128, testBit_64, testBit_32, testBit_16, testBit_8, testBit_4, testBit_2, testBit_1]
                    omega
              ·
                by_cases h7 : done % g.width = g.width - 1
                · -- east edge
                  have hmodv : done % g.width = g.width - 1 := h7
                  have hq1 : 1 ≤ done / g.width := by
                    by_contra hcon
                    have h00 : done / g.width = 0 := Nat.lt_one_iff.mp (Nat.lt_of_not_le hcon)
                    rw [h00, Nat.mul_zero] at hdm
                    omega
                  have hwq : g.width ≤ g.width * (done / g.width) := Nat.le_mul_of_pos_right _ hq1
                  refine @buildInv_core g b done
                    [((done : Int) - (g.width : Int) - 1, FLAG_SOUTHEAST),
                      ((done : Int) - (g.width : Int), FLAG_SOUTH),
                      ((done : Int) - 1, FLAG_EAST),
                      ((done : Int) + (g.width : Int) - 1, FLAG_NORTHEAST),
                      ((done : Int) + (g.width : Int), FLAG_NORTH)] hinv hvlt ?_ ?_ ?_ ?_
                  · unfold RadixBoggleBoard.targetsFor
                    rw [if_neg h0, if_neg h1, if_neg h2, if_neg h3, if_neg h4, if_neg h5, if_neg h6,
                      if_pos h7]
                  · intro t ht
                    simp only [List.mem_cons, List.not_mem_nil, or_false] at ht
                    rcases ht with rfl | rfl | rfl | rfl | rfl <;> exact ⟨by omega, by omega⟩
                  · intro t ht
                    simp only [List.mem_cons, List.not_mem_nil, or_false] at ht
                    rcases ht with rfl | rfl | rfl | rfl | rfl <;>
                      norm_num [FLAG_NORTHWEST, FLAG_NORTH, FLAG_NORTHEAST, FLAG_WEST,
                        FLAG_EAST, FLAG_SOUTHWEST, FLAG_SOUTH, FLAG_SOUTHEAST]
                  · intro j d hj
                    obtain ⟨dv, hdv⟩ := d
                    have hcases : dv = 0 ∨ dv = 1 ∨ dv = 2 ∨ dv = 3 ∨ dv = 4 ∨ dv = 5 ∨
                        dv = 6 ∨ dv = 7 := by omega
                    rcases hcases with rfl | rfl | rfl | rfl | rfl | rfl | rfl | rfl
                    · rw [nbr_char_nw hw1 hdone]
                      simp [FLAG_NORTHWEST, FLAG_NORTH, FLAG_NORTHEAST, FLAG_WEST, FLAG_EAST, FLAG_SOUTHWEST, FLAG_SOUTH, FLAG_SOUTHEAST, testBit_128, testBit_64, testBit_32, testBit_16, testBit_8, testBit_4, testBit_2, testBit_1]
                      omega
                    · rw [nbr_char_n hw1 hdone]
                      simp [FLAG_NORTHWEST, FLAG_NORTH, FLAG_NORTHEAST, FLAG_WEST, FLAG_EAST, FLAG_SOUTHWEST, FLAG_SOUTH, FLAG_SOUTHEAST, testBit_128, testBit_64, testBit_32, testBit_16, testBit_8, testBit_4, testBit_2, testBit_1]
                      omega
                    · rw [nbr_char_ne hw1 hdone]
                      simp [FLAG_NORTHWEST, FLAG_NORTH, FLAG_NORTHEAST, FLAG_WEST, FLAG_EAST, FLAG_SOUTHWEST, FLAG_SOUTH, FLAG_SOUTHEAST, testBit_128, testBit_64, testBit_32, testBit_16, testBit_8, testBit_4, testBit_2, testBit_1]
                      omega
                    · rw [nbr_char_w hw1 hdone]
                      simp [FLAG_NORTHWEST, FLAG_NORTH, FLAG_NORTHEAST, FLAG_WEST, FLAG_EAST, FLAG_SOUTHWEST, FLAG_SOUTH, FLAG_SOUTHEAST, testBit_128, testBit_64, testBit_32, testBit_16, testBit_8, testBit_4, testBit_2, testBit_1]
                      omega
                    · rw [nbr_char_e hw1 hdone]
                      simp [FLAG_NORTHWEST, FLAG_NORTH, FLAG_NORTHEAST, FLAG_WEST, FLAG_EAST, FLAG_SOUTHWEST, FLAG_SOUTH, FLAG_SOUTHEAST, testBit_128, testBit_64, testBit_32, testBit_16, testBit_8, testBit_4, testBit_2, testBit_1]
                      omega
                    · rw [nbr_char_sw hw1 hdone]
                      simp [FLAG_NORTHWEST, FLAG_NORTH, FLAG_NORTHEAST, FLAG_WEST, FLAG_EAST, FLAG_SOUTHWEST, FLAG_SOUTH, FLAG_SOUTHEAST, testBit_128, testBit_64, testBit_32, testBit_16, testBit_8, testBit_4, testBit_2, testBit_1]
                      omega
                    · rw [nbr_char_s hw1 hdone]
                      simp [FLAG_NORTHWEST, FLAG_NORTH, FLAG_NORTHEAST, FLAG_WEST, FLAG_EAST, FLAG_SOUTHWEST, FLAG_SOUTH, FLAG_SOUTHEAST, testBit_128, testBit_64, testBit_32, testBit_16, testBit_8, testBit_4, testBit_2, testBit_1]
                      omega
                    · rw [nbr_char_se hw1 hdone]
                      simp [FLAG_NORTHWEST, FLAG_NORTH, FLAG_NORTHEAST, FLAG_WEST, FLAG_EAST, FLAG_SOUTHWEST, FLAG_SOUTH, FLAG_SOUTHEAST, testBit_128, testBit_64, testBit_32, testBit_16, testBit_8, testBit_4, testBit_2, testBit_1]
                      omega
                · -- interior
                  have hq1 : 1 ≤ done / g.width := by
                    by_contra hcon
                    have h00 : done / g.width = 0 := Nat.lt_one_iff.mp (Nat.lt_of_not_le hcon)
                    rw [h00, Nat.mul_zero] at hdm
                    omega
                  have hwq : g.width ≤ g.width * (done / g.width) := Nat.le_mul_of_pos_right _ hq1
                  have hlt : g.width * (done / g.width) < g.width * (g.height - 1) := by omega
                  have hqlt : done / g.width < g.height - 1 := Nat.lt_of_mul_lt_mul_left hlt
                  have hle : g.width * (done / g.width + 1) ≤ g.width * (g.height - 1) :=
                    Nat.mul_le_mul_left _ hqlt
                  have hms : g.width * (done / g.width + 1) = g.width * (done / g.width) + g.width := by
                    ring
                  refine @buildInv_core g b done
                    [((done : Int) - (g.width : Int) - 1, FLAG_SOUTHEAST),
                      ((done : Int) - (g.width : Int), FLAG_SOUTH),
                      ((done : Int) - (g.width : Int) + 1, FLAG_SOUTHWEST),
                      ((done : Int) - 1, FLAG_EAST), ((done : Int) + 1, FLAG_WEST),
                      ((done : Int) + (g.width : Int) - 1, FLAG_NORTHEAST),
                      ((done : Int) + (g.width : Int), FLAG_NORTH),
                      ((done : Int) + (g.width : Int) + 1, FLAG_NORTHWEST)] hinv hvlt ?_ ?_ ?_ ?_
                  · unfold RadixBoggleBoard.targetsFor
                    rw [if_neg h0, if_neg h1, if_neg h2, if_neg h3, if_neg h4, if_neg h5, if_neg h6,
                      if_neg h7]
                  · intro t ht
                    simp only [List.mem_cons, List.not_mem_nil, or_false] at ht
                    rcases ht with rfl | rfl | rfl | rfl | rfl | rfl | rfl | rfl <;> exact ⟨by omega, by omega⟩
                  · intro t ht
                    simp only [List.mem_cons, List.not_mem_nil, or_false] at ht
                    rcases ht with rfl | rfl | rfl | rfl | rfl | rfl | rfl | rfl <;>
                      norm_num [FLAG_NORTHWEST, FLAG_NORTH, FLAG_NORTHEAST, FLAG_WEST,
                        FLAG_EAST, FLAG_SOUTHWEST, FLAG_SOUTH, FLAG_SOUTHEAST]
                  · intro j d hj
                    obtain ⟨dv, hdv⟩ := d
                    have hcases : dv = 0 ∨ dv = 1 ∨ dv = 2 ∨ dv = 3 ∨ dv = 4 ∨ dv = 5 ∨
                        dv = 6 ∨ dv = 7 := by omega
                    rcases hcases with rfl | rfl | rfl | rfl | rfl | rfl | rfl | rfl
                    · rw [nbr_char_nw hw1 hdone]
                      simp [FLAG_NORTHWEST, FLAG_NORTH, FLAG_NORTHEAST, FLAG_WEST, FLAG_EAST, FLAG_SOUTHWEST, FLAG_SOUTH, FLAG_SOUTHEAST, testBit_128, testBit_64, testBit_32, testBit_16, testBit_8, testBit_4, testBit_2, testBit_1]
                      omega
                    · rw [nbr_char_n hw1 hdone]
                      simp [FLAG_NORTHWEST, FLAG_NORTH, FLAG_NORTHEAST, FLAG_WEST, FLAG_EAST, FLAG_SOUTHWEST, FLAG_SOUTH, FLAG_SOUTHEAST, testBit_128, testBit_64, testBit_32, testBit_16, testBit_8, testBit_4, testBit_2, testBit_1]
                      omega
                    · rw [nbr_char_ne hw1 hdone]
                      simp [FLAG_NORTHWEST, FLAG_NORTH, FLAG_NORTHEAST, FLAG_WEST, FLAG_EAST, FLAG_SOUTHWEST, FLAG_SOUTH, FLAG_SOUTHEAST, testBit_128, testBit_64, testBit_32, testBit_16, testBit_8, testBit_4, testBit_2, testBit_1]
                      omega
                    · rw [nbr_char_w hw1 hdone]
                      simp [FLAG_NORTHWEST, FLAG_NORTH, FLAG_NORTHEAST, FLAG_WEST, FLAG_EAST, FLAG_SOUTHWEST, FLAG_SOUTH, FLAG_SOUTHEAST, testBit_128, testBit_64, testBit_32, testBit_16, testBit_8, testBit_4, testBit_2, testBit_1]
                      omega
                    · rw [nbr_char_e hw1 hdone]
                      simp [FLAG_NORTHWEST, FLAG_NORTH, FLAG_NORTHEAST, FLAG_WEST, FLAG_EAST, FLAG_SOUTHWEST, FLAG_SOUTH, FLAG_SOUTHEAST, testBit_128, testBit_64, testBit_32, testBit_16, testBit_8, testBit_4, testBit_2, testBit_1]
                      omega
                    · rw [nbr_char_sw hw1 hdone]
                      simp [FLAG_NORTHWEST, FLAG_NORTH, FLAG_NORTHEAST, FLAG_WEST, FLAG_EAST, FLAG_SOUTHWEST, FLAG_SOUTH, FLAG_SOUTHEAST, testBit_128, testBit_64, testBit_32, testBit_16, testBit_8, testBit_4, testBit_2, testBit_1]
                      omega
                    · rw [nbr_char_s hw1 hdone]
                      simp [FLAG_NORTHWEST, FLAG_NORTH, FLAG_NORTHEAST, FLAG_WEST, FLAG_EAST, FLAG_SOUTHWEST, FLAG_SOUTH, FLAG_SOUTHEAST, testBit_128, testBit_64, testBit_32, testBit_16, testBit_8, testBit_4, testBit_2, testBit_1]
                      omega
                    · rw [nbr_char_se hw1 hdone]
                      simp [FLAG_NORTHWEST, FLAG_NORTH, FLAG_NORTHEAST, FLAG_WEST, FLAG_EAST, FLAG_SOUTHWEST, FLAG_SOUTH, FLAG_SOUTHEAST, testBit_128, testBit_64, testBit_32, testBit_16, testBit_8, testBit_4, testBit_2, testBit_1]
                      omega

/-- Folding `set` over the remaining enumerated cells completes the
build and establishes the full invariant. -/
theorem buildInv_fold (g : SimpleBoggleBoard) (hw2 : 2 ≤ g.width) (hh2 : 2 ≤ g.height) :
    ∀ (rest : List Nat) (start : Nat) (b : RadixBoggleBoard),
      BuildInv g start b →
      start + rest.length = g.width * g.height →
      (∀ k, k < rest.length → rest.getD k 0 = g.letter (start + k)) →
      (∀ x ∈ rest, x < 26) →
      ∃ b', (List.enumFrom start rest).foldlM
          (fun b (p : Nat × Nat) => b.set p.1 p.2) b = some b' ∧
        BuildInv g (g.width * g.height) b' := by
  intro rest
  induction rest with
  | nil =>
    intro start b hinv hlen _ _
    refine ⟨b, rfl, ?_⟩
    have hstart : start = g.width * g.height := by simpa using hlen
    rw [← hstart]
    exact hinv
  | cons v rest ih =>
    intro start b hinv hlen hget hvals
    have hstart : start < g.width * g.height := by
      rw [← hlen, List.length_cons]
      omega
    have hv : v = g.letter start := by
      have h0 := hget 0 (by rw [List.length_cons]; omega)
      rw [List.getD_cons_zero] at h0
      rw [h0, Nat.add_zero]
    have hvlt : g.letter start < 26 := by
      rw [← hv]
      exact hvals v (List.mem_cons_self _ _)
    obtain ⟨b2, hset, hinv2⟩ := buildInv_step hw2 hh2 hinv hstart hvlt
    obtain ⟨b', hrun, hinv'⟩ := ih (start + 1) b2 hinv2
      (by rw [← hlen, List.length_cons]; omega)
      (by
        intro k hk
        have h1 := hget (k + 1) (by rw [List.length_cons]; omega)
        rw [List.getD_cons_succ] at h1
        rw [h1]
        congr 1
        omega)
      (fun x hx => hvals x (List.mem_cons_of_mem _ hx))
    refine ⟨b', ?_, hinv'⟩
    show ((start, v) :: List.enumFrom (start + 1) rest).foldlM
      (fun b (p : Nat × Nat) => b.set p.1 p.2) b = some b'
    rw [List.foldlM_cons]
    show b.set start v >>= _ = some b'
    rw [hv, hset]
    exact hrun

/-- `RadixBoggleBoard::from` on a well-formed grid with `width ≥ 2`,
`height ≥ 2` succeeds and establishes the full mask invariant. -/
theorem fromSimple_spec (g : SimpleBoggleBoard) (hw2 : 2 ≤ g.width) (hh2 : 2 ≤ g.height)
    (hlen : g.cells.length = g.width * g.height) (hvals : ∀ x ∈ g.cells, x < 26) :
    ∃ b, RadixBoggleBoard.fromSimple g = some b ∧
      BuildInv g (g.width * g.height) b := by
  obtain ⟨b', hrun, hinv⟩ := buildInv_fold g hw2 hh2 g.cells 0
    (RadixBoggleBoard.new g.width g.height) (buildInv_new g)
    (by rw [Nat.zero_add]; exact hlen)
    (by
      intro k hk
      show g.cells.getD k 0 = g.cells.getD (0 + k) 0
      rw [Nat.zero_add])
    hvals
  exact ⟨b', hrun, hinv⟩

/-! ### Decoding the neighbor iterator -/

/-- The cell index `RadixNeighborIter` yields for direction `d`
(truncated subtraction, exact on built boards). -/
def decodeTarget (idx width : Nat) (d : Fin 8) : Nat :=
  match d.val with
  | 0 => idx - width - 1
  | 1 => idx - width
  | 2 => idx - width + 1
  | 3 => idx - 1
  | 4 => idx + 1
  | 5 => idx + width - 1
  | 6 => idx + width
  | 7 => idx + width + 1
  | _ => 0

theorem neighborStep_eq {value : Nat} (idx width : Nat) (hne : value ≠ 0)
    (hlt : value < 2 ^ 8) :
    neighborStep value idx width
      = some (decodeTarget idx width ⟨7 - value.log2, by omega⟩,
          value % 2 ^ value.log2) := by
  have ht8 : value.log2 < 8 := (Nat.log2_lt hne).mpr hlt
  obtain ⟨t, ht⟩ : ∃ t, value.log2 = t := ⟨_, rfl⟩
  rw [ht] at ht8 ⊢
  unfold neighborStep
  rw [if_neg hne, log2F_eq 8 value hlt, ht]
  interval_cases t
  · show some (idx + width + 1, 0) = some (idx + width + 1, value % 2 ^ 0)
    rw [Nat.pow_zero, Nat.mod_one]
  · show some (idx + width, value &&& (2 ^ 1 - 1)) = some (idx + width, value % 2 ^ 1)
    rw [Nat.and_pow_two_sub_one_eq_mod]
  · show some (idx + width - 1, value &&& (2 ^ 2 - 1))
      = some (idx + width - 1, value % 2 ^ 2)
    rw [Nat.and_pow_two_sub_one_eq_mod]
  · show some (idx + 1, value &&& (2 ^ 3 - 1)) = some (idx + 1, value % 2 ^ 3)
    rw [Nat.and_pow_two_sub_one_eq_mod]
  · show some (idx - 1, value &&& (2 ^ 4 - 1)) = some (idx - 1, value % 2 ^ 4)
    rw [Nat.and_pow_two_sub_one_eq_mod]
  · show some (idx - width + 1, value &&& (2 ^ 5 - 1))
      = some (idx - width + 1, value % 2 ^ 5)
    rw [Nat.and_pow_two_sub_one_eq_mod]
  · show some (idx - width, value &&& (2 ^ 6 - 1)) = some (idx - width, value % 2 ^ 6)
    rw [Nat.and_pow_two_sub_one_eq_mod]
  · show some (idx - width - 1, value &&& (2 ^ 7 - 1))
      = some (idx - width - 1, value % 2 ^ 7)
    rw [Nat.and_pow_two_sub_one_eq_mod]

theorem mem_neighborsAux :
    ∀ (f value idx width : Nat), value < 2 ^ f → f ≤ 8 →
      ∀ p, p ∈ neighborsAux idx width value f ↔
        ∃ d : Fin 8, value.testBit (7 - d.val) = true ∧ p = decodeTarget idx width d := by
  intro f
  induction f with
  | zero =>
    intro value idx width hval _ p
    have h0 : value = 0 := by omega
    subst h0
    constructor
    · intro hmem
      cases hmem
    · rintro ⟨d, hbit, _⟩
      rw [Nat.zero_testBit] at hbit
      cases hbit
  | succ f ih =>
    intro value idx width hval hf8 p
    by_cases hne : value = 0
    · subst hne
      have hstep : neighborStep 0 idx width = none := rfl
      show p ∈ neighborsAux idx width 0 (f + 1) ↔ _
      unfold neighborsAux
      rw [hstep]
      constructor
      · intro hmem
        cases hmem
      · rintro ⟨d, hbit, _⟩
        rw [Nat.zero_testBit] at hbit
        cases hbit
    · have hlt8 : value < 2 ^ 8 :=
        lt_of_lt_of_le hval (Nat.pow_le_pow_right (by norm_num) hf8)
      have hstep := neighborStep_eq idx width hne hlt8
      have ht8 : value.log2 < 8 := (Nat.log2_lt hne).mpr hlt8
      have htlt : value.log2 < f + 1 := (Nat.log2_lt hne).mpr hval
      have hmasklt : value % 2 ^ value.log2 < 2 ^ f :=
        lt_of_lt_of_le (Nat.mod_lt _ (Nat.pos_pow_of_pos _ (by norm_num)))
          (Nat.pow_le_pow_right (by norm_num) (by omega))
      show p ∈ neighborsAux idx width value (f + 1) ↔ _
      unfold neighborsAux
      rw [hstep, List.mem_cons,
        ih (value % 2 ^ value.log2) idx width hmasklt (by omega) p]
      constructor
      · rintro (rfl | ⟨d, hbit, hp⟩)
        · refine ⟨⟨7 - value.log2, by omega⟩, ?_, rfl⟩
          show value.testBit (7 - (7 - value.log2)) = true
          rw [show 7 - (7 - value.log2) = value.log2 from by omega]
          exact testBit_log2 hne
        · rw [Nat.testBit_mod_two_pow] at hbit
          obtain ⟨_, hvb⟩ := Bool.and_eq_true_iff.mp hbit
          exact ⟨d, hvb, hp⟩
      · rintro ⟨d, hbit, hp⟩
        rcases eq_or_ne (7 - d.val) value.log2 with heq | hne2
        · left
          have hd : d = ⟨7 - value.log2, by omega⟩ :=
            Fin.ext (by show d.val = 7 - value.log2; omega)
          rw [hp, hd]
        · right
          refine ⟨d, ?_, hp⟩
          have hlow : 7 - d.val < value.log2 := by
            rcases Nat.lt_or_ge value.log2 (7 - d.val) with hgt | hle
            · exact absurd hbit (by rw [testBit_false_of_log2_lt hne hgt]; simp)
            · omega
          rw [Nat.testBit_mod_two_pow, decide_eq_true hlow, Bool.true_and]
          exact hbit

/-- Coordinates produced by `nbrCoord` stay on the grid. -/
theorem nbrCoord_lt {w h r c : Nat} (d : Fin 8) {q : Nat × Nat}
    (hr : r < h) (hc : c < w) (hq : nbrCoord w h r c d = some q) :
    q.1 < h ∧ q.2 < w := by
  obtain ⟨dv, hdv⟩ := d
  have hcases : dv = 0 ∨ dv = 1 ∨ dv = 2 ∨ dv = 3 ∨ dv = 4 ∨ dv = 5 ∨ dv = 6 ∨
      dv = 7 := by omega
  rcases hcases with rfl | rfl | rfl | rfl | rfl | rfl | rfl | rfl
  · have hred : nbrCoord w h r c ⟨0, hdv⟩
        = if 0 < r ∧ 0 < c then some (r - 1, c - 1) else none := rfl
    rw [hred] at hq
    split at hq
    · injection hq with hq
      subst hq
      exact ⟨by omega, by omega⟩
    · cases hq
  · have hred : nbrCoord w h r c ⟨1, hdv⟩
        = if 0 < r then some (r - 1, c) else none := rfl
    rw [hred] at hq
    split at hq
    · injection hq with hq
      subst hq
      exact ⟨by omega, by omega⟩
    · cases hq
  · have hred : nbrCoord w h r c ⟨2, hdv⟩
        = if 0 < r ∧ c + 1 < w then some (r - 1, c + 1) else none := rfl
    rw [hred] at hq
    split at hq
    · injection hq with hq
      subst hq
      rename_i hcond
      exact ⟨by omega, by omega⟩
    · cases hq
  · have hred : nbrCoord w h r c ⟨3, hdv⟩
        = if 0 < c then some (r, c - 1) else none := rfl
    rw [hred] at hq
    split at hq
    · injection hq with hq
      subst hq
      exact ⟨by omega, by omega⟩
    · cases hq
  · have hred : nbrCoord w h r c ⟨4, hdv⟩
        = if c + 1 < w then some (r, c + 1) else none := rfl
    rw [hred] at hq
    split at hq
    · injection hq with hq
      subst hq
      rename_i hcond
      exact ⟨by omega, by omega⟩
    · cases hq
  · have hred : nbrCoord w h r c ⟨5, hdv⟩
        = if r + 1 < h ∧ 0 < c then some (r + 1, c - 1) else none := rfl
    rw [hred] at hq
    split at hq
    · injection hq with hq
      subst hq
      rename_i hcond
      exact ⟨by omega, by omega⟩
    · cases hq
  · have hred : nbrCoord w h r c ⟨6, hdv⟩
        = if r + 1 < h then some (r + 1, c) else none := rfl
    rw [hred] at hq
    split at hq
    · injection hq with hq
      subst hq
      rename_i hcond
      exact ⟨by omega, by omega⟩
    · cases hq
  · have hred : nbrCoord w h r c ⟨7, hdv⟩
        = if r + 1 < h ∧ c + 1 < w then some (r + 1, c + 1) else none := rfl
    rw [hred] at hq
    split at hq
    · injection hq with hq
      subst hq
      rename_i hcond
      exact ⟨by omega, by omega⟩
    · cases hq

/-- Cell encodings of on-grid coordinates are on-grid. -/
theorem enc_lt {w h r c : Nat} (hr : r < h) (hc : c < w) : r * w + c < w * h := by
  have h1 : r * w + c < (r + 1) * w := by
    have : (r + 1) * w = r * w + w := by ring
    omega
  have h2 : (r + 1) * w ≤ h * w := Nat.mul_le_mul_right w hr
  have h3 : h * w = w * h := Nat.mul_comm _ _
  omega

/-- On a built board, `decodeTarget`'s truncated arithmetic agrees with
the geometric neighbor. -/
theorem decodeTarget_eq {w h j : Nat} (d : Fin 8) {q : Nat × Nat} (hw : 0 < w)
    (hq : nbrCoord w h (j / w) (j % w) d = some q) :
    decodeTarget j w d = q.1 * w + q.2 := by
  have hjm : j % w < w := Nat.mod_lt j hw
  have hdm : j / w * w + j % w = j := by rw [mul_comm]; exact Nat.div_add_mod j w
  obtain ⟨dv, hdv⟩ := d
  have hcases : dv = 0 ∨ dv = 1 ∨ dv = 2 ∨ dv = 3 ∨ dv = 4 ∨ dv = 5 ∨ dv = 6 ∨
      dv = 7 := by omega
  have hsub1 : (j / w - 1) * w = j / w * w - w := by rw [Nat.sub_mul, one_mul]
  have hexp1 : (j / w + 1) * w = j / w * w + w := by ring
  rcases hcases with rfl | rfl | rfl | rfl | rfl | rfl | rfl | rfl
  · have hred : nbrCoord w h (j / w) (j % w) ⟨0, hdv⟩
        = if 0 < j / w ∧ 0 < j % w then some (j / w - 1, j % w - 1) else none := rfl
    rw [hred] at hq
    split at hq
    · injection hq with hq
      subst hq
      show j - w - 1 = (j / w - 1) * w + (j % w - 1)
      rename_i hcond
      have hge : w ≤ j / w * w := by
        calc w = 1 * w := (one_mul w).symm
        _ ≤ j / w * w := Nat.mul_le_mul_right w hcond.1
      omega
    · cases hq
  · have hred : nbrCoord w h (j / w) (j % w) ⟨1, hdv⟩
        = if 0 < j / w then some (j / w - 1, j % w) else none := rfl
    rw [hred] at hq
    split at hq
    · injection hq with hq
      subst hq
      show j - w = (j / w - 1) * w + j % w
      rename_i hcond
      have hge : w ≤ j / w * w := by
        calc w = 1 * w := (one_mul w).symm
        _ ≤ j / w * w := Nat.mul_le_mul_right w hcond
      omega
    · cases hq
  · have hred : nbrCoord w h (j / w) (j % w) ⟨2, hdv⟩
        = if 0 < j / w ∧ j % w + 1 < w then some (j / w - 1, j % w + 1) else none := rfl
    rw [hred] at hq
    split at hq
    · injection hq with hq
      subst hq
      show j - w + 1 = (j / w - 1) * w + (j % w + 1)
      rename_i hcond
      have hge : w ≤ j / w * w := by
        calc w = 1 * w := (one_mul w).symm
        _ ≤ j / w * w := Nat.mul_le_mul_right w hcond.1
      omega
    · cases hq
  · have hred : nbrCoord w h (j / w) (j % w) ⟨3, hdv⟩
        = if 0 < j % w then some (j / w, j % w - 1) else none := rfl
    rw [hred] at hq
    split at hq
    · injection hq with hq
      subst hq
      show j - 1 = j / w * w + (j % w - 1)
      omega
    · cases hq
  · have hred : nbrCoord w h (j / w) (j % w) ⟨4, hdv⟩
        = if j % w + 1 < w then some (j / w, j % w + 1) else none := rfl
    rw [hred] at hq
    split at hq
    · injection hq with hq
      subst hq
      show j + 1 = j / w * w + (j % w + 1)
      omega
    · cases hq
  · have hred : nbrCoord w h (j / w) (j % w) ⟨5, hdv⟩
        = if j / w + 1 < h ∧ 0 < j % w then some (j / w + 1, j % w - 1) else none := rfl
    rw [hred] at hq
    split at hq
    · injection hq with hq
      subst hq
      show j + w - 1 = (j / w + 1) * w + (j % w - 1)
      omega
    · cases hq
  · have hred : nbrCoord w h (j / w) (j % w) ⟨6, hdv⟩
        = if j / w + 1 < h then some (j / w + 1, j % w) else none := rfl
    rw [hred] at hq
    split at hq
    · injection hq with hq
      subst hq
      show j + w = (j / w + 1) * w + j % w
      omega
    · cases hq
  · have hred : nbrCoord w h (j / w) (j % w) ⟨7, hdv⟩
        = if j / w + 1 < h ∧ j % w + 1 < w then some (j / w + 1, j % w + 1) else none := rfl
    rw [hred] at hq
    split at hq
    · injection hq with hq
      subst hq
      show j + w + 1 = (j / w + 1) * w + (j % w + 1)
      omega
    · cases hq

/-- Cell encoding is injective on in-range columns. -/
theorem enc_inj {w r1 c1 r2 c2 : Nat} (h1 : c1 < w) (h2 : c2 < w)
    (h : r1 * w + c1 = r2 * w + c2) : r1 = r2 ∧ c1 = c2 := by
  have hd1 : (r1 * w + c1) / w = r1 := enc_div h1
  have hd2 : (r2 * w + c2) / w = r2 := enc_div h2
  have hm1 : (r1 * w + c1) % w = c1 := enc_mod h1
  have hm2 : (r2 * w + c2) % w = c2 := enc_mod h2
  rw [h] at hd1 hm1
  omega

/-- A geometric neighbor is never the cell itself. -/
theorem nbrCoord_ne_self {w h r c : Nat} (d : Fin 8) {q : Nat × Nat}
    (hq : nbrCoord w h r c d = some q) : q ≠ (r, c) := by
  obtain ⟨dv, hdv⟩ := d
  have hcases : dv = 0 ∨ dv = 1 ∨ dv = 2 ∨ dv = 3 ∨ dv = 4 ∨ dv = 5 ∨ dv = 6 ∨
      dv = 7 := by omega
  rcases hcases with rfl | rfl | rfl | rfl | rfl | rfl | rfl | rfl
  · have hred : nbrCoord w h r c ⟨0, hdv⟩
        = if 0 < r ∧ 0 < c then some (r - 1, c - 1) else none := rfl
    rw [hred] at hq
    split at hq
    · injection hq with hq
      subst hq
      rename_i hcond
      intro hcon
      rw [Prod.mk.injEq] at hcon
      omega
    · cases hq
  · have hred : nbrCoord w h r c ⟨1, hdv⟩
        = if 0 < r then some (r - 1, c) else none := rfl
    rw [hred] at hq
    split at hq
    · injection hq with hq
      subst hq
      rename_i hcond
      intro hcon
      rw [Prod.mk.injEq] at hcon
      omega
    · cases hq
  · have hred : nbrCoord w h r c ⟨2, hdv⟩
        = if 0 < r ∧ c + 1 < w then some (r - 1, c + 1) else none := rfl
    rw [hred] at hq
    split at hq
    · injection hq with hq
      subst hq
      rename_i hcond
      intro hcon
      rw [Prod.mk.injEq] at hcon
      omega
    · cases hq
  · have hred : nbrCoord w h r c ⟨3, hdv⟩
        = if 0 < c then some (r, c - 1) else none := rfl
    rw [hred] at hq
    split at hq
    · injection hq with hq
      subst hq
      rename_i hcond
      intro hcon
      rw [Prod.mk.injEq] at hcon
      omega
    · cases hq
  · have hred : nbrCoord w h r c ⟨4, hdv⟩
        = if c + 1 < w then some (r, c + 1) else none := rfl
    rw [hred] at hq
    split at hq
    · injection hq with hq
      subst hq
      rename_i hcond
      intro hcon
      rw [Prod.mk.injEq] at hcon
      omega
    · cases hq
  · have hred : nbrCoord w h r c ⟨5, hdv⟩
        = if r + 1 < h ∧ 0 < c then some (r + 1, c - 1) else none := rfl
    rw [hred] at hq
    split at hq
    · injection hq with hq
      subst hq
      rename_i hcond
      intro hcon
      rw [Prod.mk.injEq] at hcon
      omega
    · cases hq
  · have hred : nbrCoord w h r c ⟨6, hdv⟩
        = if r + 1 < h then some (r + 1, c) else none := rfl
    rw [hred] at hq
    split at hq
    · injection hq with hq
      subst hq
      rename_i hcond
      intro hcon
      rw [Prod.mk.injEq] at hcon
      omega
    · cases hq
  · have hred : nbrCoord w h r c ⟨7, hdv⟩
        = if r + 1 < h ∧ c + 1 < w then some (r + 1, c + 1) else none := rfl
    rw [hred] at hq
    split at hq
    · injection hq with hq
      subst hq
      rename_i hcond
      intro hcon
      rw [Prod.mk.injEq] at hcon
      omega
    · cases hq

/-! ### `any` / `neighbors` on a fully built board -/

theorem any_spec {g : SimpleBoggleBoard} {b : RadixBoggleBoard} {N : Nat}
    (hinv : BuildInv g N b) {v : Nat} (hv : v < 26) (k : Nat) :
    k ∈ b.any v ↔ k < N ∧ g.letter k = v := by
  unfold RadixBoggleBoard.any
  rw [BitSet.mem_iter_ones, BitSet.get_eq_bitAt, hinv.alpha_bit v k hv,
    Bool.and_eq_true_iff, decide_eq_true_eq, decide_eq_true_eq]

theorem neighbors_decode {g : SimpleBoggleBoard} {b : RadixBoggleBoard}
    (hinv : BuildInv g (g.width * g.height) b) {i v : Nat} (p : Nat) :
    p ∈ b.neighbors i v ↔
      ∃ d : Fin 8, maskBit (b.maskAt i v) d = true ∧ p = decodeTarget i g.width d := by
  unfold RadixBoggleBoard.neighbors
  rw [hinv.width_eq]
  exact mem_neighborsAux 8 (b.maskAt i v) i g.width (hinv.mask_lt i v) (le_refl 8) p

/-- On a built board, `neighbors i v` yields exactly the geometric
8-neighbors of `i` that hold letter `v`. -/
theorem neighbors_spec {g : SimpleBoggleBoard} {b : RadixBoggleBoard}
    (hinv : BuildInv g (g.width * g.height) b) (hw : 0 < g.width)
    {i : Nat} (hi : i < g.width * g.height) {v : Nat} (hv : v < 26) (p : Nat) :
    p ∈ b.neighbors i v ↔
      (∃ d : Fin 8, nbrIdx g.width g.height i d = some p) ∧ g.letter p = v := by
  rw [neighbors_decode hinv p]
  constructor
  · rintro ⟨d, hbit, rfl⟩
    obtain ⟨q, hq, _, hlet⟩ := (hinv.mask_bit i v d hi hv).mp hbit
    have hdt := decodeTarget_eq d hw hq
    refine ⟨⟨d, ?_⟩, ?_⟩
    · unfold nbrIdx
      rw [hq]
      show some (q.1 * g.width + q.2) = some (decodeTarget i g.width d)
      rw [hdt]
    · rw [hdt]
      exact hlet
  · rintro ⟨⟨d, hd⟩, hlet⟩
    unfold nbrIdx at hd
    rcases hq : nbrCoord g.width g.height (i / g.width) (i % g.width) d with _ | q
    · rw [hq] at hd
      cases hd
    · rw [hq] at hd
      injection hd with hd
      have hd2 : q.1 * g.width + q.2 = p := hd
      have hdt := decodeTarget_eq d hw hq
      have hqlt := nbrCoord_lt d (Nat.div_lt_of_lt_mul hi) (Nat.mod_lt i hw) hq
      refine ⟨d, ?_, by rw [hdt, hd2]⟩
      refine (hinv.mask_bit i v d hi hv).mpr ⟨q, hq, enc_lt hqlt.1 hqlt.2, ?_⟩
      rw [hd2]
      exact hlet

/-- On a built board, a yielded neighbor is never the queried cell. -/
theorem neighbors_ne_self {g : SimpleBoggleBoard} {b : RadixBoggleBoard}
    (hinv : BuildInv g (g.width * g.height) b) (hw : 0 < g.width)
    {i : Nat} (hi : i < g.width * g.height) {v : Nat} (hv : v < 26) {p : Nat}
    (hp : p ∈ b.neighbors i v) : p ≠ i := by
  obtain ⟨⟨d, hd⟩, _⟩ := (neighbors_spec hinv hw hi hv p).mp hp
  unfold nbrIdx at hd
  rcases hq : nbrCoord g.width g.height (i / g.width) (i % g.width) d with _ | q
  · rw [hq] at hd
    cases hd
  · rw [hq] at hd
    injection hd with hd
    have hd2 : q.1 * g.width + q.2 = p := hd
    intro hcon
    subst hcon
    have hqlt := nbrCoord_lt d (Nat.div_lt_of_lt_mul hi) (Nat.mod_lt p hw) hq
    have hdecomp : p / g.width * g.width + p % g.width = p := by
      rw [mul_comm]
      exact Nat.div_add_mod p g.width
    have hinj := enc_inj hqlt.2 (Nat.mod_lt p hw) (by rw [hd2]; exact hdecomp.symm)
    exact nbrCoord_ne_self d hq (Prod.ext hinj.1 hinj.2)

/-- A yielded neighbor is on the grid. -/
theorem neighbors_lt {g : SimpleBoggleBoard} {b : RadixBoggleBoard}
    (hinv : BuildInv g (g.width * g.height) b) (hw : 0 < g.width)
    {i : Nat} (hi : i < g.width * g.height) {v : Nat} (hv : v < 26) {p : Nat}
    (hp : p ∈ b.neighbors i v) : p < g.width * g.height := by
  obtain ⟨⟨d, hd⟩, _⟩ := (neighbors_spec hinv hw hi hv p).mp hp
  unfold nbrIdx at hd
  rcases hq : nbrCoord g.width g.height (i / g.width) (i % g.width) d with _ | q
  · rw [hq] at hd
    cases hd
  · rw [hq] at hd
    injection hd with hd
    have hd2 : q.1 * g.width + q.2 = p := hd
    have hqlt := nbrCoord_lt d (Nat.div_lt_of_lt_mul hi) (Nat.mod_lt i hw) hq
    rw [← hd2]
    exact enc_lt hqlt.1 hqlt.2

/-! ## The search engines (src/src/main.rs)

Emitted strings are modelled as lists of character codes. -/

/-- The per-emission decode of `descend`/`descend_radix`: add `'a'` to
every letter index, then `String::replace("q", "qu")` — each `'q'`
(code 113, letter index 16) becomes `"qu"` (113, 117). -/
def decodeEager : List Nat → List Nat
  | [] => []
  | i :: rest => (if i + 97 = 113 then [113, 117] else [i + 97]) ++ decodeEager rest

/-- `idx_vec_to_string`: the in-place loop that adds `'a'` to each
letter and inserts a `'u'` after each `'q'`, advancing past what it just
wrote — modelled by the equivalent recursion on the unprocessed suffix. -/
def idx_vec_to_string : List Nat → List Nat
  | [] => []
  | i :: rest =>
    if i + 97 = 113 then 113 :: 117 :: idx_vec_to_string rest
    else (i + 97) :: idx_vec_to_string rest

/-- Decoding to lowercase text with no letter substitution at all. -/
def decodePlain (word : List Nat) : List Nat := word.map (fun i => i + 97)

/-- The two engines' decoders agree. -/
theorem idx_vec_to_string_eq_decodeEager :
    ∀ w, idx_vec_to_string w = decodeEager w := by
  intro w
  induction w with
  | nil => rfl
  | cons i rest ih =>
    unfold idx_vec_to_string decodeEager
    split
    · rw [ih]
      rfl
    · rw [ih]
      rfl

/-- The trie node reached by following a letter-index path. -/
def trieAt (t : Trie) : List Nat → Option Trie
  | [] => some t
  | i :: ls =>
    match t.children.getD i none with
    | some c => trieAt c ls
    | none => none

/-- The path `ls` leads from `t` to a node classified `Word id`. -/
def WordAt (t : Trie) (ls : List Nat) (id : Nat) : Prop :=
  ∃ u, trieAt t ls = some u ∧ u.node_type = NodeType.Word id

theorem trieAt_nil (t : Trie) : trieAt t [] = some t := rfl

theorem trieAt_cons (t : Trie) (i : Nat) (ls : List Nat) :
    trieAt t (i :: ls)
      = match t.children.getD i none with
        | some c => trieAt c ls
        | none => none := rfl

theorem trieAt_append (t : Trie) :
    ∀ (l1 l2 : List Nat),
      trieAt t (l1 ++ l2)
        = match trieAt t l1 with
          | some u => trieAt u l2
          | none => none := by
  intro l1
  induction l1 generalizing t with
  | nil => intro l2; rfl
  | cons i ls ih =>
    intro l2
    rw [List.cons_append, trieAt_cons, trieAt_cons]
    rcases t.children.getD i none with _ | c
    · rfl
    · exact ih c l2

/-- `TrieIterator` unfolded from a cursor, as a function of the child
set (shared with the 32-bit index iterator). -/
theorem cursorList_eq {t : Trie} (hwf : t.WF) :
    ∀ (f i0 : Nat),
      t.cursorList i0 f
        = (iter32Aux t.child_set.value i0 f).map
            (fun j => ((t.children.getD j none).getD Trie.new, j)) := by
  intro f
  induction f with
  | zero => intro i0; rfl
  | succ f ih =>
    intro i0
    have hcl : t.cursorList i0 (f + 1)
        = match t.iterNext i0 with
          | none => []
          | some (p, i1) => p :: t.cursorList i1 f := rfl
    have ha : iter32Aux t.child_set.value i0 (f + 1)
        = match iter32Next t.child_set.value i0 with
          | none => []
          | some (j, i1) => j :: iter32Aux t.child_set.value i1 f := rfl
    rcases hstep : iter32Next t.child_set.value i0 with _ | ⟨j, i1⟩
    · have hnext : t.iterNext i0 = none := by
        unfold Trie.iterNext
        rw [hstep]
      rw [hcl, hnext, ha, hstep]
      rfl
    · obtain ⟨_, hj32, hbit, _, _⟩ := iter32Next_some hwf.cset_lt hstep
      have hsome := (hwf.mirror j hj32).mp hbit
      rcases hslot : t.children.getD j none with _ | c
      · rw [hslot] at hsome
        cases hsome
      · have hnext : t.iterNext i0 = some ((c, j), i1) := by
          unfold Trie.iterNext
          rw [hstep]
          show (match t.children.getD j none with
            | some c => some ((c, j), i1)
            | none => none) = some ((c, j), i1)
          rw [hslot]
        rw [hcl, hnext, ha, hstep]
        show ((c, j) :: t.cursorList i1 f)
            = ((j :: iter32Aux t.child_set.value i1 f).map
                (fun j => ((t.children.getD j none).getD Trie.new, j)))
        rw [List.map_cons, ih i1]
        congr 1
        show (c, j) = ((t.children.getD j none).getD Trie.new, j)
        rw [hslot]
        rfl

/-- Membership in the child iterator's yield, for well-formed tries:
exactly the occupied slots. -/
theorem mem_childList {t : Trie} (hwf : t.WF) (c : Trie) (i : Nat) :
    (c, i) ∈ t.childList ↔ t.children.getD i none = some c := by
  unfold Trie.childList
  rw [cursorList_eq hwf 33 0]
  constructor
  · intro hmem
    obtain ⟨j, hj, heq⟩ := List.mem_map.mp hmem
    have hj2 := (mem_iter_ones32 ⟨t.child_set.value⟩ hwf.cset_lt j).mp hj
    have hsome := (hwf.mirror j hj2.1).mp hj2.2
    rcases hslot : t.children.getD j none with _ | c0
    · rw [hslot] at hsome
      cases hsome
    · rw [hslot] at heq
      injection heq with h1 h2
      subst h2
      rw [hslot]
      show some ((some c0).getD Trie.new) = some c
      rw [← h1]
  · intro hslot
    have hisome : (t.children.getD i none).isSome = true := by
      rw [hslot]
      rfl
    have hi32 : i < 32 := by
      have hlen := hwf.children_length
      by_contra hcon
      rw [List.getD_eq_getElem?_getD, List.getElem?_eq_none (by omega)] at hslot
      cases hslot
    have hbit := (hwf.mirror i hi32).mpr hisome
    refine List.mem_map.mpr ⟨i, ?_, ?_⟩
    · exact (mem_iter_ones32 ⟨t.child_set.value⟩ hwf.cset_lt i).mpr ⟨hi32, hbit⟩
    · rw [hslot]
      rfl

/-- Slots hold structurally smaller tries (for the recursion measure of
the eager search). -/
theorem sizeOf_child {t c : Trie} (h : some c ∈ t.children) : sizeOf c < sizeOf t := by
  cases t with
  | mk nt ch cs =>
    simp only [Trie.children] at h
    have h1 := List.sizeOf_lt_of_mem h
    have h2 : sizeOf (some c) = 1 + sizeOf c := by
      rw [Option.some.sizeOf_spec]
    have h3 : sizeOf (Trie.mk nt ch cs) = 1 + sizeOf nt + sizeOf ch + sizeOf cs := by
      rw [Trie.mk.sizeOf_spec]
    omega

theorem sizeOf_getD_child {t c : Trie} {i : Nat} (h : t.children.getD i none = some c) :
    sizeOf c < sizeOf t := by
  apply sizeOf_child
  rw [List.getD_eq_getElem?_getD] at h
  rcases hel : t.children[i]? with _ | slot
  · rw [hel] at h
    cases h
  · rw [hel] at h
    have hslot : slot = some c := h
    obtain ⟨hlt, hget⟩ := List.getElem?_eq_some.mp hel
    rw [← hslot, ← hget]
    exact List.getElem_mem hlt

/-- Slots yielded by `cursorList` are structurally smaller. -/
theorem sizeOf_cursorList {t : Trie} :
    ∀ (f i0 : Nat) (p : Trie × Nat), p ∈ t.cursorList i0 f → sizeOf p.1 < sizeOf t := by
  intro f
  induction f with
  | zero =>
    intro i0 p hp
    cases hp
  | succ f ih =>
    intro i0 p hp
    have hcl : t.cursorList i0 (f + 1)
        = match t.iterNext i0 with
          | none => []
          | some (q, i1) => q :: t.cursorList i1 f := rfl
    rw [hcl] at hp
    rcases hstep : t.iterNext i0 with _ | ⟨pr, i1⟩
    · rw [hstep] at hp
      cases hp
    · rw [hstep] at hp
      rcases List.mem_cons.mp hp with rfl | htail
      · unfold Trie.iterNext at hstep
        rcases h32 : iter32Next t.child_set.value i0 with _ | ⟨j, i2⟩
        · rw [h32] at hstep
          cases hstep
        · rw [h32] at hstep
          have hstep2 : (match t.children.getD j none with
              | some c => some ((c, j), i2)
              | none => none) = some (p, i1) := hstep
          rcases hslot : t.children.getD j none with _ | c
          · rw [hslot] at hstep2
            cases hstep2
          · rw [hslot] at hstep2
            injection hstep2 with h1
            injection h1 with h1 h2
            subst h1
            exact sizeOf_getD_child hslot
      · exact ih i1 p htail

theorem BitSet.get_add (b : BitSet) (i k : Nat) :
    (b.add i).get k = (decide (k = i) || b.get k) := by
  rw [BitSet.get_eq_bitAt, BitSet.bitAt_add, ← BitSet.get_eq_bitAt]

/-- The `Word`-node check of `descend_radix`: at a `Word` node whose id
is not yet in the dedup bit set, record the id and emit the decoded
current word. -/
def emitStep (t : Trie) (w : List Nat) (acc : BitSet × List (List Nat)) :
    BitSet × List (List Nat) :=
  match t.node_type with
  | NodeType.Word id =>
    if acc.1.get id then acc else (acc.1.add id, acc.2 ++ [decodeEager w])
  | _ => acc

/-- `descend_radix` (src/src/main.rs): depth-first extension of the
current word.  `path` keeps the most recent cell at the head (the Rust
`Vec` pushes at the tail and reads `last()`; the search always calls
with a non-empty path, so `last().unwrap()` is the head here), `word`
is in emission order.  The accumulator carries the `words` dedup bit
set and the emitted strings. -/
def descend (b : RadixBoggleBoard) (parent : Trie) (word path : List Nat)
    (acc : BitSet × List (List Nat)) : BitSet × List (List Nat) :=
  parent.childList.attach.foldl
    (fun acc0 pc =>
      (b.neighbors path.headI pc.1.2).foldl
        (fun acc1 pos =>
          if pos ∈ path then acc1
          else
            descend b pc.1.1 (word ++ [pc.1.2]) (pos :: path)
              (emitStep pc.1.1 (word ++ [pc.1.2]) acc1))
        acc0)
    acc
termination_by sizeOf parent
decreasing_by exact sizeOf_cursorList 33 0 pc.1 pc.2

/-- Effect of `emitStep` on the dedup bit set. -/
theorem emitStep_get (t : Trie) (w : List Nat) (acc : BitSet × List (List Nat)) (id : Nat) :
    (emitStep t w acc).1.get id = true ↔
      (acc.1.get id = true ∨ t.node_type = NodeType.Word id) := by
  unfold emitStep
  rcases hnt : t.node_type with _ | id0
  · constructor
    · exact Or.inl
    · rintro (h | h)
      · exact h
      · exact NodeType.noConfusion h
  · show (if acc.1.get id0 then acc
        else (acc.1.add id0, acc.2 ++ [decodeEager w])).1.get id = true ↔ _
    by_cases hgot : acc.1.get id0 = true
    · rw [if_pos hgot]
      constructor
      · exact Or.inl
      · rintro (h | h)
        · exact h
        · injection h with h
          rw [← h]
          exact hgot
    · rw [if_neg hgot]
      show (acc.1.add id0).get id = true ↔ _
      rw [BitSet.get_add, Bool.or_eq_true, decide_eq_true_eq]
      constructor
      · rintro (h | h)
        · exact Or.inr (by rw [h])
        · exact Or.inl h
      · rintro (h | h)
        · exact Or.inr h
        · injection h with h
          exact Or.inl h.symm

/-- Effect of `emitStep` on the emitted strings. -/
theorem emitStep_out (t : Trie) (w : List Nat) (acc : BitSet × List (List Nat)) (s : List Nat) :
    s ∈ (emitStep t w acc).2 ↔
      (s ∈ acc.2 ∨
        ∃ id, t.node_type = NodeType.Word id ∧ acc.1.get id = false ∧ s = decodeEager w) := by
  unfold emitStep
  rcases hnt : t.node_type with _ | id0
  · constructor
    · exact Or.inl
    · rintro (h | ⟨id, h, _, _⟩)
      · exact h
      · exact NodeType.noConfusion h
  · show s ∈ (if acc.1.get id0 then acc
        else (acc.1.add id0, acc.2 ++ [decodeEager w])).2 ↔ _
    by_cases hgot : acc.1.get id0 = true
    · rw [if_pos hgot]
      constructor
      · exact Or.inl
      · rintro (h | ⟨id, hid, hfalse, _⟩)
        · exact h
        · injection hid with hid
          rw [← hid, hgot] at hfalse
          cases hfalse
    · rw [if_neg hgot]
      show s ∈ acc.2 ++ [decodeEager w] ↔ _
      rw [List.mem_append, List.mem_singleton]
      constructor
      · rintro (h | h)
        · exact Or.inl h
        · exact Or.inr ⟨id0, rfl, Bool.eq_false_iff.mpr hgot, h⟩
      · rintro (h | ⟨id, _, _, hs⟩)
        · exact Or.inl h
        · exact Or.inr hs

/-- `solve_radix`: seed the search with every root child letter and
every board cell holding it.  There is no `node_type` check at depth
one. -/
def solve_radix (root : Trie) (b : RadixBoggleBoard) : BitSet × List (List Nat) :=
  root.childList.foldl
    (fun acc pc =>
      (b.any pc.2).foldl (fun acc1 pos => descend b pc.1 [pc.2] [pos] acc1) acc)
    (BitSet.new, [])

/-- The `next_frontier` computation of `DictBasedIterator::next`: with
an empty frontier the new letter may start anywhere it occurs; otherwise
each frontier node `(pos, ancestors)` extends to every neighbour of
`pos` holding the letter that is not among its ancestors, recording
`pos` as a new ancestor. -/
def nextFrontier (b : RadixBoggleBoard) (frontier : List (Nat × BitSet)) (letter : Nat) :
    List (Nat × BitSet) :=
  match frontier with
  | [] => (b.any letter).map (fun pos => (pos, BitSet.new))
  | _ :: _ =>
    frontier.foldl
      (fun v node =>
        v ++ ((b.neighbors node.1 letter).filter (fun pos => !node.2.get pos)).map
          (fun pos => (pos, node.2.add node.1)))
      []

/-- The lazy iterator's mutable state: `state` stack of `Element`s
(trie node, `TrieIterator` cursor, BFS frontier) and the current word.
The working `head` of the Rust loop is the stack top. -/
structure LazyState where
  stack : List (Trie × Nat × List (Nat × BitSet))
  word : List Nat

/-- Result of one loop iteration of `DictBasedIterator::next`. -/
inductive StepRes where
  | halt : StepRes
  | cont : LazyState → StepRes
  | emit : LazyState → List Nat → StepRes

/-- One iteration of `DictBasedIterator::next`: exhausted iterator pops
the element and the last letter; a child with empty next frontier is
skipped; otherwise the child element is pushed and, at a `Word` node,
the decoded word is returned. -/
def lazyStep (b : RadixBoggleBoard) (s : LazyState) : StepRes :=
  match s.stack with
  | [] => StepRes.halt
  | (t, cur, frontier) :: rest =>
    match t.iterNext cur with
    | none => StepRes.cont ⟨rest, s.word.dropLast⟩
    | some ((child, letter), cur2) =>
      let nf := nextFrontier b frontier letter
      if nf = [] then StepRes.cont ⟨(t, cur2, frontier) :: rest, s.word⟩
      else
        match child.node_type with
        | NodeType.Word _ =>
          StepRes.emit ⟨(child, 0, nf) :: (t, cur2, frontier) :: rest, s.word ++ [letter]⟩
            (idx_vec_to_string (s.word ++ [letter]))
        | _ => StepRes.cont ⟨(child, 0, nf) :: (t, cur2, frontier) :: rest, s.word ++ [letter]⟩

/-- Run the lazy iterator for `fuel` steps, collecting everything it
yields; the boolean reports whether it returned `None` (exhaustion)
within the budget. -/
def lazyRun (b : RadixBoggleBoard) : Nat → LazyState → List (List Nat) × Bool
  | 0, _ => ([], false)
  | fuel + 1, s =>
    match lazyStep b s with
    | StepRes.halt => ([], true)
    | StepRes.cont s2 => lazyRun b fuel s2
    | StepRes.emit s2 w =>
      let r := lazyRun b fuel s2
      (w :: r.1, r.2)

/-- `DictBasedIterator::new`: the root element with an empty frontier. -/
def lazyInit (root : Trie) : LazyState := ⟨[(root, 0, [])], []⟩

/-- Exhausting the lazy search within a step budget. -/
def solve_lazy (root : Trie) (b : RadixBoggleBoard) (fuel : Nat) :
    List (List Nat) × Bool :=
  lazyRun b fuel (lazyInit root)

/-! ### Simple paths and spellable words -/

/-- Chain-adjacent, pairwise-distinct, on-grid cells. -/
def goodPath (g : SimpleBoggleBoard) (cells : List Nat) : Prop :=
  cells.Nodup ∧ List.Chain' g.adj cells ∧ ∀ c ∈ cells, c < g.width * g.height

/-- `w` can be spelled by a non-empty simple path on `g`. -/
def Spellable (g : SimpleBoggleBoard) (w : List Nat) : Prop :=
  ∃ cells, cells ≠ [] ∧ goodPath g cells ∧ cells.map g.letter = w

/-- `ext` extends the (reversed) visited cell list `path` by a fresh
simple chain. -/
def FreshExt (g : SimpleBoggleBoard) (path ext : List Nat) : Prop :=
  ∃ cs, cs ≠ [] ∧ goodPath g (path.reverse ++ cs) ∧ cs.map g.letter = ext

/-- A word node below `parent` reachable by a fresh extension of
`path`. -/
def Found (g : SimpleBoggleBoard) (parent : Trie) (path : List Nat) (id : Nat) : Prop :=
  ∃ ext, WordAt parent ext id ∧ FreshExt g path ext

theorem mem_of_getD_child {t : Trie} {c : Trie} {i : Nat}
    (h : t.children.getD i none = some c) : some c ∈ t.children := by
  rw [List.getD_eq_getElem?_getD] at h
  rcases hel : t.children[i]? with _ | slot
  · rw [hel] at h
    cases h
  · rw [hel] at h
    have hslot : slot = some c := h
    obtain ⟨hlt, hget⟩ := List.getElem?_eq_some.mp hel
    rw [← hslot, ← hget]
    exact List.getElem_mem hlt

theorem lt26_of_getD {t : Trie} {c : Trie} {i : Nat} (hwf : t.WF)
    (h : t.children.getD i none = some c) : i < 26 := by
  by_contra hcon
  rw [List.getD_eq_getElem?_getD,
    List.getElem?_eq_none (by rw [hwf.children_length]; omega)] at h
  cases h

/-- Every node reached from a well-formed trie is well-formed. -/
theorem WF_trieAt : ∀ (w : List Nat) {root u : Trie}, root.WF →
    trieAt root w = some u → u.WF := by
  intro w
  induction w with
  | nil =>
    intro root u hwf h
    injection h with h
    rw [← h]
    exact hwf
  | cons i ls ih =>
    intro root u hwf h
    rw [trieAt_cons] at h
    rcases hslot : root.children.getD i none with _ | c
    · rw [hslot] at h
      cases h
    · rw [hslot] at h
      exact ih (hwf.child c (mem_of_getD_child hslot)) h

/-- Peeling one letter off a `WordAt` path. -/
theorem WordAt_cons (parent : Trie) (i : Nat) (ext : List Nat) (id : Nat) :
    WordAt parent (i :: ext) id ↔
      ∃ t, parent.children.getD i none = some t ∧ WordAt t ext id := by
  unfold WordAt
  rw [trieAt_cons]
  rcases hslot : parent.children.getD i none with _ | t
  · constructor
    · rintro ⟨u, hu, _⟩
      cases hu
    · rintro ⟨t, ht, _⟩
      cases ht
  · constructor
    · rintro ⟨u, hu, hnt⟩
      exact ⟨t, rfl, u, hu, hnt⟩
    · rintro ⟨t2, ht2, u, hu, hnt⟩
      injection ht2 with ht2
      rw [← ht2] at hu
      exact ⟨u, hu, hnt⟩

/-- The head of a non-empty visited list is on the grid. -/
theorem headI_lt {g : SimpleBoggleBoard} {path : List Nat} (hne : path ≠ [])
    (hgp : goodPath g path.reverse) : path.headI < g.width * g.height := by
  rcases path with _ | ⟨p, rest⟩
  · exact absurd rfl hne
  · exact hgp.2.2 p (by rw [List.mem_reverse]; exact List.mem_cons_self p rest)

/-- Extending a reversed visited list by a fresh adjacent cell. -/
theorem goodPath_snoc {g : SimpleBoggleBoard} {path : List Nat} {pos : Nat}
    (hne : path ≠ []) (hgp : goodPath g path.reverse)
    (hpos : pos < g.width * g.height) (hnotin : pos ∉ path)
    (hadj : g.adj path.headI pos) : goodPath g ((pos :: path).reverse) := by
  rw [List.reverse_cons]
  refine ⟨?_, ?_, ?_⟩
  · rw [List.nodup_append]
    refine ⟨hgp.1, List.nodup_singleton pos, ?_⟩
    intro a ha hb
    rw [List.mem_singleton] at hb
    rw [hb, List.mem_reverse] at ha
    exact hnotin ha
  · rw [List.chain'_append]
    refine ⟨hgp.2.1, List.chain'_singleton pos, ?_⟩
    intro x hx y hy
    rw [List.getLast?_reverse] at hx
    rcases path with _ | ⟨p, rest⟩
    · exact absurd rfl hne
    · injection hx with hx
      injection hy with hy
      rw [← hx, ← hy]
      exact hadj
  · intro c hc
    rcases List.mem_append.mp hc with h | h
    · exact hgp.2.2 c h
    · rw [List.mem_singleton] at h
      rw [h]
      exact hpos

/-- Prefixes of good paths are good. -/
theorem goodPath_take {g : SimpleBoggleBoard} {cells : List Nat}
    (h : goodPath g cells) (n : Nat) : goodPath g (cells.take n) := by
  refine ⟨h.1.sublist (List.take_sublist n cells), ?_, ?_⟩
  · have h2 := h.2.1
    rw [← List.take_append_drop n cells, List.chain'_append] at h2
    exact h2.1
  · intro c hc
    exact h.2.2 c ((List.take_sublist n cells).mem hc)

/-! ### Generic fold lemmas -/

/-- Folding steps that each preserve a predicate. -/
theorem foldl_keep {α β : Type} (step : β → α → β) (Q : β → Prop) :
    ∀ (L : List α) (acc : β), Q acc → (∀ a x, x ∈ L → Q a → Q (step a x)) →
      Q (L.foldl step acc) := by
  intro L
  induction L with
  | nil =>
    intro acc h _
    exact h
  | cons x L ih =>
    intro acc h hstep
    rw [List.foldl_cons]
    exact ih (step acc x) (hstep acc x (List.mem_cons_self x L) h)
      (fun a y hy => hstep a y (List.mem_cons_of_mem x hy))

/-- Folding steps that each add a described id set to the dedup bit set
and emit each freshly found id's word exactly once. -/
theorem foldl_accum {α : Type} (step : BitSet × List (List Nat) → α → BitSet × List (List Nat))
    (S : α → Nat → Prop) (F : Nat → List Nat) :
    ∀ (L : List α),
      (∀ acc x, x ∈ L →
        (∀ id, ((step acc x).1.get id = true) ↔ (acc.1.get id = true ∨ S x id)) ∧
        (∀ s, s ∈ (step acc x).2 ↔
          s ∈ acc.2 ∨ ∃ id, S x id ∧ acc.1.get id = false ∧ s = F id)) →
      ∀ acc,
        (∀ id, ((L.foldl step acc).1.get id = true) ↔
          (acc.1.get id = true ∨ ∃ x ∈ L, S x id)) ∧
        (∀ s, s ∈ (L.foldl step acc).2 ↔
          s ∈ acc.2 ∨ ∃ id, (∃ x ∈ L, S x id) ∧ acc.1.get id = false ∧ s = F id) := by
  intro L
  induction L with
  | nil =>
    intro _ acc
    constructor
    · intro id
      simp
    · intro s
      simp
  | cons x L ih =>
    intro hstep acc
    have hx := hstep acc x (List.mem_cons_self x L)
    have ihL := ih (fun a y hy => hstep a y (List.mem_cons_of_mem x hy)) (step acc x)
    rw [List.foldl_cons]
    constructor
    · intro id
      rw [ihL.1 id, hx.1 id]
      constructor
      · rintro ((h | h) | ⟨y, hy, h⟩)
        · exact Or.inl h
        · exact Or.inr ⟨x, List.mem_cons_self x L, h⟩
        · exact Or.inr ⟨y, List.mem_cons_of_mem x hy, h⟩
      · rintro (h | ⟨y, hy, h⟩)
        · exact Or.inl (Or.inl h)
        · rcases List.mem_cons.mp hy with rfl | hy2
          · exact Or.inl (Or.inr h)
          · exact Or.inr ⟨y, hy2, h⟩
    · intro s
      rw [ihL.2 s, hx.2 s]
      constructor
      · rintro ((h | ⟨id, hS, hg, hs⟩) | ⟨id, ⟨y, hy, hS⟩, hg, hs⟩)
        · exact Or.inl h
        · exact Or.inr ⟨id, ⟨x, List.mem_cons_self x L, hS⟩, hg, hs⟩
        · have hg2 : acc.1.get id = false := by
            rcases hb : acc.1.get id with _ | _
            · rfl
            · have := (hx.1 id).mpr (Or.inl hb)
              rw [hg] at this
              cases this
          exact Or.inr ⟨id, ⟨y, List.mem_cons_of_mem x hy, hS⟩, hg2, hs⟩
      · rintro (h | ⟨id, ⟨y, hy, hS⟩, hg, hs⟩)
        · exact Or.inl (Or.inl h)
        · rcases List.mem_cons.mp hy with rfl | hy2
          · exact Or.inl (Or.inr ⟨id, hS, hg, hs⟩)
          · rcases hb : (step acc x).1.get id with _ | _
            · exact Or.inr ⟨id, ⟨y, hy2, hS⟩, hb, hs⟩
            · rcases (hx.1 id).mp hb with h1 | h1
              · rw [hg] at h1
                cases h1
              · exact Or.inl (Or.inr ⟨id, h1, hg, hs⟩)

/-- Membership after folding appends. -/
theorem mem_foldl_append {α β : Type} (G : α → List β) :
    ∀ (L : List α) (init : List β) (x : β),
      x ∈ L.foldl (fun v n => v ++ G n) init ↔ x ∈ init ∨ ∃ n ∈ L, x ∈ G n := by
  intro L
  induction L with
  | nil =>
    intro init x
    simp
  | cons n L ih =>
    intro init x
    rw [List.foldl_cons, ih, List.mem_append]
    constructor
    · rintro ((h | h) | ⟨m, hm, h⟩)
      · exact Or.inl h
      · exact Or.inr ⟨n, List.mem_cons_self n L, h⟩
      · exact Or.inr ⟨m, List.mem_cons_of_mem n hm, h⟩
    · rintro (h | ⟨m, hm, h⟩)
      · exact Or.inl (Or.inl h)
      · rcases List.mem_cons.mp hm with rfl | hm2
        · exact Or.inl (Or.inr h)
        · exact Or.inr ⟨m, hm2, h⟩

/-! ### Cursor semantics of the trie iterator -/

theorem iterNext_none_char {t : Trie} (hwf : t.WF) {c : Nat}
    (h : t.iterNext c = none) :
    ∀ l, c ≤ l → t.children.getD l none = none := by
  intro l hl
  unfold Trie.iterNext at h
  rcases h32 : iter32Next t.child_set.value c with _ | ⟨j, i2⟩
  · rcases Nat.lt_or_ge l 26 with hl26 | hl26
    · have hbit := iter32Next_none h32 l hl (by omega)
      rcases hslot : t.children.getD l none with _ | c0
      · rfl
      · have := (hwf.mirror l (by omega)).mpr (by rw [hslot]; rfl)
        rw [hbit] at this
        cases this
    · rw [List.getD_eq_getElem?_getD,
        List.getElem?_eq_none (by rw [hwf.children_length]; omega)]
      rfl
  · rw [h32] at h
    obtain ⟨_, hj32, hbit, _, _⟩ := iter32Next_some hwf.cset_lt h32
    have hsome := (hwf.mirror j hj32).mp hbit
    rcases hslot : t.children.getD j none with _ | c0
    · rw [hslot] at hsome
      cases hsome
    · have h2 : (match t.children.getD j none with
          | some c0 => some ((c0, j), i2)
          | none => none) = none := h
      rw [hslot] at h2
      cases h2

theorem iterNext_some_char {t : Trie} (hwf : t.WF) {c : Nat}
    {child : Trie} {l c2 : Nat} (h : t.iterNext c = some ((child, l), c2)) :
    c ≤ l ∧ l < 32 ∧ t.children.getD l none = some child ∧ c2 = l + 1 ∧
      ∀ k, c ≤ k → k < l → t.children.getD k none = none := by
  unfold Trie.iterNext at h
  rcases h32 : iter32Next t.child_set.value c with _ | ⟨j, i2⟩
  · rw [h32] at h
    cases h
  · rw [h32] at h
    obtain ⟨hcj, hj32, _, hlow, hi2⟩ := iter32Next_some hwf.cset_lt h32
    have h2 : (match t.children.getD j none with
        | some c0 => some ((c0, j), i2)
        | none => none) = some ((child, l), c2) := h
    rcases hslot : t.children.getD j none with _ | c0
    · rw [hslot] at h2
      cases h2
    · rw [hslot] at h2
      injection h2 with h2
      injection h2 with h3 h4
      injection h3 with h5 h6
      subst h6
      refine ⟨hcj, hj32, by rw [hslot, h5], h4.symm.trans hi2, ?_⟩
      intro k hk1 hk2
      have hbit := hlow k hk1 hk2
      rcases hslot2 : t.children.getD k none with _ | c1
      · rfl
      · have := (hwf.mirror k (by omega)).mpr (by rw [hslot2]; rfl)
        rw [hbit] at this
        cases this

/-! ### Decomposing reachable word nodes one step -/

theorem found_decomp {g : SimpleBoggleBoard} {b : RadixBoggleBoard}
    (hinv : BuildInv g (g.width * g.height) b) (hw : 0 < g.width)
    {parent : Trie} (hpwf : parent.WF)
    {path : List Nat} (hne : path ≠ []) (hgp : goodPath g path.reverse) (id : Nat) :
    (∃ t i, parent.children.getD i none = some t ∧
      ∃ pos ∈ b.neighbors path.headI i, pos ∉ path ∧
        (t.node_type = NodeType.Word id ∨ Found g t (pos :: path) id)) ↔
      Found g parent path id := by
  have hhead := headI_lt hne hgp
  constructor
  · rintro ⟨t, i, hslot, pos, hmem, hfresh, hcase⟩
    have hi26 := lt26_of_getD hpwf hslot
    obtain ⟨hadj, hlet⟩ := (neighbors_spec hinv hw hhead hi26 pos).mp hmem
    have hposlt := neighbors_lt hinv hw hhead hi26 hmem
    rcases hcase with hword | hfound
    · refine ⟨[i], ⟨t, ?_, hword⟩, [pos], by simp, ?_, by rw [List.map_singleton, hlet]⟩
      · rw [trieAt_cons, hslot]
        rfl
      · have := goodPath_snoc hne hgp hposlt hfresh hadj
        rw [List.reverse_cons] at this
        exact this
    · obtain ⟨ext, hwa, cs, hcs, hgood, hmap⟩ := hfound
      refine ⟨i :: ext, ?_, pos :: cs, by simp, ?_, by rw [List.map_cons, hlet, hmap]⟩
      · rw [WordAt_cons]
        exact ⟨t, hslot, hwa⟩
      · rw [List.reverse_cons, List.append_assoc, List.singleton_append] at hgood
        exact hgood
  · rintro ⟨ext, hwa, cs, hcs, hgood, hmap⟩
    rcases cs with _ | ⟨pos, cs2⟩
    · exact absurd rfl hcs
    · rw [List.map_cons] at hmap
      rcases ext with _ | ⟨i, ext2⟩
      · cases hmap
      · injection hmap with hm1 hm2
        rw [WordAt_cons] at hwa
        obtain ⟨t, hslot, hwa2⟩ := hwa
        have hi26 := lt26_of_getD hpwf hslot
        have hposlt : pos < g.width * g.height :=
          hgood.2.2 pos (List.mem_append.mpr (Or.inr (List.mem_cons_self pos cs2)))
        have hadj : g.adj path.headI pos := by
          have hch := hgood.2.1
          rw [List.chain'_append] at hch
          apply hch.2.2 path.headI _ pos rfl
          rw [List.getLast?_reverse]
          rcases path with _ | ⟨p, rest⟩
          · exact absurd rfl hne
          · rfl
        have hfresh : pos ∉ path := by
          have hnd := hgood.1
          rw [List.nodup_append] at hnd
          intro hcon
          exact hnd.2.2 (by rw [List.mem_reverse]; exact hcon)
            (List.mem_cons_self pos cs2)
        refine ⟨t, i, hslot, pos, ?_, hfresh, ?_⟩
        · exact (neighbors_spec hinv hw hhead hi26 pos).mpr ⟨hadj, by rw [hm1]⟩
        · rcases cs2 with _ | ⟨c2, cs3⟩
          · rcases ext2 with _ | _
            · obtain ⟨u, hu, hnt⟩ := hwa2
              injection hu with hu
              rw [← hu] at hnt
              exact Or.inl hnt
            · obtain ⟨u, hu, _⟩ := hwa2
              rw [trieAt_cons] at hu
              cases hm2
          · refine Or.inr ⟨ext2, hwa2, c2 :: cs3, by simp, ?_, hm2⟩
            rw [List.reverse_cons, List.append_assoc, List.singleton_append]
            exact hgood

/-! ### Soundness of the eager search -/

theorem descend_sound {g : SimpleBoggleBoard} {b : RadixBoggleBoard} {root : Trie}
    (hinv : BuildInv g (g.width * g.height) b) (hw : 0 < g.width) :
    ∀ n (parent : Trie), sizeOf parent ≤ n → parent.WF →
      ∀ (word path : List Nat) (acc : BitSet × List (List Nat)),
        path ≠ [] → goodPath g path.reverse →
        trieAt root word = some parent → path.reverse.map g.letter = word →
        ∀ s, s ∈ (descend b parent word path acc).2 →
          s ∈ acc.2 ∨ ∃ id w2, WordAt root w2 id ∧ Spellable g w2 ∧ s = decodeEager w2 := by
  intro n
  induction n with
  | zero =>
    intro parent hsz
    rcases parent with ⟨nt, ch, cs⟩
    rw [Trie.mk.sizeOf_spec] at hsz
    omega
  | succ n ih =>
    intro parent hsz hpwf word path acc hne hgp htri hspell s hs
    unfold descend at hs
    have hhead := headI_lt hne hgp
    have hQ : ∀ s2 ∈ (parent.childList.attach.foldl
        (fun acc0 pc =>
          (b.neighbors path.headI pc.1.2).foldl
            (fun acc1 pos =>
              if pos ∈ path then acc1
              else
                descend b pc.1.1 (word ++ [pc.1.2]) (pos :: path)
                  (emitStep pc.1.1 (word ++ [pc.1.2]) acc1))
            acc0)
        acc).2, s2 ∈ acc.2 ∨
          ∃ id w2, WordAt root w2 id ∧ Spellable g w2 ∧ s2 = decodeEager w2 := by
      refine foldl_keep _
        (fun a => ∀ s2 ∈ a.2, s2 ∈ acc.2 ∨
          ∃ id w2, WordAt root w2 id ∧ Spellable g w2 ∧ s2 = decodeEager w2)
        parent.childList.attach acc (fun s2 h2 => Or.inl h2) ?_
      rintro a ⟨⟨t, i⟩, hmemb⟩ _ hQa
      have hslot := (mem_childList hpwf t i).mp hmemb
      have hi26 := lt26_of_getD hpwf hslot
      have htwf := hpwf.child t (mem_of_getD_child hslot)
      have hsz2 : sizeOf t ≤ n := by
        have h5 : sizeOf t < sizeOf parent := sizeOf_cursorList 33 0 (t, i) hmemb
        omega
      have htri2 : trieAt root (word ++ [i]) = some t := by
        rw [trieAt_append, htri]
        show trieAt parent [i] = some t
        rw [trieAt_cons, hslot]
        rfl
      refine foldl_keep _
        (fun a2 => ∀ s2 ∈ a2.2, s2 ∈ acc.2 ∨
          ∃ id w2, WordAt root w2 id ∧ Spellable g w2 ∧ s2 = decodeEager w2)
        (b.neighbors path.headI i) a hQa ?_
      intro a2 pos hpos hQ2
      by_cases hin : pos ∈ path
      · rw [if_pos hin]
        exact hQ2
      · rw [if_neg hin]
        obtain ⟨hadj, hlet⟩ := (neighbors_spec hinv hw hhead hi26 pos).mp hpos
        have hposlt := neighbors_lt hinv hw hhead hi26 hpos
        have hgp2 := goodPath_snoc hne hgp hposlt hin hadj
        have hspell2 : (pos :: path).reverse.map g.letter = word ++ [i] := by
          rw [List.reverse_cons, List.map_append, hspell, List.map_singleton, hlet]
        have hacc2 : ∀ s2 ∈ (emitStep t (word ++ [i]) a2).2, s2 ∈ acc.2 ∨
            ∃ id w2, WordAt root w2 id ∧ Spellable g w2 ∧ s2 = decodeEager w2 := by
          intro s2 h2
          rcases (emitStep_out t (word ++ [i]) a2 s2).mp h2 with h3 | ⟨id0, hnt, _, hs⟩
          · exact hQ2 s2 h3
          · refine Or.inr ⟨id0, word ++ [i], ⟨t, htri2, hnt⟩, ?_, hs⟩
            exact ⟨(pos :: path).reverse, by simp, hgp2, hspell2⟩
        intro s2 h2
        rcases ih t hsz2 htwf (word ++ [i]) (pos :: path) _ (by simp) hgp2 htri2
            hspell2 s2 h2 with h3 | h3
        · exact hacc2 s2 h3
        · exact Or.inr h3
    exact hQ s hs

theorem solve_radix_sound {g : SimpleBoggleBoard} {b : RadixBoggleBoard} {root : Trie}
    (hinv : BuildInv g (g.width * g.height) b) (hw : 0 < g.width) (hroot : root.WF) :
    ∀ s ∈ (solve_radix root b).2,
      ∃ id w2, WordAt root w2 id ∧ Spellable g w2 ∧ s = decodeEager w2 := by
  intro s hs
  unfold solve_radix at hs
  have hQ : ∀ s2 ∈ (root.childList.foldl
      (fun acc pc =>
        (b.any pc.2).foldl (fun acc1 pos => descend b pc.1 [pc.2] [pos] acc1) acc)
      (BitSet.new, ([] : List (List Nat)))).2,
      ∃ id w2, WordAt root w2 id ∧ Spellable g w2 ∧ s2 = decodeEager w2 := by
    refine foldl_keep _
      (fun a => ∀ s2 ∈ a.2,
        ∃ id w2, WordAt root w2 id ∧ Spellable g w2 ∧ s2 = decodeEager w2)
      root.childList (BitSet.new, []) (fun s2 h2 => absurd h2 (List.not_mem_nil s2)) ?_
    rintro a ⟨t, i⟩ hmemb hQa
    have hslot := (mem_childList hroot t i).mp hmemb
    have hi26 := lt26_of_getD hroot hslot
    have htwf := hroot.child t (mem_of_getD_child hslot)
    have htri : trieAt root [i] = some t := by
      rw [trieAt_cons, hslot]
      rfl
    refine foldl_keep _
      (fun a2 => ∀ s2 ∈ a2.2,
        ∃ id w2, WordAt root w2 id ∧ Spellable g w2 ∧ s2 = decodeEager w2)
      (b.any i) a hQa ?_
    intro a2 pos hpos hQ2
    obtain ⟨hposlt, hlet⟩ := (any_spec hinv hi26 pos).mp hpos
    have hgp : goodPath g ([pos] : List Nat).reverse := by
      refine ⟨List.nodup_singleton pos, List.chain'_singleton pos, ?_⟩
      intro c hc
      rw [List.reverse_singleton, List.mem_singleton] at hc
      rw [hc]
      exact hposlt
    have hspell : ([pos] : List Nat).reverse.map g.letter = [i] := by
      rw [List.reverse_singleton, List.map_singleton, hlet]
    intro s2 h2
    rcases descend_sound hinv hw (sizeOf t) t (le_refl _) htwf [i] [pos] a2
        (by simp) hgp htri hspell s2 h2 with h3 | h3
    · exact hQ2 s2 h3
    · exact h3
  exact hQ s hs

/-! ### Exact characterization of the eager search -/

set_option maxHeartbeats 1000000 in
/-- Full effect of `descend_radix` on the dedup bit set and the emitted
strings, for an abstract emission function `F` compatible with the trie
below `parent` (on tries with unique word ids such an `F` exists). -/
theorem descend_spec {g : SimpleBoggleBoard} {b : RadixBoggleBoard}
    (hinv : BuildInv g (g.width * g.height) b) (hw : 0 < g.width) (F : Nat → List Nat) :
    ∀ n (parent : Trie), sizeOf parent ≤ n → parent.WF →
      ∀ (word path : List Nat) (ws : BitSet) (out : List (List Nat)),
        path ≠ [] → goodPath g path.reverse →
        (∀ id ext, WordAt parent ext id → decodeEager (word ++ ext) = F id) →
        (∀ id, ((descend b parent word path (ws, out)).1.get id = true) ↔
          (ws.get id = true ∨ Found g parent path id)) ∧
        (∀ s, s ∈ (descend b parent word path (ws, out)).2 ↔
          (s ∈ out ∨ ∃ id, Found g parent path id ∧ ws.get id = false ∧ s = F id)) := by
  intro n
  induction n with
  | zero =>
    intro parent hsz
    rcases parent with ⟨nt, ch, cs⟩
    rw [Trie.mk.sizeOf_spec] at hsz
    omega
  | succ n ih =>
    intro parent hsz hpwf word path ws out hne hgp hFc
    have hhead := headI_lt hne hgp
    have hSF : ∀ id, (∃ pc ∈ parent.childList.attach,
        ∃ pos ∈ b.neighbors path.headI pc.1.2, pos ∉ path ∧
          (pc.1.1.node_type = NodeType.Word id ∨ Found g pc.1.1 (pos :: path) id)) ↔
        Found g parent path id := by
      intro id
      rw [← found_decomp hinv hw hpwf hne hgp id]
      constructor
      · rintro ⟨⟨⟨t, i⟩, hmemb⟩, _, pos, hpos, hfresh, hcase⟩
        exact ⟨t, i, (mem_childList hpwf t i).mp hmemb, pos, hpos, hfresh, hcase⟩
      · rintro ⟨t, i, hslot, pos, hpos, hfresh, hcase⟩
        exact ⟨⟨(t, i), (mem_childList hpwf t i).mpr hslot⟩, List.mem_attach _ _,
          pos, hpos, hfresh, hcase⟩
    have MAIN := foldl_accum
      (fun acc0 pc =>
        (b.neighbors path.headI pc.1.2).foldl
          (fun acc1 pos =>
            if pos ∈ path then acc1
            else
              descend b pc.1.1 (word ++ [pc.1.2]) (pos :: path)
                (emitStep pc.1.1 (word ++ [pc.1.2]) acc1))
          acc0)
      (fun pc id => ∃ pos ∈ b.neighbors path.headI pc.1.2, pos ∉ path ∧
        (pc.1.1.node_type = NodeType.Word id ∨ Found g pc.1.1 (pos :: path) id))
      F parent.childList.attach
      (by
        rintro acc0 ⟨⟨t, i⟩, hmemb⟩ _
        have hslot := (mem_childList hpwf t i).mp hmemb
        have hi26 := lt26_of_getD hpwf hslot
        have htwf := hpwf.child t (mem_of_getD_child hslot)
        have hsz2 : sizeOf t ≤ n := by
          have h5 : sizeOf t < sizeOf parent := sizeOf_cursorList 33 0 (t, i) hmemb
          omega
        have hwai : ∀ id, t.node_type = NodeType.Word id → WordAt parent [i] id := by
          intro id hnt
          refine ⟨t, ?_, hnt⟩
          rw [trieAt_cons, hslot]
          rfl
        have hFc2 : ∀ id ext, WordAt t ext id →
            decodeEager ((word ++ [i]) ++ ext) = F id := by
          intro id ext hext
          rw [List.append_assoc]
          exact hFc id (i :: ext) ((WordAt_cons parent i ext id).mpr ⟨t, hslot, hext⟩)
        have INNER := foldl_accum
          (fun acc1 pos =>
            if pos ∈ path then acc1
            else
              descend b t (word ++ [i]) (pos :: path)
                (emitStep t (word ++ [i]) acc1))
          (fun pos id => pos ∉ path ∧
            (t.node_type = NodeType.Word id ∨ Found g t (pos :: path) id))
          F (b.neighbors path.headI i)
          (by
            intro acc1 pos hpos
            beta_reduce
            by_cases hin : pos ∈ path
            · constructor
              · intro id
                rw [if_pos hin]
                constructor
                · exact Or.inl
                · rintro (h | ⟨hfresh, _⟩)
                  · exact h
                  · exact absurd hin hfresh
              · intro s
                rw [if_pos hin]
                constructor
                · exact Or.inl
                · rintro (h | ⟨id, ⟨hfresh, _⟩, _, _⟩)
                  · exact h
                  · exact absurd hin hfresh
            · obtain ⟨hadj, hlet⟩ := (neighbors_spec hinv hw hhead hi26 pos).mp hpos
              have hposlt := neighbors_lt hinv hw hhead hi26 hpos
              have hgp2 := goodPath_snoc hne hgp hposlt hin hadj
              have IH := ih t hsz2 htwf (word ++ [i]) (pos :: path)
                (emitStep t (word ++ [i]) acc1).1 (emitStep t (word ++ [i]) acc1).2
                (by simp) hgp2 hFc2
              constructor
              · intro id
                rw [if_neg hin]
                constructor
                · intro h
                  rcases (IH.1 id).mp h with h2 | h2
                  · rcases (emitStep_get t (word ++ [i]) acc1 id).mp h2 with h3 | h3
                    · exact Or.inl h3
                    · exact Or.inr ⟨hin, Or.inl h3⟩
                  · exact Or.inr ⟨hin, Or.inr h2⟩
                · rintro (h | ⟨_, h | h⟩)
                  · exact (IH.1 id).mpr
                      (Or.inl ((emitStep_get t (word ++ [i]) acc1 id).mpr (Or.inl h)))
                  · exact (IH.1 id).mpr
                      (Or.inl ((emitStep_get t (word ++ [i]) acc1 id).mpr (Or.inr h)))
                  · exact (IH.1 id).mpr (Or.inr h)
              · intro s
                rw [if_neg hin]
                constructor
                · intro h
                  rcases (IH.2 s).mp h with h2 | ⟨id, hfound, hfalse, hs⟩
                  · rcases (emitStep_out t (word ++ [i]) acc1 s).mp h2 with
                      h3 | ⟨id, hnt, hfalse, hs⟩
                    · exact Or.inl h3
                    · refine Or.inr ⟨id, ⟨hin, Or.inl hnt⟩, hfalse, ?_⟩
                      rw [hs]
                      exact hFc id [i] (hwai id hnt)
                  · have hfalse2 : acc1.1.get id = false := by
                      rcases hb : acc1.1.get id with _ | _
                      · rfl
                      · have h4 := (emitStep_get t (word ++ [i]) acc1 id).mpr (Or.inl hb)
                        rw [hfalse] at h4
                        cases h4
                    exact Or.inr ⟨id, ⟨hin, Or.inr hfound⟩, hfalse2, hs⟩
                · rintro (h | ⟨id, ⟨_, hcase⟩, hfalse, hs⟩)
                  · exact (IH.2 s).mpr
                      (Or.inl ((emitStep_out t (word ++ [i]) acc1 s).mpr (Or.inl h)))
                  · rcases hcase with hnt | hfound
                    · refine (IH.2 s).mpr (Or.inl
                        ((emitStep_out t (word ++ [i]) acc1 s).mpr
                          (Or.inr ⟨id, hnt, hfalse, ?_⟩)))
                      rw [hs]
                      exact (hFc id [i] (hwai id hnt)).symm
                    · rcases hb : (emitStep t (word ++ [i]) acc1).1.get id with _ | _
                      · exact (IH.2 s).mpr (Or.inr ⟨id, hfound, hb, hs⟩)
                      · rcases (emitStep_get t (word ++ [i]) acc1 id).mp hb with h3 | h3
                        · rw [hfalse] at h3
                          cases h3
                        · refine (IH.2 s).mpr (Or.inl
                            ((emitStep_out t (word ++ [i]) acc1 s).mpr
                              (Or.inr ⟨id, h3, hfalse, ?_⟩)))
                          rw [hs]
                          exact (hFc id [i] (hwai id h3)).symm)
          acc0
        exact INNER)
      (ws, out)
    constructor
    · intro id
      unfold descend
      exact (MAIN.1 id).trans (or_congr Iff.rfl (hSF id))
    · intro s
      unfold descend
      exact (MAIN.2 s).trans
        (or_congr Iff.rfl (exists_congr fun id => and_congr (hSF id) Iff.rfl))

/-- Exact output set of `solve_radix`: the decoded trie words of length
at least two that are spellable by a simple path, under an emission
function compatible with the trie (unique word ids). -/
theorem solve_radix_exact {g : SimpleBoggleBoard} {b : RadixBoggleBoard} {root : Trie}
    (hinv : BuildInv g (g.width * g.height) b) (hw : 0 < g.width) (hroot : root.WF)
    (F : Nat → List Nat)
    (hFc : ∀ id w2, WordAt root w2 id → decodeEager w2 = F id) :
    ∀ s, s ∈ (solve_radix root b).2 ↔
      ∃ id w2, WordAt root w2 id ∧ 2 ≤ w2.length ∧ Spellable g w2 ∧ s = decodeEager w2 := by
  intro s
  unfold solve_radix
  have MAIN := foldl_accum
    (fun acc pc =>
      (b.any pc.2).foldl (fun acc1 pos => descend b pc.1 [pc.2] [pos] acc1) acc)
    (fun pc id => ∃ pos ∈ b.any pc.2, Found g pc.1 [pos] id)
    F root.childList
    (by
      rintro acc ⟨t, i⟩ hmemb
      have hslot := (mem_childList hroot t i).mp hmemb
      have hi26 := lt26_of_getD hroot hslot
      have htwf := hroot.child t (mem_of_getD_child hslot)
      have hFc2 : ∀ id ext, WordAt t ext id → decodeEager ([i] ++ ext) = F id := by
        intro id ext hext
        exact hFc id (i :: ext) ((WordAt_cons root i ext id).mpr ⟨t, hslot, hext⟩)
      have INNER := foldl_accum
        (fun acc1 pos => descend b t [i] [pos] acc1)
        (fun pos id => Found g t [pos] id)
        F (b.any i)
        (by
          intro acc1 pos hpos
          obtain ⟨hposlt, hlet⟩ := (any_spec hinv hi26 pos).mp hpos
          have hgp : goodPath g ([pos] : List Nat).reverse := by
            refine ⟨List.nodup_singleton pos, List.chain'_singleton pos, ?_⟩
            intro c hc
            rw [List.reverse_singleton, List.mem_singleton] at hc
            rw [hc]
            exact hposlt
          exact descend_spec hinv hw F (sizeOf t) t (le_refl _) htwf [i] [pos]
            acc1.1 acc1.2 (by simp) hgp hFc2)
        acc
      exact INNER)
    (BitSet.new, [])
  rw [MAIN.2 s]
  constructor
  · rintro (h | ⟨id, ⟨⟨t, i⟩, hmemb, pos, hpos, hfound⟩, _, hs⟩)
    · exact absurd h (List.not_mem_nil s)
    · obtain ⟨ext, hwa, cs, hcs, hgood, hmap⟩ := hfound
      have hslot := (mem_childList hroot t i).mp hmemb
      have hi26 := lt26_of_getD hroot hslot
      obtain ⟨hposlt, hlet⟩ := (any_spec hinv hi26 pos).mp hpos
      have hwa2 : WordAt root (i :: ext) id := (WordAt_cons root i ext id).mpr ⟨t, hslot, hwa⟩
      refine ⟨id, i :: ext, hwa2, ?_, ?_, ?_⟩
      · rcases cs with _ | ⟨c, cs2⟩
        · exact absurd rfl hcs
        · rw [← hmap, List.map_cons, List.length_cons, List.length_cons]
          omega
      · refine ⟨pos :: cs, by simp, ?_, by rw [List.map_cons, hlet, hmap]⟩
        rw [List.reverse_singleton, List.singleton_append] at hgood
        exact hgood
      · rw [hs]
        exact (hFc id (i :: ext) hwa2).symm
  · rintro ⟨id, w2, hwa, hlen, ⟨cells, hcne, hgood, hmap⟩, hs⟩
    rcases cells with _ | ⟨pos, cs⟩
    · exact absurd rfl hcne
    · rw [List.map_cons] at hmap
      rcases w2 with _ | ⟨i, ext⟩
      · cases hmap
      · injection hmap with hm1 hm2
        rw [WordAt_cons] at hwa
        obtain ⟨t, hslot, hwa2⟩ := hwa
        have hi26 := lt26_of_getD hroot hslot
        have hcs : cs ≠ [] := by
          intro hcon
          rw [hcon] at hm2
          rw [← hm2] at hlen
          simp at hlen
        refine Or.inr ⟨id, ⟨(t, i), (mem_childList hroot t i).mpr hslot, pos, ?_, ?_⟩,
          BitSet.get_new id, ?_⟩
        · refine (any_spec hinv hi26 pos).mpr ⟨?_, hm1⟩
          exact hgood.2.2 pos (List.mem_cons_self pos cs)
        · refine ⟨ext, hwa2, cs, hcs, ?_, hm2⟩
          rw [List.reverse_singleton, List.singleton_append]
          exact hgood
        · rw [hs]
          exact hFc id (i :: ext) ((WordAt_cons root i ext id).mpr ⟨t, hslot, hwa2⟩)

/-! ### The lazy iterator: frontier exactness -/

theorem mem_of_getLast : ∀ {l : List Nat} {x : Nat}, l.getLast? = some x → x ∈ l := by
  intro l
  induction l with
  | nil =>
    intro x h
    cases h
  | cons a l2 ih =>
    intro x h
    rcases l2 with _ | ⟨b, l3⟩
    · injection h with h
      rw [← h]
      exact List.mem_singleton.mpr rfl
    · rw [List.getLast?_cons_cons] at h
      exact List.mem_cons_of_mem a (ih h)

theorem mem_iff_dropLast_or_last {l : List Nat} {x last : Nat}
    (h : l.getLast? = some last) : x ∈ l ↔ x ∈ l.dropLast ∨ x = last := by
  have hne : l ≠ [] := by
    rintro rfl
    cases h
  have hsp := List.dropLast_append_getLast hne
  have hl : l.getLast hne = last := by
    rw [List.getLast?_eq_getLast l hne] at h
    injection h
  conv_lhs => rw [← hsp]
  rw [List.mem_append, List.mem_singleton, hl]

/-- The BFS frontier for word `w`: sound (every node comes from a
simple path spelling `w`, with `ancestors` holding exactly the earlier
cells) and complete (every such path is represented). -/
def FrontierOK (g : SimpleBoggleBoard) (w : List Nat) (Fr : List (Nat × BitSet)) : Prop :=
  (∀ pa ∈ Fr, ∃ cells, cells ≠ [] ∧ goodPath g cells ∧ cells.map g.letter = w ∧
      cells.getLast? = some pa.1 ∧ ∀ c, pa.2.get c = true ↔ c ∈ cells.dropLast) ∧
  (∀ cells pos, cells ≠ [] → goodPath g cells → cells.map g.letter = w →
      cells.getLast? = some pos →
      ∃ anc, (pos, anc) ∈ Fr ∧ ∀ c, anc.get c = true ↔ c ∈ cells.dropLast)

set_option maxHeartbeats 1000000 in
/-- `next_frontier` preserves frontier exactness. -/
theorem nextFrontier_OK {g : SimpleBoggleBoard} {b : RadixBoggleBoard}
    (hinv : BuildInv g (g.width * g.height) b) (hw : 0 < g.width)
    {w : List Nat} {Fr : List (Nat × BitSet)} (hok : FrontierOK g w Fr)
    (hempty : Fr = [] ↔ w = []) {v : Nat} (hv : v < 26) :
    FrontierOK g (w ++ [v]) (nextFrontier b Fr v) := by
  rcases Fr with _ | ⟨nd, Fr2⟩
  · have hwnil : w = [] := hempty.mp rfl
    subst hwnil
    show FrontierOK g ([] ++ [v]) ((b.any v).map (fun pos => (pos, BitSet.new)))
    constructor
    · intro pa hmem
      obtain ⟨pos2, hpos2, heq⟩ := List.mem_map.mp hmem
      rw [← heq]
      obtain ⟨hlt, hlet⟩ := (any_spec hinv hv pos2).mp hpos2
      refine ⟨[pos2], by simp, ⟨List.nodup_singleton _, List.chain'_singleton _, ?_⟩,
        ?_, rfl, ?_⟩
      · intro c hc
        rw [List.mem_singleton] at hc
        rw [hc]
        exact hlt
      · rw [List.map_singleton, hlet, List.nil_append]
      · intro c
        rw [BitSet.get_new]
        constructor
        · intro h
          cases h
        · intro h
          cases h
    · intro cells pos hne hgood hmap hlast
      rcases cells with _ | ⟨c0, cs⟩
      · exact absurd rfl hne
      · rcases cs with _ | ⟨c1, cs2⟩
        · rw [List.map_singleton, List.nil_append] at hmap
          injection hmap with hl _
          have hpos : c0 = pos := by simpa using hlast
          have hlt : c0 < g.width * g.height :=
            hgood.2.2 c0 (List.mem_singleton.mpr rfl)
          refine ⟨BitSet.new, ?_, ?_⟩
          · refine List.mem_map.mpr ⟨c0, (any_spec hinv hv c0).mpr ⟨hlt, hl⟩, ?_⟩
            rw [hpos]
          · intro c
            rw [BitSet.get_new]
            constructor
            · intro h
              cases h
            · intro h
              cases h
        · rw [List.map_cons, List.map_cons] at hmap
          have hlencon := congrArg List.length hmap
          simp at hlencon
  · have hwne : w ≠ [] := by
      intro hcon
      cases hempty.mpr hcon
    have hmemiff : ∀ p, p ∈ nextFrontier b (nd :: Fr2) v ↔
        ∃ node ∈ nd :: Fr2, p ∈
          ((b.neighbors node.1 v).filter (fun pos => !node.2.get pos)).map
            (fun pos => (pos, node.2.add node.1)) := by
      intro p
      show p ∈ (nd :: Fr2).foldl _ [] ↔ _
      rw [mem_foldl_append]
      constructor
      · rintro (h | h)
        · cases h
        · exact h
      · intro h
        exact Or.inr h
    constructor
    · intro pa hmem
      obtain ⟨node, hnode, hmem2⟩ := (hmemiff pa).mp hmem
      obtain ⟨pos2, hpos2, heq⟩ := List.mem_map.mp hmem2
      rw [List.mem_filter] at hpos2
      obtain ⟨hnbr, hfilt⟩ := hpos2
      obtain ⟨cells, hcne, hgood, hmap, hlast, hanc⟩ := hok.1 node hnode
      have hn1lt : node.1 < g.width * g.height := hgood.2.2 node.1 (mem_of_getLast hlast)
      obtain ⟨hadj, hlet⟩ := (neighbors_spec hinv hw hn1lt hv pos2).mp hnbr
      have hp2lt := neighbors_lt hinv hw hn1lt hv hnbr
      have hp2ne := neighbors_ne_self hinv hw hn1lt hv hnbr
      have hp2nin : pos2 ∉ cells := by
        rw [mem_iff_dropLast_or_last hlast]
        rintro (h | h)
        · have := (hanc pos2).mpr h
          rw [this] at hfilt
          cases hfilt
        · exact hp2ne h
      rw [← heq]
      refine ⟨cells ++ [pos2], by simp, ⟨?_, ?_, ?_⟩, ?_, List.getLast?_concat cells, ?_⟩
      · rw [List.nodup_append]
        refine ⟨hgood.1, List.nodup_singleton _, ?_⟩
        intro a ha hb
        rw [List.mem_singleton] at hb
        rw [hb] at ha
        exact hp2nin ha
      · rw [List.chain'_append]
        refine ⟨hgood.2.1, List.chain'_singleton _, ?_⟩
        intro x hx y hy
        rw [show (x ∈ cells.getLast?) = (cells.getLast? = some x) from rfl, hlast] at hx
        injection hx with hx
        injection hy with hy
        rw [← hx, ← hy]
        exact hadj
      · intro c hc
        rcases List.mem_append.mp hc with h | h
        · exact hgood.2.2 c h
        · rw [List.mem_singleton] at h
          rw [h]
          exact hp2lt
      · rw [List.map_append, hmap, List.map_singleton, hlet]
      · intro c
        rw [List.dropLast_concat, BitSet.get_add, Bool.or_eq_true, decide_eq_true_eq,
          mem_iff_dropLast_or_last hlast]
        constructor
        · rintro (h | h)
          · exact Or.inr h
          · exact Or.inl ((hanc c).mp h)
        · rintro (h | h)
          · exact Or.inr ((hanc c).mpr h)
          · exact Or.inl h
    · intro cells2 pos2 hne2 hgood2 hmap2 hlast2
      have hsp := List.dropLast_append_getLast hne2
      have hgl : cells2.getLast hne2 = pos2 := by
        rw [List.getLast?_eq_getLast cells2 hne2] at hlast2
        injection hlast2
      rw [hgl] at hsp
      have hmapd : cells2.dropLast.map g.letter = w := by
        have h1 : (cells2.map g.letter).dropLast = (w ++ [v]).dropLast := by rw [hmap2]
        rw [List.dropLast_concat] at h1
        rw [← h1]
        exact List.map_dropLast g.letter cells2
      have hdne : cells2.dropLast ≠ [] := by
        intro hcon
        rw [hcon] at hmapd
        exact hwne hmapd.symm
      have hgoodd : goodPath g cells2.dropLast := by
        refine ⟨hgood2.1.sublist (List.dropLast_sublist cells2), ?_, ?_⟩
        · have h2 := hgood2.2.1
          rw [← hsp, List.chain'_append] at h2
          exact h2.1
        · intro c hc
          exact hgood2.2.2 c ((List.dropLast_sublist cells2).mem hc)
      have hdlast : cells2.dropLast.getLast? =
          some (cells2.dropLast.getLast hdne) := List.getLast?_eq_getLast _ hdne
      obtain ⟨anc, hancmem, hanc⟩ := hok.2 cells2.dropLast (cells2.dropLast.getLast hdne)
        hdne hgoodd hmapd hdlast
      have hadj : g.adj (cells2.dropLast.getLast hdne) pos2 := by
        have h2 := hgood2.2.1
        rw [← hsp, List.chain'_append] at h2
        exact h2.2.2 _ hdlast pos2 rfl
      have hp2lt : pos2 < g.width * g.height :=
        hgood2.2.2 pos2 (by rw [← hsp]; exact List.mem_append.mpr (Or.inr (by simp)))
      have hletp2 : g.letter pos2 = v := by
        have h1 : (cells2.map g.letter).getLast? = some (g.letter pos2) := by
          rw [List.getLast?_map, hlast2]
          rfl
        rw [hmap2, List.getLast?_concat] at h1
        injection h1 with h1
        exact h1.symm
      have hp2nin : pos2 ∉ cells2.dropLast := by
        intro hcon
        have hnd := hgood2.1
        rw [← hsp, List.nodup_append] at hnd
        exact hnd.2.2 hcon (by simp)
      have hnlt : cells2.dropLast.getLast hdne < g.width * g.height :=
        hgoodd.2.2 _ (mem_of_getLast hdlast)
      refine ⟨anc.add (cells2.dropLast.getLast hdne), ?_, ?_⟩
      · refine (hmemiff _).mpr ⟨(cells2.dropLast.getLast hdne, anc), hancmem, ?_⟩
        refine List.mem_map.mpr ⟨pos2, ?_, rfl⟩
        rw [List.mem_filter]
        refine ⟨(neighbors_spec hinv hw hnlt hv pos2).mpr ⟨hadj, hletp2⟩, ?_⟩
        have hancfalse : anc.get pos2 = false := by
          rcases hb : anc.get pos2 with _ | _
          · rfl
          · have h3 := (hanc pos2).mp hb
            exact absurd ((List.dropLast_sublist cells2.dropLast).mem h3) hp2nin
        rw [hancfalse]
        rfl
      · intro c
        rw [BitSet.get_add, Bool.or_eq_true, decide_eq_true_eq,
          mem_iff_dropLast_or_last hdlast]
        constructor
        · rintro (h | h)
          · exact Or.inr h
          · exact Or.inl ((hanc c).mp h)
        · rintro (h | h)
          · exact Or.inr ((hanc c).mpr h)
          · exact Or.inl h
/-! ### The lazy iterator: state invariant and expected output -/

theorem take_dropLast {l : List Nat} {m : Nat} (h : m ≤ l.length - 1) :
    l.dropLast.take m = l.take m := by
  rw [List.dropLast_eq_take, List.take_take, Nat.min_eq_left h]

/-- Element `m` of the `state` stack, counting from the bottom. -/
def stackElem (st : List (Trie × Nat × List (Nat × BitSet))) (m : Nat) :
    Trie × Nat × List (Nat × BitSet) :=
  st.reverse.getD m (Trie.new, 0, [])

theorem stackElem_low {e : Trie × Nat × List (Nat × BitSet)}
    {rest : List (Trie × Nat × List (Nat × BitSet))} {m : Nat} (hm : m < rest.length) :
    stackElem (e :: rest) m = stackElem rest m := by
  unfold stackElem
  rw [List.reverse_cons, List.getD_eq_getElem?_getD,
    List.getElem?_append_left (by rw [List.length_reverse]; exact hm),
    ← List.getD_eq_getElem?_getD]

theorem stackElem_top {e : Trie × Nat × List (Nat × BitSet)}
    {rest : List (Trie × Nat × List (Nat × BitSet))} :
    stackElem (e :: rest) rest.length = e := by
  unfold stackElem
  rw [List.reverse_cons, List.getD_eq_getElem?_getD,
    List.getElem?_append_right (by rw [List.length_reverse])]
  simp

/-- Invariant of every reachable state of `DictBasedIterator`: one more
stack element than letters; element `m` holds the trie node reached by
the first `m` letters of the current word with an exact frontier for
that prefix, and exactly the bottom (root) element has an empty
frontier. -/
def StateInv (g : SimpleBoggleBoard) (root : Trie) (s : LazyState) : Prop :=
  s.stack.length = s.word.length + 1 ∧
  ∀ m, m < s.stack.length →
    trieAt root (s.word.take m) = some (stackElem s.stack m).1 ∧
    ((stackElem s.stack m).2.2 = [] ↔ m = 0) ∧
    FrontierOK g (s.word.take m) (stackElem s.stack m).2.2

/-- Words the rest of the run can still emit from state `s`: extend the
prefix at some stack element by a child at or past its cursor down to a
word node, spellably. -/
def ExpectedW (g : SimpleBoggleBoard) (s : LazyState) (w2 : List Nat) : Prop :=
  ∃ m, m < s.stack.length ∧ ∃ l ext id,
    w2 = s.word.take m ++ l :: ext ∧
    (stackElem s.stack m).2.1 ≤ l ∧
    WordAt (stackElem s.stack m).1 (l :: ext) id ∧
    Spellable g w2

/-- With an empty next frontier for `l`, no word starting `w ++ [l]`
is spellable. -/
theorem no_spell_of_nf_empty {g : SimpleBoggleBoard} {b : RadixBoggleBoard}
    (hinv : BuildInv g (g.width * g.height) b) (hw : 0 < g.width)
    {w : List Nat} {Fr : List (Nat × BitSet)} (hFrOK : FrontierOK g w Fr)
    (hempty : Fr = [] ↔ w = []) {l : Nat} (hl26 : l < 26)
    (hnf : nextFrontier b Fr l = []) (ext : List Nat) :
    ¬ Spellable g (w ++ l :: ext) := by
  rintro ⟨cells, hcne, hgood, hmap⟩
  have hNF := nextFrontier_OK hinv hw hFrOK hempty hl26
  have hclen : w.length + 1 ≤ cells.length := by
    have h := congrArg List.length hmap
    rw [List.length_map, List.length_append, List.length_cons] at h
    omega
  have hcpne : cells.take (w.length + 1) ≠ [] := by
    intro hcon
    have h2 := congrArg List.length hcon
    rw [List.length_take, List.length_nil] at h2
    omega
  have hcpmap : (cells.take (w.length + 1)).map g.letter = w ++ [l] := by
    rw [List.map_take, hmap, List.take_append_eq_append_take,
      List.take_all_of_le (by omega)]
    have h2 : (l :: ext).take (w.length + 1 - w.length) = [l] := by
      rw [show w.length + 1 - w.length = 1 by omega]
      rfl
    rw [h2]
  obtain ⟨anc, hmem, _⟩ := hNF.2 (cells.take (w.length + 1))
    ((cells.take (w.length + 1)).getLast hcpne) hcpne (goodPath_take hgood _)
    hcpmap (List.getLast?_eq_getLast _ hcpne)
  rw [hnf] at hmem
  cases hmem

/-- Popping an exhausted element preserves the invariant and the
expected output set. -/
theorem lazy_pop {g : SimpleBoggleBoard} {root : Trie} (hroot : root.WF)
    {t : Trie} {cur : Nat} {Fr : List (Nat × BitSet)}
    {rest : List (Trie × Nat × List (Nat × BitSet))} {w : List Nat}
    (hSI : StateInv g root ⟨(t, cur, Fr) :: rest, w⟩)
    (hnone : t.iterNext cur = none) :
    (rest ≠ [] → StateInv g root ⟨rest, w.dropLast⟩) ∧
    (∀ w2, ExpectedW g ⟨(t, cur, Fr) :: rest, w⟩ w2 ↔
      ExpectedW g ⟨rest, w.dropLast⟩ w2) := by
  obtain ⟨hlen0, helem⟩ := hSI
  have hlen : rest.length + 1 = w.length + 1 := by simpa using hlen0
  have hrl : rest.length = w.length := by omega
  have htope := helem rest.length (by rw [List.length_cons]; omega)
  rw [stackElem_top, hrl, List.take_length] at htope
  obtain ⟨htri, _, _⟩ := htope
  have htwf : t.WF := WF_trieAt w hroot htri
  have hnoword : ∀ l2 ext id, cur ≤ l2 → ¬ WordAt t (l2 :: ext) id := by
    intro l2 ext id hle hwa
    rw [WordAt_cons] at hwa
    obtain ⟨u, hu, _⟩ := hwa
    rw [iterNext_none_char htwf hnone l2 hle] at hu
    cases hu
  constructor
  · intro hrne
    refine ⟨?_, ?_⟩
    · show rest.length = w.dropLast.length + 1
      rw [List.length_dropLast]
      have h2 : 0 < rest.length := List.length_pos.mpr hrne
      omega
    · intro m hm
      have hm2 : m < rest.length := hm
      have h0 := helem m (by rw [List.length_cons]; omega)
      rw [stackElem_low hm2,
        show w.take m = w.dropLast.take m from (take_dropLast (by omega)).symm] at h0
      exact h0
  · intro w2
    constructor
    · rintro ⟨m, hm, l2, ext, id, hw2, hcur, hwa, hsp⟩
      rw [List.length_cons] at hm
      rcases Nat.lt_or_ge m rest.length with hmlt | hmge
      · refine ⟨m, hmlt, l2, ext, id, ?_, ?_, ?_, hsp⟩
        · rw [hw2, take_dropLast (by omega)]
        · rw [stackElem_low hmlt] at hcur
          exact hcur
        · rw [stackElem_low hmlt] at hwa
          exact hwa
      · have hmeq : m = rest.length := by omega
        subst hmeq
        rw [stackElem_top] at hcur hwa
        exact absurd hwa (hnoword l2 ext id hcur)
    · rintro ⟨m, hm, l2, ext, id, hw2, hcur, hwa, hsp⟩
      have hmlt : m < rest.length := hm
      refine ⟨m, by rw [List.length_cons]; omega, l2, ext, id, ?_, ?_, ?_, hsp⟩
      · rw [hw2, take_dropLast (by omega)]
      · rw [stackElem_low hmlt]
        exact hcur
      · rw [stackElem_low hmlt]
        exact hwa

/-- Skipping a child whose next frontier is empty (advancing the
cursor) preserves the invariant and the expected output set. -/
theorem lazy_skip {g : SimpleBoggleBoard} {b : RadixBoggleBoard} {root : Trie}
    (hinv : BuildInv g (g.width * g.height) b) (hw : 0 < g.width) (hroot : root.WF)
    {t child : Trie} {cur l cur2 : Nat} {Fr : List (Nat × BitSet)}
    {rest : List (Trie × Nat × List (Nat × BitSet))} {w : List Nat}
    (hSI : StateInv g root ⟨(t, cur, Fr) :: rest, w⟩)
    (hsome : t.iterNext cur = some ((child, l), cur2))
    (hnf : nextFrontier b Fr l = []) :
    StateInv g root ⟨(t, cur2, Fr) :: rest, w⟩ ∧
    (∀ w2, ExpectedW g ⟨(t, cur, Fr) :: rest, w⟩ w2 ↔
      ExpectedW g ⟨(t, cur2, Fr) :: rest, w⟩ w2) := by
  obtain ⟨hlen0, helem⟩ := hSI
  have hlen : rest.length + 1 = w.length + 1 := by simpa using hlen0
  have hrl : rest.length = w.length := by omega
  have htope := helem rest.length (by rw [List.length_cons]; omega)
  rw [stackElem_top, hrl, List.take_length] at htope
  obtain ⟨htri, hFr0, hFrOK⟩ := htope
  have htwf : t.WF := WF_trieAt w hroot htri
  obtain ⟨hcurle, hl32, hslot, hcur2, hlow⟩ := iterNext_some_char htwf hsome
  have hl26 := lt26_of_getD htwf hslot
  have hempty : Fr = [] ↔ w = [] := by
    rw [hFr0, List.length_eq_zero]
  have hnospell := no_spell_of_nf_empty hinv hw hFrOK hempty hl26 hnf
  constructor
  · refine ⟨by simpa using hlen, ?_⟩
    intro m hm
    rw [List.length_cons] at hm
    rcases Nat.lt_or_ge m rest.length with hmlt | hmge
    · have h0 := helem m (by rw [List.length_cons]; omega)
      rw [stackElem_low hmlt] at h0
      rw [stackElem_low hmlt]
      exact h0
    · have hmeq : m = rest.length := by omega
      subst hmeq
      rw [stackElem_top, hrl, List.take_length]
      exact ⟨htri, hFr0, hFrOK⟩
  · intro w2
    constructor
    · rintro ⟨m, hm, l2, ext, id, hw2, hcur, hwa, hsp⟩
      rw [List.length_cons] at hm
      rcases Nat.lt_or_ge m rest.length with hmlt | hmge
      · refine ⟨m, by rw [List.length_cons]; omega, l2, ext, id, hw2, ?_, ?_, hsp⟩
        · rw [stackElem_low hmlt]
          rw [stackElem_low hmlt] at hcur
          exact hcur
        · rw [stackElem_low hmlt]
          rw [stackElem_low hmlt] at hwa
          exact hwa
      · have hmeq : m = rest.length := by omega
        subst hmeq
        rw [stackElem_top] at hcur hwa
        rcases Nat.lt_or_ge l2 l with hl2lt | hl2ge
        · rw [WordAt_cons] at hwa
          obtain ⟨u, hu, _⟩ := hwa
          rw [hlow l2 hcur hl2lt] at hu
          cases hu
        · rcases Nat.eq_or_lt_of_le hl2ge with heq | hlt
          · rw [hrl, List.take_length] at hw2
            rw [hw2, ← heq] at hsp
            exact absurd hsp (hnospell ext)
          · refine ⟨rest.length, by rw [List.length_cons]; omega, l2, ext, id,
              hw2, ?_, ?_, hsp⟩
            · rw [stackElem_top]
              show cur2 ≤ l2
              omega
            · rw [stackElem_top]
              exact hwa
    · rintro ⟨m, hm, l2, ext, id, hw2, hcur, hwa, hsp⟩
      rw [List.length_cons] at hm
      rcases Nat.lt_or_ge m rest.length with hmlt | hmge
      · refine ⟨m, by rw [List.length_cons]; omega, l2, ext, id, hw2, ?_, ?_, hsp⟩
        · rw [stackElem_low hmlt]
          rw [stackElem_low hmlt] at hcur
          exact hcur
        · rw [stackElem_low hmlt]
          rw [stackElem_low hmlt] at hwa
          exact hwa
      · have hmeq : m = rest.length := by omega
        subst hmeq
        rw [stackElem_top] at hcur hwa
        have hc2 : cur2 ≤ l2 := hcur
        refine ⟨rest.length, by rw [List.length_cons]; omega, l2, ext, id, hw2, ?_, ?_, hsp⟩
        · rw [stackElem_top]
          show cur ≤ l2
          omega
        · rw [stackElem_top]
          exact hwa

set_option maxHeartbeats 1000000 in
/-- Pushing a child element with a non-empty next frontier: the
invariant moves to the new state, and the expected output set loses
exactly the newly reached word node (if the child is one). -/
theorem lazy_push {g : SimpleBoggleBoard} {b : RadixBoggleBoard} {root : Trie}
    (hinv : BuildInv g (g.width * g.height) b) (hw : 0 < g.width) (hroot : root.WF)
    {t child : Trie} {cur l cur2 : Nat} {Fr : List (Nat × BitSet)}
    {rest : List (Trie × Nat × List (Nat × BitSet))} {w : List Nat}
    (hSI : StateInv g root ⟨(t, cur, Fr) :: rest, w⟩)
    (hsome : t.iterNext cur = some ((child, l), cur2))
    (hnf : nextFrontier b Fr l ≠ []) :
    StateInv g root ⟨(child, 0, nextFrontier b Fr l) :: (t, cur2, Fr) :: rest, w ++ [l]⟩ ∧
    (∀ w2, ExpectedW g ⟨(t, cur, Fr) :: rest, w⟩ w2 ↔
      (ExpectedW g ⟨(child, 0, nextFrontier b Fr l) :: (t, cur2, Fr) :: rest, w ++ [l]⟩ w2 ∨
        ((∃ id, child.node_type = NodeType.Word id) ∧ w2 = w ++ [l]))) := by
  obtain ⟨hlen0, helem⟩ := hSI
  have hlen : rest.length + 1 = w.length + 1 := by simpa using hlen0
  have hrl : rest.length = w.length := by omega
  have htope := helem rest.length (by rw [List.length_cons]; omega)
  rw [stackElem_top, hrl, List.take_length] at htope
  obtain ⟨htri, hFr0, hFrOK⟩ := htope
  have htwf : t.WF := WF_trieAt w hroot htri
  obtain ⟨hcurle, hl32, hslot, hcur2, hlow⟩ := iterNext_some_char htwf hsome
  have hl26 := lt26_of_getD htwf hslot
  have hempty : Fr = [] ↔ w = [] := by
    rw [hFr0, List.length_eq_zero]
  have hnfOK : FrontierOK g (w ++ [l]) (nextFrontier b Fr l) :=
    nextFrontier_OK hinv hw hFrOK hempty hl26
  have hspl : Spellable g (w ++ [l]) := by
    rcases hnfe : nextFrontier b Fr l with _ | ⟨pa, nf2⟩
    · exact absurd hnfe hnf
    · obtain ⟨cells, hcne, hgood, hmap, _, _⟩ :=
        hnfOK.1 pa (by rw [hnfe]; exact List.mem_cons_self _ _)
      exact ⟨cells, hcne, hgood, hmap⟩
  have htric : trieAt root (w ++ [l]) = some child := by
    rw [trieAt_append, htri]
    show trieAt t [l] = some child
    rw [trieAt_cons, hslot]
    rfl
  have hse2 : stackElem ((child, 0, nextFrontier b Fr l) :: (t, cur2, Fr) :: rest)
      (rest.length + 1) = (child, 0, nextFrontier b Fr l) := by
    rw [show rest.length + 1 = ((t, cur2, Fr) :: rest).length from
      (List.length_cons _ _).symm]
    exact stackElem_top
  have hsemid : stackElem ((child, 0, nextFrontier b Fr l) :: (t, cur2, Fr) :: rest)
      rest.length = (t, cur2, Fr) := by
    rw [stackElem_low (show rest.length < ((t, cur2, Fr) :: rest).length from by
      rw [List.length_cons]; omega)]
    exact stackElem_top
  constructor
  · refine ⟨?_, ?_⟩
    · show rest.length + 1 + 1 = (w ++ [l]).length + 1
      rw [List.length_append, List.length_singleton]
      omega
    · intro m hm
      rw [List.length_cons, List.length_cons] at hm
      rcases Nat.lt_or_ge m rest.length with hmlt | hmge
      · have h0 := helem m (by rw [List.length_cons]; omega)
        rw [stackElem_low hmlt] at h0
        rw [stackElem_low (show m < ((t, cur2, Fr) :: rest).length from by
            rw [List.length_cons]; omega),
          stackElem_low hmlt,
          List.take_append_of_le_length (by omega)]
        exact h0
      · rcases Nat.eq_or_lt_of_le hmge with hmeq | hmgt
        · subst hmeq
          rw [hsemid, hrl, List.take_left]
          exact ⟨htri, by rw [hFr0], hFrOK⟩
        · have hmeq : m = rest.length + 1 := by omega
          subst hmeq
          rw [hse2, hrl, List.take_all_of_le (by simp)]
          refine ⟨htric, ⟨fun h => absurd h hnf, fun h => absurd h (by omega)⟩, hnfOK⟩
  · intro w2
    constructor
    · rintro ⟨m, hm, l2, ext, id, hw2, hcur, hwa, hsp⟩
      rw [List.length_cons] at hm
      rcases Nat.lt_or_ge m rest.length with hmlt | hmge
      · refine Or.inl ⟨m, by rw [List.length_cons, List.length_cons]; omega,
          l2, ext, id, ?_, ?_, ?_, hsp⟩
        · rw [hw2, List.take_append_of_le_length (by omega)]
        · rw [stackElem_low (show m < ((t, cur2, Fr) :: rest).length from by
              rw [List.length_cons]; omega), stackElem_low hmlt]
          rw [stackElem_low hmlt] at hcur
          exact hcur
        · rw [stackElem_low (show m < ((t, cur2, Fr) :: rest).length from by
              rw [List.length_cons]; omega), stackElem_low hmlt]
          rw [stackElem_low hmlt] at hwa
          exact hwa
      · have hmeq : m = rest.length := by omega
        subst hmeq
        rw [stackElem_top] at hcur hwa
        have hc : cur ≤ l2 := hcur
        rw [hrl, List.take_length] at hw2
        rcases Nat.lt_or_ge l2 l with hl2lt | hl2ge
        · rw [WordAt_cons] at hwa
          obtain ⟨u, hu, _⟩ := hwa
          rw [hlow l2 hc hl2lt] at hu
          cases hu
        · rcases Nat.eq_or_lt_of_le hl2ge with heq | hlt
          · subst heq
            rw [WordAt_cons] at hwa
            obtain ⟨u, hu, hwau⟩ := hwa
            rw [hslot] at hu
            injection hu with hu
            subst hu
            rcases ext with _ | ⟨e, ext2⟩
            · obtain ⟨u2, hu2, hnt⟩ := hwau
              injection hu2 with hu2
              rw [← hu2] at hnt
              exact Or.inr ⟨⟨id, hnt⟩, hw2⟩
            · refine Or.inl ⟨rest.length + 1,
                by rw [List.length_cons, List.length_cons]; omega, e, ext2, id,
                ?_, ?_, ?_, hsp⟩
              · rw [hw2, hrl, List.take_all_of_le (by simp), List.append_assoc]
                rfl
              · rw [hse2]
                exact Nat.zero_le e
              · rw [hse2]
                exact hwau
          · refine Or.inl ⟨rest.length,
              by rw [List.length_cons, List.length_cons]; omega, l2, ext, id,
              ?_, ?_, ?_, hsp⟩
            · rw [hw2, hrl, List.take_left]
            · rw [hsemid]
              show cur2 ≤ l2
              omega
            · rw [hsemid]
              exact hwa
    · rintro (⟨m, hm, l2, ext, id, hw2, hcur, hwa, hsp⟩ | ⟨⟨id, hnt⟩, hw2⟩)
      · rw [List.length_cons, List.length_cons] at hm
        rcases Nat.lt_or_ge m rest.length with hmlt | hmge
        · refine ⟨m, by rw [List.length_cons]; omega, l2, ext, id, ?_, ?_, ?_, hsp⟩
          · rw [List.take_append_of_le_length (by omega)] at hw2
            exact hw2
          · rw [stackElem_low (show m < ((t, cur2, Fr) :: rest).length from by
                rw [List.length_cons]; omega), stackElem_low hmlt] at hcur
            rw [stackElem_low hmlt]
            exact hcur
          · rw [stackElem_low (show m < ((t, cur2, Fr) :: rest).length from by
                rw [List.length_cons]; omega), stackElem_low hmlt] at hwa
            rw [stackElem_low hmlt]
            exact hwa
        · rcases Nat.eq_or_lt_of_le hmge with hmeq | hmgt
          · subst hmeq
            rw [hsemid] at hcur hwa
            have hc2 : cur2 ≤ l2 := hcur
            rw [hrl, List.take_left] at hw2
            refine ⟨rest.length, by rw [List.length_cons]; omega, l2, ext, id,
              ?_, ?_, ?_, hsp⟩
            · rw [hw2, hrl, List.take_length]
            · rw [stackElem_top]
              show cur ≤ l2
              omega
            · rw [stackElem_top]
              exact hwa
          · have hmeq : m = rest.length + 1 := by omega
            subst hmeq
            rw [hse2] at hcur hwa
            rw [hrl, List.take_all_of_le (by simp)] at hw2
            refine ⟨rest.length, by rw [List.length_cons]; omega, l, l2 :: ext, id,
              ?_, ?_, ?_, hsp⟩
            · rw [hw2, hrl, List.take_length, List.append_assoc]
              rfl
            · rw [stackElem_top]
              exact hcurle
            · rw [stackElem_top]
              show WordAt t (l :: l2 :: ext) id
              rw [WordAt_cons]
              exact ⟨child, hslot, hwa⟩
      · subst hw2
        refine ⟨rest.length, by rw [List.length_cons]; omega, l, [], id,
          ?_, ?_, ?_, hspl⟩
        · rw [hrl, List.take_length]
        · rw [stackElem_top]
          exact hcurle
        · rw [stackElem_top]
          show WordAt t [l] id
          rw [WordAt_cons]
          exact ⟨child, hslot, child, rfl, hnt⟩

/-! ### Running the lazy iterator -/

theorem lazyStep_nil (b : RadixBoggleBoard) (word : List Nat) :
    lazyStep b ⟨[], word⟩ = StepRes.halt := rfl

theorem lazyStep_pop (b : RadixBoggleBoard) {t : Trie} {cur : Nat}
    {Fr : List (Nat × BitSet)} {rest : List (Trie × Nat × List (Nat × BitSet))}
    {word : List Nat} (h : t.iterNext cur = none) :
    lazyStep b ⟨(t, cur, Fr) :: rest, word⟩ = StepRes.cont ⟨rest, word.dropLast⟩ := by
  unfold lazyStep
  show (match t.iterNext cur with
    | none => StepRes.cont ⟨rest, word.dropLast⟩
    | some ((child, letter), cur2) =>
      let nf := nextFrontier b Fr letter
      if nf = [] then StepRes.cont ⟨(t, cur2, Fr) :: rest, word⟩
      else
        match child.node_type with
        | NodeType.Word _ =>
          StepRes.emit ⟨(child, 0, nf) :: (t, cur2, Fr) :: rest, word ++ [letter]⟩
            (idx_vec_to_string (word ++ [letter]))
        | _ => StepRes.cont ⟨(child, 0, nf) :: (t, cur2, Fr) :: rest, word ++ [letter]⟩)
      = StepRes.cont ⟨rest, word.dropLast⟩
  rw [h]

theorem lazyStep_some (b : RadixBoggleBoard) {t child : Trie} {cur l cur2 : Nat}
    {Fr : List (Nat × BitSet)} {rest : List (Trie × Nat × List (Nat × BitSet))}
    {word : List Nat} (h : t.iterNext cur = some ((child, l), cur2)) :
    lazyStep b ⟨(t, cur, Fr) :: rest, word⟩ =
      (if nextFrontier b Fr l = [] then StepRes.cont ⟨(t, cur2, Fr) :: rest, word⟩
       else
        match child.node_type with
        | NodeType.Word _ =>
          StepRes.emit
            ⟨(child, 0, nextFrontier b Fr l) :: (t, cur2, Fr) :: rest, word ++ [l]⟩
            (idx_vec_to_string (word ++ [l]))
        | _ => StepRes.cont
            ⟨(child, 0, nextFrontier b Fr l) :: (t, cur2, Fr) :: rest, word ++ [l]⟩) := by
  unfold lazyStep
  show (match t.iterNext cur with
    | none => StepRes.cont ⟨rest, word.dropLast⟩
    | some ((child, letter), cur2) =>
      let nf := nextFrontier b Fr letter
      if nf = [] then StepRes.cont ⟨(t, cur2, Fr) :: rest, word⟩
      else
        match child.node_type with
        | NodeType.Word _ =>
          StepRes.emit ⟨(child, 0, nf) :: (t, cur2, Fr) :: rest, word ++ [letter]⟩
            (idx_vec_to_string (word ++ [letter]))
        | _ => StepRes.cont ⟨(child, 0, nf) :: (t, cur2, Fr) :: rest, word ++ [letter]⟩)
      = _
  rw [h]

theorem lazyRun_succ (b : RadixBoggleBoard) (fuel : Nat) (s : LazyState) :
    lazyRun b (fuel + 1) s
      = match lazyStep b s with
        | StepRes.halt => ([], true)
        | StepRes.cont s2 => lazyRun b fuel s2
        | StepRes.emit s2 w3 =>
          (w3 :: (lazyRun b fuel s2).1, (lazyRun b fuel s2).2) := rfl

/-- The newly pushed child is the trie node of the extended word, and
that word is spellable (its frontier is non-empty). -/
theorem lazy_top_word {g : SimpleBoggleBoard} {b : RadixBoggleBoard} {root : Trie}
    (hinv : BuildInv g (g.width * g.height) b) (hw : 0 < g.width) (hroot : root.WF)
    {t child : Trie} {cur l cur2 : Nat} {Fr : List (Nat × BitSet)}
    {rest : List (Trie × Nat × List (Nat × BitSet))} {w : List Nat}
    (hSI : StateInv g root ⟨(t, cur, Fr) :: rest, w⟩)
    (hsome : t.iterNext cur = some ((child, l), cur2))
    (hnf : nextFrontier b Fr l ≠ []) :
    trieAt root (w ++ [l]) = some child ∧ Spellable g (w ++ [l]) := by
  obtain ⟨hlen0, helem⟩ := hSI
  have hlen : rest.length + 1 = w.length + 1 := by simpa using hlen0
  have hrl : rest.length = w.length := by omega
  have htope := helem rest.length (by rw [List.length_cons]; omega)
  rw [stackElem_top, hrl, List.take_length] at htope
  obtain ⟨htri, hFr0, hFrOK⟩ := htope
  have htwf : t.WF := WF_trieAt w hroot htri
  obtain ⟨hcurle, hl32, hslot, hcur2, hlow⟩ := iterNext_some_char htwf hsome
  have hl26 := lt26_of_getD htwf hslot
  have hempty : Fr = [] ↔ w = [] := by
    rw [hFr0, List.length_eq_zero]
  have hnfOK : FrontierOK g (w ++ [l]) (nextFrontier b Fr l) :=
    nextFrontier_OK hinv hw hFrOK hempty hl26
  refine ⟨?_, ?_⟩
  · rw [trieAt_append, htri]
    show trieAt t [l] = some child
    rw [trieAt_cons, hslot]
    rfl
  · rcases hnfe : nextFrontier b Fr l with _ | ⟨pa, nf2⟩
    · exact absurd hnfe hnf
    · obtain ⟨cells, hcne, hgood, hmap, _, _⟩ :=
        hnfOK.1 pa (by rw [hnfe]; exact List.mem_cons_self _ _)
      exact ⟨cells, hcne, hgood, hmap⟩

/-- Soundness of any (even partial) lazy run: everything yielded is a
decoded spellable trie word. -/
theorem lazyRun_sound {g : SimpleBoggleBoard} {b : RadixBoggleBoard} {root : Trie}
    (hinv : BuildInv g (g.width * g.height) b) (hw : 0 < g.width) (hroot : root.WF) :
    ∀ (fuel : Nat) (s : LazyState), StateInv g root s →
      ∀ x ∈ (lazyRun b fuel s).1,
        ∃ w2 id, WordAt root w2 id ∧ w2 ≠ [] ∧ Spellable g w2 ∧
          x = idx_vec_to_string w2 := by
  intro fuel
  induction fuel with
  | zero =>
    intro s _ x hx
    cases hx
  | succ fuel ih =>
    intro s hSI x hx
    rcases s with ⟨stack, word⟩
    rcases stack with _ | ⟨⟨t, cur, Fr⟩, rest⟩
    · rw [lazyRun_succ, lazyStep_nil] at hx
      have hx2 : x ∈ ([] : List (List Nat)) := hx
      cases hx2
    · rcases hnext : t.iterNext cur with _ | ⟨⟨child, l⟩, cur2⟩
      · rw [lazyRun_succ, lazyStep_pop b hnext] at hx
        have hx2 : x ∈ (lazyRun b fuel ⟨rest, word.dropLast⟩).1 := hx
        rcases rest with _ | ⟨e2, rest2⟩
        · rcases fuel with _ | fuel2
          · cases hx2
          · rw [lazyRun_succ, lazyStep_nil] at hx2
            have hx3 : x ∈ ([] : List (List Nat)) := hx2
            cases hx3
        · exact ih _ ((lazy_pop hroot hSI hnext).1 (by intro h; cases h)) x hx2
      · by_cases hnf : nextFrontier b Fr l = []
        · rw [lazyRun_succ, lazyStep_some b hnext, if_pos hnf] at hx
          have hx2 : x ∈ (lazyRun b fuel ⟨(t, cur2, Fr) :: rest, word⟩).1 := hx
          exact ih _ (lazy_skip hinv hw hroot hSI hnext hnf).1 x hx2
        · rw [lazyRun_succ, lazyStep_some b hnext, if_neg hnf] at hx
          have hSI2 := (lazy_push hinv hw hroot hSI hnext hnf).1
          obtain ⟨htric, hspl⟩ := lazy_top_word hinv hw hroot hSI hnext hnf
          rcases hnt : child.node_type with _ | id
          · rw [hnt] at hx
            have hx2 : x ∈ (lazyRun b fuel
                ⟨(child, 0, nextFrontier b Fr l) :: (t, cur2, Fr) :: rest,
                  word ++ [l]⟩).1 := hx
            exact ih _ hSI2 x hx2
          · rw [hnt] at hx
            have hx2 : x ∈ idx_vec_to_string (word ++ [l]) ::
                (lazyRun b fuel
                  ⟨(child, 0, nextFrontier b Fr l) :: (t, cur2, Fr) :: rest,
                    word ++ [l]⟩).1 := hx
            rcases List.mem_cons.mp hx2 with hxe | hxtail
            · exact ⟨word ++ [l], id, ⟨child, htric, hnt⟩, by simp, hspl, hxe⟩
            · exact ih _ hSI2 x hxtail

set_option maxHeartbeats 1000000 in
/-- Exact output set of a halted lazy run: the decoded expected words
of the starting state. -/
theorem lazyRun_spec {g : SimpleBoggleBoard} {b : RadixBoggleBoard} {root : Trie}
    (hinv : BuildInv g (g.width * g.height) b) (hw : 0 < g.width) (hroot : root.WF) :
    ∀ (fuel : Nat) (s : LazyState) (outs : List (List Nat)), StateInv g root s →
      lazyRun b fuel s = (outs, true) →
      ∀ x, x ∈ outs ↔ ∃ w2, ExpectedW g s w2 ∧ x = idx_vec_to_string w2 := by
  intro fuel
  induction fuel with
  | zero =>
    intro s outs _ hrun
    injection hrun with _ hfalse
    cases hfalse
  | succ fuel ih =>
    intro s outs hSI hrun x
    rcases s with ⟨stack, word⟩
    rcases stack with _ | ⟨⟨t, cur, Fr⟩, rest⟩
    · rw [lazyRun_succ, lazyStep_nil] at hrun
      have h2 : (([] : List (List Nat)), true) = (outs, true) := hrun
      injection h2 with houts _
      rw [← houts]
      constructor
      · intro hx
        cases hx
      · rintro ⟨w2, ⟨m, hm, _⟩, _⟩
        have hm2 : m < 0 := hm
        exact absurd hm2 (Nat.not_lt_zero m)
    · rcases hnext : t.iterNext cur with _ | ⟨⟨child, l⟩, cur2⟩
      · rw [lazyRun_succ, lazyStep_pop b hnext] at hrun
        have hrun2 : lazyRun b fuel ⟨rest, word.dropLast⟩ = (outs, true) := hrun
        have hEx := (lazy_pop hroot hSI hnext).2
        rcases rest with _ | ⟨e2, rest2⟩
        · have houts : outs = [] := by
            rcases fuel with _ | fuel2
            · injection hrun2 with _ hfalse
              cases hfalse
            · rw [lazyRun_succ, lazyStep_nil] at hrun2
              have h3 : (([] : List (List Nat)), true) = (outs, true) := hrun2
              injection h3 with h4 _
              exact h4.symm
          rw [houts]
          constructor
          · intro hx
            cases hx
          · rintro ⟨w2, hexp, _⟩
            rw [hEx w2] at hexp
            obtain ⟨m, hm, _⟩ := hexp
            have hm2 : m < 0 := hm
            exact absurd hm2 (Nat.not_lt_zero m)
        · have hSI2 := (lazy_pop hroot hSI hnext).1 (by intro h; cases h)
          rw [ih _ outs hSI2 hrun2 x]
          constructor
          · rintro ⟨w2, hexp, hxe⟩
            exact ⟨w2, (hEx w2).mpr hexp, hxe⟩
          · rintro ⟨w2, hexp, hxe⟩
            exact ⟨w2, (hEx w2).mp hexp, hxe⟩
      · by_cases hnf : nextFrontier b Fr l = []
        · rw [lazyRun_succ, lazyStep_some b hnext, if_pos hnf] at hrun
          have hrun2 : lazyRun b fuel ⟨(t, cur2, Fr) :: rest, word⟩ = (outs, true) := hrun
          obtain ⟨hSI2, hEx⟩ := lazy_skip hinv hw hroot hSI hnext hnf
          rw [ih _ outs hSI2 hrun2 x]
          constructor
          · rintro ⟨w2, hexp, hxe⟩
            exact ⟨w2, (hEx w2).mpr hexp, hxe⟩
          · rintro ⟨w2, hexp, hxe⟩
            exact ⟨w2, (hEx w2).mp hexp, hxe⟩
        · obtain ⟨hSI2, hEx⟩ := lazy_push hinv hw hroot hSI hnext hnf
          rw [lazyRun_succ, lazyStep_some b hnext, if_neg hnf] at hrun
          rcases hnt : child.node_type with _ | id
          · rw [hnt] at hrun
            have hrun2 : lazyRun b fuel
                ⟨(child, 0, nextFrontier b Fr l) :: (t, cur2, Fr) :: rest, word ++ [l]⟩
                = (outs, true) := hrun
            rw [ih _ outs hSI2 hrun2 x]
            constructor
            · rintro ⟨w2, hexp, hxe⟩
              exact ⟨w2, (hEx w2).mpr (Or.inl hexp), hxe⟩
            · rintro ⟨w2, hexp, hxe⟩
              rcases (hEx w2).mp hexp with h | ⟨⟨id2, hnt2⟩, _⟩
              · exact ⟨w2, h, hxe⟩
              · rw [hnt] at hnt2
                exact NodeType.noConfusion hnt2
          · rw [hnt] at hrun
            have hrun3 : (idx_vec_to_string (word ++ [l]) ::
                (lazyRun b fuel ⟨(child, 0, nextFrontier b Fr l) :: (t, cur2, Fr) :: rest,
                  word ++ [l]⟩).1,
                (lazyRun b fuel ⟨(child, 0, nextFrontier b Fr l) :: (t, cur2, Fr) :: rest,
                  word ++ [l]⟩).2) = (outs, true) := hrun
            injection hrun3 with h1 h2
            have hrun4 : lazyRun b fuel
                ⟨(child, 0, nextFrontier b Fr l) :: (t, cur2, Fr) :: rest, word ++ [l]⟩
                = ((lazyRun b fuel
                  ⟨(child, 0, nextFrontier b Fr l) :: (t, cur2, Fr) :: rest,
                    word ++ [l]⟩).1, true) := by
              rw [← h2]
            have hiff := ih _ _ hSI2 hrun4 x
            rw [← h1]
            constructor
            · intro hx
              rcases List.mem_cons.mp hx with hxe | hxtail
              · exact ⟨word ++ [l], (hEx _).mpr (Or.inr ⟨⟨id, hnt⟩, rfl⟩), hxe⟩
              · obtain ⟨w2, hexp, hxe⟩ := hiff.mp hxtail
                exact ⟨w2, (hEx w2).mpr (Or.inl hexp), hxe⟩
            · rintro ⟨w2, hexp, hxe⟩
              rcases (hEx w2).mp hexp with h | ⟨_, hw2eq⟩
              · exact List.mem_cons_of_mem _ (hiff.mpr ⟨w2, h, hxe⟩)
              · rw [hxe, hw2eq]
                exact List.mem_cons_self _ _

/-- The initial iterator state satisfies the invariant. -/
theorem StateInv_init {g : SimpleBoggleBoard} {root : Trie} :
    StateInv g root (lazyInit root) := by
  refine ⟨rfl, ?_⟩
  intro m hm
  have hm1 : m < 1 := hm
  have hm0 : m = 0 := by omega
  subst hm0
  refine ⟨rfl, ⟨fun _ => rfl, fun _ => rfl⟩, ?_, ?_⟩
  · intro pa hpa
    cases hpa
  · intro cells pos hcne _ hmap _
    have hmap2 : cells.map g.letter = [] := hmap
    rw [List.map_eq_nil] at hmap2
    exact absurd hmap2 hcne

/-- Expected words of the initial state: all non-empty spellable trie
words. -/
theorem ExpectedW_init {g : SimpleBoggleBoard} (root : Trie) (w2 : List Nat) :
    ExpectedW g (lazyInit root) w2 ↔
      (∃ id, WordAt root w2 id) ∧ w2 ≠ [] ∧ Spellable g w2 := by
  constructor
  · rintro ⟨m, hm, l, ext, id, hw2, _, hwa, hsp⟩
    have hm1 : m < 1 := hm
    have hm0 : m = 0 := by omega
    subst hm0
    have hw2b : w2 = l :: ext := hw2
    subst hw2b
    exact ⟨⟨id, hwa⟩, List.cons_ne_nil l ext, hsp⟩
  · rintro ⟨⟨id, hwa⟩, hne, hsp⟩
    rcases w2 with _ | ⟨l, ext⟩
    · exact absurd rfl hne
    · exact ⟨0, Nat.one_pos, l, ext, id, rfl, Nat.zero_le l, hwa, hsp⟩

/-- Exact output set of an exhausted `DictBasedIterator`. -/
theorem solve_lazy_spec {g : SimpleBoggleBoard} {b : RadixBoggleBoard} {root : Trie}
    (hinv : BuildInv g (g.width * g.height) b) (hw : 0 < g.width) (hroot : root.WF)
    {fuel : Nat} {outs : List (List Nat)}
    (hrun : solve_lazy root b fuel = (outs, true)) :
    ∀ x, x ∈ outs ↔ ∃ w2 id, WordAt root w2 id ∧ w2 ≠ [] ∧ Spellable g w2 ∧
      x = idx_vec_to_string w2 := by
  intro x
  rw [lazyRun_spec hinv hw hroot fuel (lazyInit root) outs StateInv_init hrun x]
  constructor
  · rintro ⟨w2, hexp, hxe⟩
    obtain ⟨⟨id, hwa⟩, hne, hsp⟩ := (ExpectedW_init root w2).mp hexp
    exact ⟨w2, id, hwa, hne, hsp, hxe⟩
  · rintro ⟨w2, id, hwa, hne, hsp, hxe⟩
    exact ⟨w2, (ExpectedW_init root w2).mpr ⟨⟨id, hwa⟩, hne, hsp⟩, hxe⟩

/-- Soundness of any partial lazy run started from the initial state. -/
theorem solve_lazy_sound {g : SimpleBoggleBoard} {b : RadixBoggleBoard} {root : Trie}
    (hinv : BuildInv g (g.width * g.height) b) (hw : 0 < g.width) (hroot : root.WF)
    (fuel : Nat) :
    ∀ x ∈ (solve_lazy root b fuel).1,
      ∃ w2 id, WordAt root w2 id ∧ w2 ≠ [] ∧ Spellable g w2 ∧
        x = idx_vec_to_string w2 := by
  intro x hx
  exact lazyRun_sound hinv hw hroot fuel (lazyInit root) StateInv_init x hx

/-! ### Decoder comparison and concrete instances -/

theorem idx_len_ge : ∀ w : List Nat, w.length ≤ (idx_vec_to_string w).length := by
  intro w
  induction w with
  | nil => exact Nat.le_refl 0
  | cons i rest ih =>
    unfold idx_vec_to_string
    by_cases h : i + 97 = 113
    · rw [if_pos h, List.length_cons, List.length_cons, List.length_cons]
      omega
    · rw [if_neg h, List.length_cons, List.length_cons]
      omega

theorem idx_len_gt : ∀ w : List Nat, 16 ∈ w → w.length < (idx_vec_to_string w).length := by
  intro w
  induction w with
  | nil =>
    intro h
    cases h
  | cons i rest ih =>
    intro hmem
    unfold idx_vec_to_string
    by_cases h : i + 97 = 113
    · rw [if_pos h, List.length_cons, List.length_cons, List.length_cons]
      have h2 := idx_len_ge rest
      omega
    · rw [if_neg h, List.length_cons, List.length_cons]
      rcases List.mem_cons.mp hmem with h16 | h16
      · omega
      · have h2 := ih h16
        omega

theorem idx_eq_plain : ∀ w : List Nat, 16 ∉ w → idx_vec_to_string w = decodePlain w := by
  intro w
  induction w with
  | nil =>
    intro _
    rfl
  | cons i rest ih =>
    intro hmem
    have hi : i ≠ 16 := fun hcon => hmem (by rw [hcon]; exact List.mem_cons_self 16 rest)
    unfold idx_vec_to_string
    rw [if_neg (by omega)]
    show (i + 97) :: idx_vec_to_string rest = decodePlain (i :: rest)
    rw [ih (fun hcon => hmem (List.mem_cons_of_mem i hcon))]
    rfl

theorem idx_ne_plain {w : List Nat} (h16 : 16 ∈ w) :
    idx_vec_to_string w ≠ decodePlain w := by
  intro hcon
  have hlt := idx_len_gt w h16
  rw [hcon] at hlt
  unfold decodePlain at hlt
  rw [List.length_map] at hlt
  omega

/-- The board built from the all-`a` 2×2 grid. -/
def BA : RadixBoggleBoard :=
  (RadixBoggleBoard.fromSimple ⟨2, 2, [0, 0, 0, 0]⟩).getD (RadixBoggleBoard.new 2 2)

theorem BA_build : RadixBoggleBoard.fromSimple ⟨2, 2, [0, 0, 0, 0]⟩ = some BA := rfl

/-- The trie of the one-word dictionary {"a"} and its single leaf. -/
def aRoot : Trie := (buildTrie [(['a'], 0)]).getD Trie.new

def aLeaf : Trie := (aRoot.children.getD 0 none).getD Trie.new

theorem aRoot_build : buildTrie [(['a'], 0)] = some aRoot := rfl

theorem aRoot_nt : aRoot.node_type = NodeType.Prefix := rfl

theorem aRoot_slot0 : aRoot.children.getD 0 none = some aLeaf := rfl

theorem aRoot_slotS (i : Nat) : aRoot.children.getD (i + 1) none = none := by
  rw [show aRoot.children = some aLeaf :: List.replicate 25 none from rfl,
    List.getD_cons_succ]
  exact getD_replicate_none 25 i

theorem aLeaf_nt : aLeaf.node_type = NodeType.Word 0 := rfl

theorem aLeaf_slots (i : Nat) : aLeaf.children.getD i none = none := by
  rw [show aLeaf.children = List.replicate 26 none from rfl]
  exact getD_replicate_none 26 i

theorem aRoot_WF : aRoot.WF :=
  WF_insertAll [(['a'], 0)] Trie.new aRoot Trie.WF_new aRoot_build

/-- The only word node of the {"a"} trie is `[0]` with id `0`. -/
theorem wordAt_aRoot : ∀ (w : List Nat) (id : Nat), WordAt aRoot w id → w = [0] ∧ id = 0 := by
  intro w id hwa
  rcases w with _ | ⟨i, rest⟩
  · obtain ⟨u, hu, hnt⟩ := hwa
    injection hu with hu
    rw [← hu, aRoot_nt] at hnt
    exact NodeType.noConfusion hnt
  · obtain ⟨u, hu, hnt⟩ := hwa
    rw [trieAt_cons] at hu
    rcases i with _ | i2
    · rw [aRoot_slot0] at hu
      have hu2 : trieAt aLeaf rest = some u := hu
      rcases rest with _ | ⟨j, rest2⟩
      · have hu3 : some aLeaf = some u := hu2
        injection hu3 with hu3
        rw [← hu3, aLeaf_nt] at hnt
        injection hnt with hnt
        exact ⟨rfl, hnt.symm⟩
      · rw [trieAt_cons, aLeaf_slots j] at hu2
        have hu3 : (none : Option Trie) = some u := hu2
        cases hu3
    · rw [aRoot_slotS i2] at hu
      have hu2 : (none : Option Trie) = some u := hu
      cases hu2

/-- The board built from the 2×2 grid holding `q a / a a`. -/
def BQA : RadixBoggleBoard :=
  (RadixBoggleBoard.fromSimple ⟨2, 2, [16, 0, 0, 0]⟩).getD (RadixBoggleBoard.new 2 2)

theorem BQA_build : RadixBoggleBoard.fromSimple ⟨2, 2, [16, 0, 0, 0]⟩ = some BQA := rfl

/-- The trie of the one-word dictionary {"qa"}. -/
def qaRoot : Trie := (buildTrie [(['q', 'a'], 0)]).getD Trie.new

theorem qaRoot_build : buildTrie [(['q', 'a'], 0)] = some qaRoot := rfl

theorem qaRoot_WF : qaRoot.WF :=
  WF_insertAll [(['q', 'a'], 0)] Trie.new qaRoot Trie.WF_new qaRoot_build

/-! ## Claim theorems -/

/-- C4: for every finite `add`/`remove` (and `clear`) sequence from
`BitSet::new`, `len` is one past the highest currently-surviving added
index (`0` when none survives) and `get i = false` for every `i ≥ len`;
in particular removing `130` from `{0, 130}` leaves `len = 1`. -/
theorem C4_len_tracks_current_max (ops : List BOp) :
    (∀ k, (runOps ops).len ≤ k → (runOps ops).get k = false) ∧
    ((∀ k, survives k ops false = false) → (runOps ops).len = 0) ∧
    (∀ k, survives k ops false = true →
      survives ((runOps ops).len - 1) ops false = true ∧ k < (runOps ops).len) ∧
    (runOps [BOp.add 0, BOp.add 130, BOp.remove 130]).len = 1 := by
  have hwf := WF_runOps ops
  refine ⟨?_, ?_, ?_, by decide⟩
  · intro k hk
    rw [BitSet.get_eq_bitAt]
    cases hb : bitAt (runOps ops).data k with
    | false => rfl
    | true => exact absurd (hwf.bounded k hb) (by omega)
  · intro hall
    rcases hwf.top with h0 | htop
    · exact h0
    · rw [bitAt_runOps, hall] at htop
      cases htop
  · intro k hk
    have hbk : bitAt (runOps ops).data k = true := by rw [bitAt_runOps]; exact hk
    have hklt := hwf.bounded k hbk
    refine ⟨?_, hklt⟩
    rcases hwf.top with h0 | htop
    · omega
    · rw [bitAt_runOps] at htop
      exact htop

theorem C4_witness :
    (runOps [BOp.add 2, BOp.add 5, BOp.remove 5]).get 7 = false ∧
    2 < (runOps [BOp.add 2, BOp.add 5, BOp.remove 5]).len := by
  have h := C4_len_tracks_current_max [BOp.add 2, BOp.add 5, BOp.remove 5]
  exact ⟨h.1 7 (by decide), (h.2.2.1 2 (by decide)).2⟩

/-- C5: for the dynamic bit set and the fixed 32-wide bit set,
`iter_ones` yields exactly the indices whose `get` is true, in strictly
increasing order (hence no duplicates), and the number of yields is the
population count (`cardinality` for the 32-wide set). -/
theorem C5_iter_ones_exact (b : BitSet) (hw : WFdata b.data)
    (b32 : BitSet32) (h32 : b32.value < 2 ^ 32) :
    (∀ k, k ∈ b.iter_ones ↔ b.get k = true) ∧
    b.iter_ones.Pairwise (· < ·) ∧
    b.iter_ones.length = popcount b.data ∧
    (∀ k, k ∈ b32.iter_ones ↔ b32.get k = some true) ∧
    b32.iter_ones.Pairwise (· < ·) ∧
    b32.iter_ones.length = b32.cardinality := by
  refine ⟨fun k => BitSet.mem_iter_ones b k, BitSet.iter_ones_sorted b, ?_, ?_,
    iter_ones32_sorted b32 h32, length_iter_ones32 b32 h32⟩
  · rw [BitSet.iter_ones_spec]
    exact length_filter_bitAt b.data hw
  · intro k
    rw [mem_iter_ones32 b32 h32 k]
    constructor
    · rintro ⟨hk, hb⟩
      rw [get_spec b32 k hk, hb]
    · intro h
      by_cases hk : k < 32
      · rw [get_spec b32 k hk] at h
        injection h with h
        exact ⟨hk, h⟩
      · have hnone : b32.get k = none := by
          unfold BitSet32.get shiftMask
          rw [if_neg hk]
          rfl
        rw [hnone] at h
        cases h

theorem C5_witness :
    (0 ∈ (BitSet.mk [2 ^ 63 + 1] 64).iter_ones
      ↔ (BitSet.mk [2 ^ 63 + 1] 64).get 0 = true) ∧
    (BitSet32.mk 5).iter_ones.length = (BitSet32.mk 5).cardinality := by
  have h := C5_iter_ones_exact ⟨[2 ^ 63 + 1], 64⟩
    (by intro w hw; rw [List.mem_singleton] at hw; subst hw; norm_num) ⟨5⟩ (by norm_num)
  exact ⟨h.1 0, h.2.2.2.2.2⟩

/-- C7: a string with a character outside the supported alphabet makes
`Trie::insert` return `false` with the trie unchanged and
`Trie::contains` return the not-found result; neither call panics. -/
theorem C7_invalid_input_rejected (t : Trie) (s : List Char) (id : Nat)
    (h : ∃ c ∈ s, charIdx c = none) :
    t.insert s id = some (t, false) ∧ t.contains s = some none := by
  have hn := toIndices_eq_none h
  constructor
  · unfold Trie.insert
    rw [hn]
  · unfold Trie.contains
    rw [hn]

theorem C7_witness :
    Trie.new.insert [Char.ofNat 33] 0 = some (Trie.new, false) ∧
    Trie.new.contains [Char.ofNat 33] = some none :=
  C7_invalid_input_rejected Trie.new [Char.ofNat 33] 0
    ⟨Char.ofNat 33, by simp, by decide⟩

/-- C8 counterexample: after `add 0, add 130, remove 130` the highest
set bit is `0` (so `len = 1`, one storage word would cover it) but the
backing vector still holds all three words — storage words beyond the
one containing the highest set bit are present, merely zero. -/
theorem C8_counterexample :
    (runOps [BOp.add 0, BOp.add 130, BOp.remove 130]).len = 1 ∧
    (runOps [BOp.add 0, BOp.add 130, BOp.remove 130]).data.length = 3 ∧
    ((runOps [BOp.add 0, BOp.add 130, BOp.remove 130]).len + 63) / 64 ≠ 3 := by
  decide

/-- C8 (amended): after every operation sequence all bits at or above
`len` are zero, and storage grows by whole words on demand to cover the
highest index ever added — it never shrinks: `remove` and `clear` leave
the word count unchanged (words above the one holding the highest set
bit stay allocated, zeroed). -/
theorem C8_storage_grows_never_shrinks (ops : List BOp) :
    (∀ k, (runOps ops).len ≤ k → bitAt (runOps ops).data k = false) ∧
    (runOps ops).data.length = storageWords ops 0 ∧
    (∀ op, (runOps ops).data.length ≤ (runOps (ops ++ [op])).data.length) := by
  have hwf := WF_runOps ops
  refine ⟨?_, length_runOps_data ops, ?_⟩
  · intro k hk
    cases hb : bitAt (runOps ops).data k with
    | false => rfl
    | true => exact absurd (hwf.bounded k hb) (by omega)
  · intro op
    show (runOps ops).data.length ≤ (List.foldl BOp.apply BitSet.new (ops ++ [op])).data.length
    rw [List.foldl_append]
    show _ ≤ (BOp.apply (runOps ops) op).data.length
    rw [length_apply_data hwf]
    cases op with
    | add i => exact Nat.le_max_left _ _
    | remove i => exact Nat.le_refl _
    | clear => exact Nat.le_refl _

theorem C8_witness :
    bitAt (runOps [BOp.add 0, BOp.add 130, BOp.remove 130]).data 5 = false ∧
    (runOps [BOp.add 0, BOp.add 130, BOp.remove 130]).data.length
      = storageWords [BOp.add 0, BOp.add 130, BOp.remove 130] 0 := by
  have h := C8_storage_grows_never_shrinks [BOp.add 0, BOp.add 130, BOp.remove 130]
  exact ⟨h.1 5 (by decide), h.2.1⟩

/-- Every index the 32-wide set-bit iterator yields is below 32. -/
theorem iter32Aux_lt : ∀ (f v i : Nat), ∀ k ∈ iter32Aux v i f, k < 32 := by
  intro f
  induction f with
  | zero =>
    intro v i k hk
    cases hk
  | succ f ih =>
    intro v i k hk
    unfold iter32Aux at hk
    rcases hstep : iter32Next v i with _ | ⟨j, i'⟩
    · rw [hstep] at hk
      cases hk
    · rw [hstep] at hk
      rcases List.mem_cons.mp hk with rfl | htail
      · unfold iter32Next at hstep
        rcases Nat.lt_or_ge i 32 with hi | hi
        · rw [if_pos hi] at hstep
          by_cases hv : v &&& MAX32 >>> i > 0
          · rw [if_pos hv] at hstep
            injection hstep with hstep
            injection hstep with hj hi'
            omega
          · rw [if_neg hv] at hstep
            cases hstep
        · rw [if_neg (by omega)] at hstep
          cases hstep
      · exact ih v i' k htail

/-- C10: each indexed `BitSet32` operation is total exactly under the
implicit precondition `i < 32`; for `i ≥ 32` the shift overflows and the
call panics (is no value at all) instead of acting as a no-op or
returning `false`; and the set-bit iterator only produces indices below
32, so it never violates the precondition. -/
theorem C10_index_precondition (b : BitSet32) (i : Nat) :
    (i < 32 → (b.add i).isSome ∧ (b.remove i).isSome ∧ (b.get i).isSome ∧
      ∀ v, (b.set i v).isSome) ∧
    (32 ≤ i → b.add i = none ∧ b.remove i = none ∧ b.get i = none ∧
      ∀ v, b.set i v = none) ∧
    (∀ k ∈ b.iter_ones, k < 32) := by
  refine ⟨?_, ?_, fun k hk => iter32Aux_lt 33 b.value 0 k hk⟩
  · intro hi
    have hm := shiftMask_lt hi
    refine ⟨?_, ?_, ?_, ?_⟩
    · unfold BitSet32.add; rw [hm]; rfl
    · unfold BitSet32.remove; rw [hm]; rfl
    · unfold BitSet32.get; rw [hm]; rfl
    · intro v
      cases v with
      | true => unfold BitSet32.set BitSet32.add; rw [hm]; rfl
      | false => unfold BitSet32.set BitSet32.remove; rw [hm]; rfl
  · intro hi
    have hm : shiftMask i = none := by
      unfold shiftMask
      rw [if_neg (by omega)]
    refine ⟨?_, ?_, ?_, ?_⟩
    · unfold BitSet32.add; rw [hm]; rfl
    · unfold BitSet32.remove; rw [hm]; rfl
    · unfold BitSet32.get; rw [hm]; rfl
    · intro v
      cases v with
      | true => unfold BitSet32.set BitSet32.add; rw [hm]; rfl
      | false => unfold BitSet32.set BitSet32.remove; rw [hm]; rfl

theorem C10_witness :
    ((BitSet32.mk 5).add 3).isSome = true ∧ (BitSet32.mk 5).add 40 = none ∧
    (29 ∈ (BitSet32.mk 5).iter_ones → 29 < 32) := by
  have h3 := C10_index_precondition ⟨5⟩ 3
  have h40 := C10_index_precondition ⟨5⟩ 40
  exact ⟨(h3.1 (by omega)).1, (h40.2.1 (by omega)).1, fun hm => h3.2.2 29 hm⟩

/-- C6: over a trie built by a sequence of `insert` calls,
`contains` reports `Word k` exactly when the (case-normalized) query was
inserted and `k` is the id of its last insertion; once any inserted word
has the query as a nonempty prefix, `contains` reports something
(`Prefix` or `Word`); a never-inserted word is never reported `Word`. -/
theorem C6_lookup_last_write_wins
    (ws : List (List Char × Nat)) (T : Trie) (hb : buildTrie ws = some T)
    (s : List Char) (c0 : Fin 26) (ql : List (Fin 26))
    (hq : toIndices s = some (c0 :: ql)) :
    (∀ k, T.contains s = some (some (NodeType.Word k))
      ↔ lastExact ws (c0 :: ql) = some k) ∧
    ((∃ p ∈ ws, ∃ m, insertedIdx p = some m ∧ (c0 :: ql) <+: m) →
      ∃ nt, T.contains s = some (some nt)) ∧
    ((∀ p ∈ ws, insertedIdx p ≠ some (c0 :: ql)) →
      ∀ k, T.contains s ≠ some (some (NodeType.Word k))) := by
  have hcns : T.cns c0 ql = ws.foldl (lookStep (c0 :: ql)) none := by
    have h := insertAll_cns ws Trie.new T Trie.WF_new hb c0 ql
    rw [cns_new] at h
    exact h
  have hcont : T.contains s = some (T.cns c0 ql) := by
    unfold Trie.contains
    rw [hq]
  have hword : ∀ k, T.contains s = some (some (NodeType.Word k))
      ↔ lastExact ws (c0 :: ql) = some k := by
    intro k
    rw [hcont, hcns, ← foldl_lookStep_word ws (c0 :: ql) k]
    constructor
    · intro h
      injection h
    · intro h
      rw [h]
  refine ⟨hword, ?_, ?_⟩
  · intro hex
    have hsome := foldl_lookStep_isSome ws (c0 :: ql) none hex
    obtain ⟨nt, hnt⟩ := Option.isSome_iff_exists.mp hsome
    exact ⟨nt, by rw [hcont, hcns, hnt]⟩
  · intro hnone k hcon
    have hlast := (hword k).mp hcon
    unfold lastExact at hlast
    rcases hget : (ws.filter (fun p => decide (insertedIdx p = some (c0 :: ql)))).getLast?
      with _ | p
    · rw [hget] at hlast
      cases hlast
    · have hopt : p ∈ (ws.filter
          (fun p => decide (insertedIdx p = some (c0 :: ql)))).getLast? := by
        rw [Option.mem_def]
        exact hget
      obtain ⟨hne, hpeq⟩ := List.mem_getLast?_eq_getLast hopt
      have hmem : p ∈ ws.filter (fun p => decide (insertedIdx p = some (c0 :: ql))) := by
        rw [hpeq]
        exact List.getLast_mem hne
      have hfil := (List.mem_filter.mp hmem).2
      exact hnone p (List.mem_filter.mp hmem).1 (of_decide_eq_true hfil)

theorem C6_witness :
    ((buildTrie [([Char.ofNat 97, Char.ofNat 98], 0),
        ([Char.ofNat 97, Char.ofNat 98], 1)]).getD Trie.new).contains
      [Char.ofNat 65, Char.ofNat 66] = some (some (NodeType.Word 1)) := by
  have h := C6_lookup_last_write_wins
    [([Char.ofNat 97, Char.ofNat 98], 0), ([Char.ofNat 97, Char.ofNat 98], 1)]
    ((buildTrie [([Char.ofNat 97, Char.ofNat 98], 0),
      ([Char.ofNat 97, Char.ofNat 98], 1)]).getD Trie.new) rfl
    [Char.ofNat 65, Char.ofNat 66] ⟨0, by omega⟩ [⟨1, by omega⟩] (by decide)
  exact (h.1 1).mpr (by decide)

/-- C2 counterexample: the spec promises the indexer works for every
grid with `width ≥ 1`, `height ≥ 1`, but on the legal 1×1 grid the very
first `set` call indexes cell `i + 1 = 1` out of bounds and panics —
there is no built board at all. -/
theorem C2_counterexample :
    (1 ≤ (⟨1, 1, [0]⟩ : SimpleBoggleBoard).width ∧
      1 ≤ (⟨1, 1, [0]⟩ : SimpleBoggleBoard).height ∧
      (⟨1, 1, [0]⟩ : SimpleBoggleBoard).cells.length
        = (⟨1, 1, [0]⟩ : SimpleBoggleBoard).width
          * (⟨1, 1, [0]⟩ : SimpleBoggleBoard).height ∧
      ∀ x ∈ (⟨1, 1, [0]⟩ : SimpleBoggleBoard).cells, x < 26) ∧
    RadixBoggleBoard.fromSimple ⟨1, 1, [0]⟩ = none := by
  decide

/-- C2 (amended): for every rectangular grid with `width ≥ 2`,
`height ≥ 2` and cell values in `[0, 26)`, building the letter-indexed
board succeeds, and on the result the neighbor mask at cell `c` for
letter `v`, direction `d`, is set iff the geometric neighbor of `c` in
direction `d` exists on the grid (no wraparound) and holds letter `v`;
equivalently `neighbors a v` yields exactly the cells 8-adjacent to `a`
holding `v`.  (For `width = 1` or `height = 1` the build itself panics,
so the original `width ≥ 1`, `height ≥ 1` premise is too weak.) -/
theorem C2_mask_invariant (g : SimpleBoggleBoard)
    (hw2 : 2 ≤ g.width) (hh2 : 2 ≤ g.height)
    (hlen : g.cells.length = g.width * g.height) (hvals : ∀ x ∈ g.cells, x < 26) :
    ∃ b, RadixBoggleBoard.fromSimple g = some b ∧
      (∀ j v (d : Fin 8), j < g.width * g.height → v < 26 →
        (maskBit (b.maskAt j v) d = true ↔
          ∃ n, nbrIdx g.width g.height j d = some n ∧ g.letter n = v)) ∧
      (∀ a p v, a < g.width * g.height → v < 26 →
        (p ∈ b.neighbors a v ↔ g.adj a p ∧ g.letter p = v)) := by
  obtain ⟨b, hbuild, hinv⟩ := fromSimple_spec g hw2 hh2 hlen hvals
  have hw : 0 < g.width := by omega
  refine ⟨b, hbuild, ?_, ?_⟩
  · intro j v d hj hv
    rw [hinv.mask_bit j v d hj hv]
    constructor
    · rintro ⟨q, hq, _, hlet⟩
      refine ⟨q.1 * g.width + q.2, ?_, hlet⟩
      unfold nbrIdx
      rw [hq]
      rfl
    · rintro ⟨n, hn, hlet⟩
      unfold nbrIdx at hn
      rcases hq : nbrCoord g.width g.height (j / g.width) (j % g.width) d with _ | q
      · rw [hq] at hn
        cases hn
      · rw [hq] at hn
        injection hn with hn
        have hn2 : q.1 * g.width + q.2 = n := hn
        have hqlt := nbrCoord_lt d (Nat.div_lt_of_lt_mul hj) (Nat.mod_lt j hw) hq
        refine ⟨q, rfl, enc_lt hqlt.1 hqlt.2, ?_⟩
        rw [hn2]
        exact hlet
  · intro a p v ha hv
    rw [neighbors_spec hinv hw ha hv p]
    exact Iff.rfl

theorem C2_witness :
    ∃ b, RadixBoggleBoard.fromSimple ⟨2, 2, [0, 1, 2, 3]⟩ = some b := by
  obtain ⟨b, hb, _, _⟩ := C2_mask_invariant ⟨2, 2, [0, 1, 2, 3]⟩
    (by norm_num) (by norm_num) (by decide) (by decide)
  exact ⟨b, hb⟩

theorem BA_any0 : BA.any 0 = [0, 1, 2, 3] := by
  show (BA.alpha.getD 0 BitSet.new).iter_ones = _
  rw [BitSet.iter_ones_spec]
  decide

theorem nextFrontier_BA : nextFrontier BA [] 0
    = [(0, BitSet.new), (1, BitSet.new), (2, BitSet.new), (3, BitSet.new)] := by
  show (BA.any 0).map (fun pos => (pos, BitSet.new)) = _
  rw [BA_any0]
  rfl

/-- The exhausted lazy run of {"a"} over the all-`a` 2×2 board. -/
theorem solve_lazy_BA : solve_lazy aRoot BA 20 = ([[97]], true) := by
  show lazyRun BA 20 ⟨[(aRoot, 0, [])], []⟩ = ([[97]], true)
  rw [lazyRun_succ, lazyStep_some BA (show aRoot.iterNext 0 = some ((aLeaf, 0), 1) from rfl),
    if_neg (by rw [nextFrontier_BA]; decide)]
  show (idx_vec_to_string [0] ::
      (lazyRun BA 19 ⟨[(aLeaf, 0, nextFrontier BA [] 0), (aRoot, 1, [])], [0]⟩).1,
    (lazyRun BA 19 ⟨[(aLeaf, 0, nextFrontier BA [] 0), (aRoot, 1, [])], [0]⟩).2)
    = ([[97]], true)
  rw [nextFrontier_BA]
  decide

theorem BQA_any16 : BQA.any 16 = [0] := by
  show (BQA.alpha.getD 16 BitSet.new).iter_ones = _
  rw [BitSet.iter_ones_spec]
  decide

theorem nextFrontier_BQA : nextFrontier BQA [] 16 = [(0, BitSet.new)] := by
  show (BQA.any 16).map (fun pos => (pos, BitSet.new)) = _
  rw [BQA_any16]
  rfl

/-- The `q`-child of the {"qa"} trie. -/
def qNode : Trie := (qaRoot.children.getD 16 none).getD Trie.new

/-- The exhausted lazy run of {"qa"} over the `q a / a a` board. -/
theorem solve_lazy_BQA : solve_lazy qaRoot BQA 50 = ([[113, 117, 97]], true) := by
  show lazyRun BQA 50 ⟨[(qaRoot, 0, [])], []⟩ = ([[113, 117, 97]], true)
  rw [lazyRun_succ,
    lazyStep_some BQA (show qaRoot.iterNext 0 = some ((qNode, 16), 17) from rfl),
    if_neg (by rw [nextFrontier_BQA]; decide)]
  show lazyRun BQA 49 ⟨[(qNode, 0, nextFrontier BQA [] 16), (qaRoot, 17, [])], [16]⟩
    = ([[113, 117, 97]], true)
  rw [nextFrontier_BQA]
  decide

/-- C1 counterexample: for the dictionary {"a"} on the all-`a` 2×2
grid, the eager recursive search emits nothing (no `node_type` check
ever reaches depth-one nodes) while the exhausted lazy pull-based
search emits "a" — the two forms do not produce the same set. -/
theorem C1_counterexample :
    buildTrie [(['a'], 0)] = some aRoot ∧
    RadixBoggleBoard.fromSimple ⟨2, 2, [0, 0, 0, 0]⟩ = some BA ∧
    WordAt aRoot [0] 0 ∧
    (solve_radix aRoot BA).2 = [] ∧
    solve_lazy aRoot BA 20 = ([[97]], true) := by
  obtain ⟨b2, hb2, hinv⟩ := fromSimple_spec ⟨2, 2, [0, 0, 0, 0]⟩ (by decide) (by decide)
    (by decide) (by decide)
  rw [BA_build] at hb2
  injection hb2 with hb2
  subst hb2
  refine ⟨aRoot_build, BA_build, ⟨aLeaf, by rw [trieAt_cons, aRoot_slot0]; rfl, aLeaf_nt⟩,
    ?_, solve_lazy_BA⟩
  rw [List.eq_nil_iff_forall_not_mem]
  intro s hs
  obtain ⟨id, w2, hwa, hl2, _, _⟩ := (solve_radix_exact hinv (by decide) aRoot_WF
    (fun _ => decodeEager [0])
    (fun id w2 hw2 => by rw [(wordAt_aRoot w2 id hw2).1]) s).mp hs
  have h2 := (wordAt_aRoot w2 id hwa).1
  rw [h2] at hl2
  simp at hl2

/-- C1 (amended): over a board built from a well-formed grid and a
well-formed trie with unique word ids, every string the eager search
emits is also produced by the exhausted lazy search, and the lazy
output consists of exactly the eager output plus the decodes of the
spellable trie words of length one, which the eager form never emits. -/
theorem C1_engines_agree_above_length_one {g : SimpleBoggleBoard} {b : RadixBoggleBoard}
    {root : Trie} {fuel : Nat} {outs : List (List Nat)}
    (hw2 : 2 ≤ g.width) (hh2 : 2 ≤ g.height)
    (hlen : g.cells.length = g.width * g.height) (hvals : ∀ x ∈ g.cells, x < 26)
    (hb : RadixBoggleBoard.fromSimple g = some b) (hroot : root.WF)
    (huniq : ∀ id w1 w2, WordAt root w1 id → WordAt root w2 id → w1 = w2)
    (hrun : solve_lazy root b fuel = (outs, true)) :
    (∀ s, s ∈ (solve_radix root b).2 → s ∈ outs) ∧
    (∀ s, s ∈ outs ↔ (s ∈ (solve_radix root b).2 ∨
      ∃ w2 id, WordAt root w2 id ∧ w2.length = 1 ∧ Spellable g w2 ∧
        s = idx_vec_to_string w2)) := by
  obtain ⟨b2, hb2, hinv⟩ := fromSimple_spec g hw2 hh2 hlen hvals
  rw [hb] at hb2
  injection hb2 with hb2
  subst hb2
  have hwidth : 0 < g.width := by omega
  classical
  have hFex : ∀ s, s ∈ (solve_radix root b).2 ↔
      ∃ id w2, WordAt root w2 id ∧ 2 ≤ w2.length ∧ Spellable g w2 ∧
        s = decodeEager w2 := by
    refine solve_radix_exact hinv hwidth hroot
      (fun id => if h : ∃ w2, WordAt root w2 id then decodeEager (Exists.choose h) else [])
      ?_
    intro id w2 hwa
    beta_reduce
    rw [dif_pos (show ∃ w3, WordAt root w3 id from ⟨w2, hwa⟩)]
    rw [huniq id _ w2 (Exists.choose_spec (⟨w2, hwa⟩ : ∃ w3, WordAt root w3 id)) hwa]
  have hLz := solve_lazy_spec hinv hwidth hroot hrun
  constructor
  · intro s hs
    obtain ⟨id, w2, hwa, hl2, hsp, hse⟩ := (hFex s).mp hs
    refine (hLz s).mpr ⟨w2, id, hwa, ?_, hsp, ?_⟩
    · intro hcon
      rw [hcon] at hl2
      simp at hl2
    · rw [hse, idx_vec_to_string_eq_decodeEager]
  · intro s
    rw [hLz s]
    constructor
    · rintro ⟨w2, id, hwa, hne, hsp, hse⟩
      rcases Nat.lt_or_ge w2.length 2 with hlt | hge
      · have hl1 : w2.length = 1 := by
          rcases w2 with _ | ⟨a, rest⟩
          · exact absurd rfl hne
          · rw [List.length_cons] at hlt
            rw [List.length_cons]
            omega
        exact Or.inr ⟨w2, id, hwa, hl1, hsp, hse⟩
      · refine Or.inl ((hFex s).mpr ⟨id, w2, hwa, hge, hsp, ?_⟩)
        rw [hse, idx_vec_to_string_eq_decodeEager]
    · rintro (hs | ⟨w2, id, hwa, hl1, hsp, hse⟩)
      · obtain ⟨id, w2, hwa, hl2, hsp, hse⟩ := (hFex s).mp hs
        refine ⟨w2, id, hwa, ?_, hsp, ?_⟩
        · intro hcon
          rw [hcon] at hl2
          simp at hl2
        · rw [hse, idx_vec_to_string_eq_decodeEager]
      · refine ⟨w2, id, hwa, ?_, hsp, hse⟩
        intro hcon
        rw [hcon] at hl1
        simp at hl1

theorem C1_witness :
    (∀ id w1 w2, WordAt aRoot w1 id → WordAt aRoot w2 id → w1 = w2) ∧
    solve_lazy aRoot BA 20 = ([[97]], true) ∧
    (∀ s, s ∈ (solve_radix aRoot BA).2 → s ∈ [[97]]) := by
  have huniq : ∀ id w1 w2, WordAt aRoot w1 id → WordAt aRoot w2 id → w1 = w2 :=
    fun id w1 w2 h1 h2 => ((wordAt_aRoot w1 id h1).1).trans ((wordAt_aRoot w2 id h2).1).symm
  have hrun : solve_lazy aRoot BA 20 = ([[97]], true) := solve_lazy_BA
  exact ⟨huniq, hrun,
    (C1_engines_agree_above_length_one (by decide) (by decide) (by decide) (by decide)
      BA_build aRoot_WF huniq hrun).1⟩

/-- C3: every word either search form emits decodes a trie word that a
simple path on the board spells: a non-empty list of pairwise-distinct
(`Nodup`), consecutively 8-adjacent (`Chain' adj`) on-grid cells whose
letters are exactly the word's trie path. -/
theorem C3_emitted_words_have_simple_paths {g : SimpleBoggleBoard} {b : RadixBoggleBoard}
    {root : Trie} (hw2 : 2 ≤ g.width) (hh2 : 2 ≤ g.height)
    (hlen : g.cells.length = g.width * g.height) (hvals : ∀ x ∈ g.cells, x < 26)
    (hb : RadixBoggleBoard.fromSimple g = some b) (hroot : root.WF) :
    (∀ s ∈ (solve_radix root b).2,
      ∃ w2 id, WordAt root w2 id ∧ Spellable g w2 ∧ s = decodeEager w2) ∧
    (∀ fuel, ∀ s ∈ (solve_lazy root b fuel).1,
      ∃ w2 id, WordAt root w2 id ∧ Spellable g w2 ∧ s = idx_vec_to_string w2) := by
  obtain ⟨b2, hb2, hinv⟩ := fromSimple_spec g hw2 hh2 hlen hvals
  rw [hb] at hb2
  injection hb2 with hb2
  subst hb2
  have hwidth : 0 < g.width := by omega
  constructor
  · intro s hs
    obtain ⟨id, w2, hwa, hsp, hse⟩ := solve_radix_sound hinv hwidth hroot s hs
    exact ⟨w2, id, hwa, hsp, hse⟩
  · intro fuel s hs
    obtain ⟨w2, id, hwa, _, hsp, hse⟩ := solve_lazy_sound hinv hwidth hroot fuel s hs
    exact ⟨w2, id, hwa, hsp, hse⟩

theorem C3_witness :
    (2 ≤ (⟨2, 2, [16, 0, 0, 0]⟩ : SimpleBoggleBoard).width) ∧
    (∀ s ∈ (solve_radix qaRoot BQA).2,
      ∃ w2 id, WordAt qaRoot w2 id ∧ Spellable ⟨2, 2, [16, 0, 0, 0]⟩ w2 ∧
        s = decodeEager w2) := by
  refine ⟨by decide, ?_⟩
  exact (C3_emitted_words_have_simple_paths (by decide) (by decide) (by decide)
    (by decide) BQA_build qaRoot_WF).1

/-- C9 counterexample: the engine itself expands the stand-in letter
`q` (index 16) to "qu": for the dictionary {"qa"} on a grid holding a
`q` next to an `a`, the exhausted lazy search emits "qua"
(113, 117, 97), not the plain one-character-per-edge decode "qa"
(113, 97). -/
theorem C9_counterexample :
    buildTrie [(['q', 'a'], 0)] = some qaRoot ∧
    RadixBoggleBoard.fromSimple ⟨2, 2, [16, 0, 0, 0]⟩ = some BQA ∧
    WordAt qaRoot [16, 0] 0 ∧
    solve_lazy qaRoot BQA 50 = ([[113, 117, 97]], true) ∧
    decodePlain [16, 0] = [113, 97] ∧
    ([113, 117, 97] : List Nat) ≠ [113, 97] := by
  refine ⟨qaRoot_build, BQA_build,
    ⟨(trieAt qaRoot [16, 0]).getD Trie.new, rfl, rfl⟩, solve_lazy_BQA, rfl, by decide⟩

/-- C9 (amended): every emitted string of either search form is the
current trie path decoded with the game-specific `q → qu` expansion
applied by the engine itself (`replace("q","qu")` /
`idx_vec_to_string`); this differs from the plain per-edge decode
exactly on paths containing letter 16. -/
theorem C9_engine_applies_q_substitution {g : SimpleBoggleBoard} {b : RadixBoggleBoard}
    {root : Trie} (hw2 : 2 ≤ g.width) (hh2 : 2 ≤ g.height)
    (hlen : g.cells.length = g.width * g.height) (hvals : ∀ x ∈ g.cells, x < 26)
    (hb : RadixBoggleBoard.fromSimple g = some b) (hroot : root.WF) :
    (∀ s ∈ (solve_radix root b).2,
      ∃ w2 id, WordAt root w2 id ∧ s = idx_vec_to_string w2) ∧
    (∀ fuel, ∀ s ∈ (solve_lazy root b fuel).1,
      ∃ w2 id, WordAt root w2 id ∧ s = idx_vec_to_string w2) ∧
    (∀ w2 : List Nat, 16 ∈ w2 → idx_vec_to_string w2 ≠ decodePlain w2) ∧
    (∀ w2 : List Nat, 16 ∉ w2 → idx_vec_to_string w2 = decodePlain w2) := by
  obtain ⟨b2, hb2, hinv⟩ := fromSimple_spec g hw2 hh2 hlen hvals
  rw [hb] at hb2
  injection hb2 with hb2
  subst hb2
  have hwidth : 0 < g.width := by omega
  refine ⟨?_, ?_, fun w2 h => idx_ne_plain h, idx_eq_plain⟩
  · intro s hs
    obtain ⟨id, w2, hwa, _, hse⟩ := solve_radix_sound hinv hwidth hroot s hs
    refine ⟨w2, id, hwa, ?_⟩
    rw [hse, idx_vec_to_string_eq_decodeEager]
  · intro fuel s hs
    obtain ⟨w2, id, hwa, _, _, hse⟩ := solve_lazy_sound hinv hwidth hroot fuel s hs
    exact ⟨w2, id, hwa, hse⟩

theorem C9_witness :
    (2 ≤ (⟨2, 2, [16, 0, 0, 0]⟩ : SimpleBoggleBoard).width) ∧
    (∀ w2 : List Nat, 16 ∈ w2 → idx_vec_to_string w2 ≠ decodePlain w2) := by
  refine ⟨by decide, ?_⟩
  exact (C9_engine_applies_q_substitution (by decide) (by decide) (by decide)
    (by decide) BQA_build qaRoot_WF).2.2.1

end Boggle
